import Mathlib

/-!
# Verification of the agent-skills-cli sync engine

A shallow embedding, in Lean 4, of the sync engine of `agent-skills-cli`
(`src/agent_skills_cli/sync.py` together with the manifest persistence in
`src/agent_skills_cli/config.py`), and proofs of the behavioural claims made
by the natural-language specification.

Modelling conventions:
* Python strings are Lean `String`s; the handful of `str` methods the source
  uses (`strip`, `rstrip("/")`, `lower`, `endswith`) are re-implemented here
  over the character list of the string, mirroring Python semantics on the
  inputs the program can see.
* Filesystem paths are lists of path components (`List String`), relative to
  the project root.  `PurePosixPath` normalisation (dropping empty and `"."`
  segments) is modelled by `posixParts`.
* The store on disk is an association list `repo-id ↦ directory entries`,
  each entry carrying its name and whether it is a directory.  Symbolic-link
  destinations are an association list `link path ↦ destination state`.
* The external `git` pipeline (`init`/`remote add`/`sparse-checkout`/
  `fetch --depth 1`/`checkout`/`rev-parse`) is one oracle call
  `GitEnv.git url rev` returning either a resolved commit id or a failure;
  `GitEnv.skillOk repoId sha root` is the oracle for
  `(skill_path / "SKILL.md").is_file()` inside a (content-addressed) export.
* Python exceptions are modelled by `Except`, with the state at the raise
  point carried alongside the error so that the `try/except` rollback in
  `_sync_config` can be expressed faithfully.
-/

namespace AgentSkills

/-! ## Python string helpers -/

/-- The character class `[A-Za-z0-9]` of `_REPO_ID_RE`. -/
def isAlnumAscii (c : Char) : Bool :=
  ('A' ≤ c && c ≤ 'Z') || ('a' ≤ c && c ≤ 'z') || ('0' ≤ c && c ≤ '9')

/-- Whitespace characters stripped by Python `str.strip()` (ASCII range). -/
def pyIsSpace (c : Char) : Bool :=
  c == ' ' || c == '\t' || c == '\n' || c == '\r' || c == '\x0b' || c == '\x0c'

/-- Python `str.strip()`. -/
def pyStrip (s : String) : String :=
  String.mk (((s.data.dropWhile pyIsSpace).reverse.dropWhile pyIsSpace).reverse)

def rstripSlashCore (l : List Char) : List Char :=
  (l.reverse.dropWhile (· == '/')).reverse

/-- Python `str.rstrip("/")`. -/
def pyRstripSlash (s : String) : String :=
  String.mk (rstripSlashCore s.data)

/-- Python `str.lower()` (ASCII case folding suffices for the inputs used). -/
def pyLower (s : String) : String :=
  String.mk (s.data.map Char.toLower)

/-- Python `s.endswith(suf)`. -/
def pyEndsWith (s suf : String) : Bool :=
  suf.data.isSuffixOf s.data

/-! ## `_repo_id`: transliteration of a repository locator

Source: `_REPO_ID_RE = re.compile(r"[^A-Za-z0-9]+")` and
`_repo_id(repo_url) = _REPO_ID_RE.sub("__", repo_url).strip("_")`. -/

/-- One pass of `re.sub("[^A-Za-z0-9]+", "__", ·)`: each maximal run of
non-alphanumeric characters becomes a single `"__"`.  The `inRun` flag
records whether the previous character was part of such a run. -/
def subSepGo (inRun : Bool) : List Char → List Char
  | [] => []
  | c :: rest =>
    if isAlnumAscii c then c :: subSepGo false rest
    else if inRun then subSepGo true rest
    else '_' :: '_' :: subSepGo true rest

def subSep (l : List Char) : List Char := subSepGo false l

/-- Python `str.strip(c)`: remove every leading and trailing occurrence. -/
def stripChar (c : Char) (l : List Char) : List Char :=
  ((l.dropWhile (· == c)).reverse.dropWhile (· == c)).reverse

/-- `_repo_id` from `sync.py`. -/
def _repo_id (repo_url : String) : String :=
  String.mk (stripChar '_' (subSep repo_url.data))

/-! ## Skill locations and sparse path patterns -/

/-- `str.split("/")` (keeping empty segments), on the character list. -/
def splitSlashCore : List Char → List (List Char)
  | [] => [[]]
  | c :: rest =>
    if c == '/' then [] :: splitSlashCore rest
    else
      match splitSlashCore rest with
      | [] => [[c]]
      | p :: ps => (c :: p) :: ps

/-- The components of a `PurePosixPath` built from a relative path string:
empty and `"."` segments are dropped.  The same function models the
component splitting done by `pathlib` path joining (`worktree / root`). -/
def posixParts (s : String) : List String :=
  ((splitSlashCore s.data).map String.mk).filter (fun p => p != "" && p != ".")

/-- Join path components with `/` (the string form of a relative posix path). -/
def joinSlash : List String → String
  | [] => ""
  | [p] => p
  | p :: q :: rest => p ++ "/" ++ joinSlash (q :: rest)

/-- `str(PurePosixPath(s).parent)` for the path strings the program builds. -/
def posixParent (s : String) : String :=
  let ps := (posixParts s).dropLast
  if s.data.head? == some '/' then "/" ++ joinSlash ps
  else if ps.isEmpty then "." else joinSlash ps

/-- `_normalize_skill_path` from `sync.py`. -/
def _normalize_skill_path (value : String) : String :=
  let raw := pyStrip value
  if raw = "" then ""
  else
    let cleaned := pyRstripSlash raw
    if pyEndsWith (pyLower cleaned) "skill.md" then
      let parent := posixParent cleaned
      if parent = "." then "" else parent
    else cleaned

/-- One skill declaration as consumed by the sync engine
(`skill["name"]`, `skill.get("location", "")`, `skill.get("agents", [])`). -/
structure Skill where
  name : String
  location : String
  agents : List String
deriving DecidableEq, Repr

/-- The three sparse patterns contributed by one skill in the loop body of
`_collect_sparse_paths` (an empty normalized path contributes nothing). -/
def skillPatterns (sk : Skill) : List String :=
  let path := _normalize_skill_path sk.location
  if path = "" then []
  else
    let pre := pyRstripSlash path
    let base := if pre = "" ∨ pre = "." then "" else pre ++ "/"
    [base ++ "SKILL.md", base ++ "references/**", base ++ "scripts/**"]

/-- The `seen`-set loop of `_dedupe` from `sync.py`. -/
def dedupeAux (seen : List String) : List String → List String
  | [] => []
  | x :: xs => if x ∈ seen then dedupeAux seen xs else x :: dedupeAux (x :: seen) xs

/-- `_dedupe` from `sync.py`. -/
def _dedupe (items : List String) : List String := dedupeAux [] items

/-- `_collect_sparse_paths` from `sync.py`. -/
def _collect_sparse_paths (skills : List Skill) : List String :=
  _dedupe (skills.flatMap skillPatterns)

/-- Keep the first occurrence of each element (fuelled structural version,
used as the specification of first-occurrence deduplication). -/
def firstOccAux : Nat → List String → List String
  | 0, _ => []
  | _ + 1, [] => []
  | n + 1, x :: xs => x :: firstOccAux n (xs.filter (fun y => y != x))

def firstOccurrences (l : List String) : List String := firstOccAux l.length l

/-! ## `_ensure_symlink`: the per-destination linking policy

The state of the link destination path is abstracted into the cases the
source distinguishes (`is_symlink()`, `exists()`, `is_dir()`,
`any(iterdir())`); the target is passed together with the results of the
`target.exists()` / `target.is_dir()` precondition checks, and
`target.resolve()` is the identity in the model (store paths contain no
further links). -/

/-- What currently occupies a link destination path. -/
inductive DestState where
  | absent
  | symlinkTo (target : List String)
  | plainFile
  | emptyDir
  | nonEmptyDir
deriving DecidableEq, Repr

/-- A filesystem action performed on the link destination. -/
inductive LinkAct where
  | unlink
  | rmdir
  | mkLink (target : List String)
deriving DecidableEq, Repr

/-- Render a (project-root-relative) path the way the error messages do. -/
def renderPath (p : List String) : String := joinSlash p

/-- `_ensure_symlink` from `sync.py`, returning the list of destination
mutations it performs (empty list = no-op), or the `ConfigError` message. -/
def _ensure_symlink (link_path : List String) (dest : DestState)
    (target : List String) (targetExists targetIsDir force : Bool) :
    Except String (List LinkAct) :=
  if !targetExists then
    .error ("Symlink target does not exist: " ++ renderPath target)
  else if !targetIsDir then
    .error ("Symlink target is not a directory: " ++ renderPath target)
  else
    match dest with
    | .symlinkTo t =>
      if t = target then .ok [] else .ok [.unlink, .mkLink target]
    | .absent => .ok [.mkLink target]
    | .plainFile =>
      if !force then .error ("Path exists and is not a symlink: " ++ renderPath link_path)
      else .ok [.unlink, .mkLink target]
    | .emptyDir =>
      if !force then .error ("Path exists and is not a symlink: " ++ renderPath link_path)
      else .ok [.rmdir, .mkLink target]
    | .nonEmptyDir =>
      if !force then .error ("Path exists and is not a symlink: " ++ renderPath link_path)
      else .error ("Refusing to overwrite non-empty dir: " ++ renderPath link_path)

/-! ## The export copy step of `_export_sparse_repo` (fine-grained)

`_copy_tree(tmp_path, temp_export)` followed by `temp_export.replace(dest)`
is modelled as a sequence of primitive filesystem steps on the pair
(final identifier-keyed path `dest`, temporary sibling `.tmp-<sha>`), so
that every intermediate state is observable.  This code path only runs
when `dest.exists()` is false, and any stale temporary directory has been
removed, so the initial state is `⟨none, none⟩`. -/

/-- A directory tree: relative file paths with their contents. -/
abbrev FileTree := List (List String × String)

/-- The `ignore` callback of `_copy_tree` excludes every entry named
`.git`, at any depth, from the copy. -/
def exportTree (t : FileTree) : FileTree :=
  t.filter (fun e => !(e.1.contains ".git"))

/-- State of the repository store subtree during an export: contents at the
final identifier-keyed path and at the temporary sibling directory
(`none` = path absent). -/
structure ExportFS where
  dest : Option FileTree
  tmp : Option FileTree
deriving DecidableEq, Repr

/-- Primitive steps of the copy-then-rename sequence. -/
inductive CopyStep where
  | mkTmp
  | copyFile (p : List String) (content : String)
  | renameTmp
deriving DecidableEq, Repr

def copyStep (fs : ExportFS) : CopyStep → ExportFS
  | .mkTmp => { fs with tmp := some [] }
  | .copyFile p c => { fs with tmp := fs.tmp.map (fun t => t ++ [(p, c)]) }
  | .renameTmp => { dest := fs.tmp, tmp := none }

/-- The steps performed by `_copy_tree` + `temp_export.replace(dest)`:
create the temporary directory, copy each (non-`.git`) file into it, then
rename it onto the final path in one step. -/
def copySteps (t : FileTree) : List CopyStep :=
  .mkTmp :: ((exportTree t).map (fun e => .copyFile e.1 e.2) ++ [.renameTmp])

def runCopy (fs : ExportFS) (steps : List CopyStep) : ExportFS :=
  steps.foldl copyStep fs

def initExportFS : ExportFS := ⟨none, none⟩

/-- The `finally` clause: `if temp_export.exists(): shutil.rmtree(temp_export)`. -/
def exportFinally (fs : ExportFS) : ExportFS := { fs with tmp := none }

/-! ## `_dump_yaml`: how the manifest file is written

Source (`config.py`): `content = yaml.safe_dump(data); path.open("w")`
(truncating open) then `handle.write(content)`.  The file content between
the steps is observable. -/

/-- Primitive steps of a file write. -/
inductive FileWriteStep where
  | openTrunc
  | writeAll (s : String)
deriving DecidableEq, Repr

/-- Effect of a write step on the file content (`none` = file absent). -/
def fileStep (f : Option String) : FileWriteStep → Option String
  | .openTrunc => some ""
  | .writeAll s => some (f.getD "" ++ s)

/-- The write sequence `_dump_yaml` performs on the manifest path. -/
def dumpYamlSteps (content : String) : List FileWriteStep :=
  [.openTrunc, .writeAll content]

/-- Modelled from the spec: a write sequence is an *atomic replace* of
`old` by `new` when no intermediate state of the file shows anything other
than the old or the new content. -/
def AtomicReplace (steps : List FileWriteStep) (old new : String) : Prop :=
  ∀ k, k ≤ steps.length →
    (steps.take k).foldl fileStep (some old) = some old ∨
    (steps.take k).foldl fileStep (some old) = some new

/-! ## The sync orchestrator

`_sync_config` / `_sync_body` from `sync.py`, over a world consisting of
the store directory tree, the symlink destinations and the persisted
manifest file.  The repository-level effect of `_export_sparse_repo` is
used here (its copy step is atomic by the fine-grained model above):
the export either already exists (skip) or the identifier-keyed directory
appears in one step. -/

/-- A repository declaration as iterated by `_sync_body`
(`repo_entry["repo"]`, `repo_entry["rev"]`, `repo_entry["resolved_sha"]`,
`repo_entry.get("skills", [])`). -/
structure RepoEntry where
  repo : String
  rev : String
  resolved_sha : Option String
  skills : List Skill
deriving DecidableEq, Repr

/-- The validated in-memory configuration handed to the sync engine:
store root, agent name ↦ optional `target_dir`, ordered repositories. -/
structure ConfigData where
  store_dir : String
  agents : List (String × Option String)
  repos : List RepoEntry
deriving DecidableEq, Repr

/-- Deterministic serialization of the configuration (models
`yaml.safe_dump(data, sort_keys=False)`; the exact format is irrelevant,
only that it is a function of the data). -/
def dumpSkill (sk : Skill) : String :=
  "(name=" ++ sk.name ++ ";location=" ++ sk.location ++ ";agents=" ++
    String.intercalate "," sk.agents ++ ")"

def dumpRepo (r : RepoEntry) : String :=
  "(repo=" ++ r.repo ++ ";rev=" ++ r.rev ++ ";resolved_sha=" ++
    (match r.resolved_sha with | none => "~" | some s => s) ++ ";skills=" ++
    String.intercalate "," (r.skills.map dumpSkill) ++ ")"

def dumpData (d : ConfigData) : String :=
  "(store_dir=" ++ d.store_dir ++ ";agents=" ++
    String.intercalate ","
      (d.agents.map (fun a => a.1 ++ ":" ++ (a.2.getD "~"))) ++
    ";repos=" ++ String.intercalate "," (d.repos.map dumpRepo) ++ ")"

/-- The external collaborators: the git pipeline
(`init`/`remote add`/`sparse-checkout init+set`/`fetch --depth 1`/
`checkout FETCH_HEAD`/`rev-parse HEAD`, collapsed into one call returning
the resolved commit id or a failure message), and the
`(skill_path / "SKILL.md").is_file()` probe inside the content-addressed
export `store/repo_id/sha` at normalized skill root `root`. -/
structure GitEnv where
  git : String → String → Except String String
  skillOk : String → String → String → Bool

/-- One immediate child of a store repository directory. -/
structure DirEntry where
  name : String
  isDir : Bool
deriving DecidableEq, Repr

/-- Generic association-list lookup (first match). -/
def alGet {α β : Type} [DecidableEq α] : List (α × β) → α → Option β
  | [], _ => none
  | (k, v) :: rest, a => if k = a then some v else alGet rest a

/-- Generic association-list update: overwrite the first binding of the
key, or append a new binding at the end. -/
def alSet {α β : Type} [DecidableEq α] : List (α × β) → α → β → List (α × β)
  | [], a, b => [(a, b)]
  | (k, v) :: rest, a, b =>
    if k = a then (a, b) :: rest else (k, v) :: alSet rest a b

/-- The world state the orchestrator acts on: the store
(`store_dir / repo_id / …` subtrees), the symlink destinations inside the
agent target directories, and the bytes of the persisted manifest file. -/
structure World where
  store : List (String × List DirEntry)
  dests : List (List String × DestState)
  manifest : String
deriving DecidableEq, Repr

/-- Observable actions of a sync run, in order. -/
inductive Act where
  | gitFetch (url rev : String)
  | exportCopy (repo_id sha : String)
  | linkOp (link : List String) (act : LinkAct)
  | pruneEntry (repo_id name : String)
  | pruneRepo (repo_id : String)
  | saveManifest (content : String)
deriving DecidableEq, Repr

/-- The mutable state of one `_sync_config` invocation: the world, the
action trace, and the `created_dirs` / `processed_repos` bookkeeping plus
the in-place-updated repository list (`data["repos"]`). -/
structure SyncSt where
  world : World
  acts : List Act
  created_dirs : List (String × String)
  processed : List (String × String)
  repos_out : List RepoEntry
deriving DecidableEq, Repr

/-- Sequential processing with exception propagation: the error carries the
state at the raise point (Python state mutation survives the exception). -/
def foldE {α : Type} (f : SyncSt → α → Except (String × SyncSt) SyncSt) :
    SyncSt → List α → Except (String × SyncSt) SyncSt
  | st, [] => .ok st
  | st, x :: xs =>
    match f st x with
    | .error e => .error e
    | .ok st' => foldE f st' xs

def entriesHas (es : List DirEntry) (n : String) : Bool :=
  es.any (fun e => e.name == n)

/-- `repo_root.mkdir(parents=True, exist_ok=True)` at store level. -/
def storeMkdir (store : List (String × List DirEntry)) (id : String) :
    List (String × List DirEntry) :=
  if (alGet store id).isSome then store else store ++ [(id, [])]

/-- `_export_sparse_repo` at the store level: run the git pipeline; if the
identifier-keyed directory already exists, skip; otherwise remove a stale
temporary sibling, copy and atomically rename (one step here — justified
by the fine-grained `copySteps` model).  Returns `(resolved_sha, created)`. -/
def exportRepo (env : GitEnv) (repo_id url rev : String) (st : SyncSt) :
    Except (String × SyncSt) (String × Bool × SyncSt) :=
  let st1 := { st with world := { st.world with store := storeMkdir st.world.store repo_id } }
  let st2 := { st1 with acts := st1.acts ++ [Act.gitFetch url rev] }
  match env.git url rev with
  | .error e => .error ("Command failed: " ++ e, st2)
  | .ok sha =>
    let entries := (alGet st2.world.store repo_id).getD []
    if entriesHas entries sha then
      .ok (sha, false, st2)
    else
      let entries' := (entries.filter (fun e => e.name != ".tmp-" ++ sha)) ++ [⟨sha, true⟩]
      .ok (sha, true,
        { st2 with
          world := { st2.world with store := alSet st2.world.store repo_id entries' },
          acts := st2.acts ++ [Act.exportCopy repo_id sha] })

/-- The body of `_link_skill` for one agent name: skip when the agent has
no configured (truthy) `target_dir`; otherwise ensure the symlink
`target_dir / skill_name → skill_path`. -/
def linkAgent (agents : List (String × Option String)) (force : Bool)
    (skill_name : String) (skill_path : List String)
    (st : SyncSt) (agent : String) : Except (String × SyncSt) SyncSt :=
  match alGet agents agent with
  | some (some td) =>
    if td = "" then .ok st
    else
      let link_path := posixParts td ++ [skill_name]
      let dest := (alGet st.world.dests link_path).getD .absent
      match _ensure_symlink link_path dest skill_path true true force with
      | .error e => .error (e, st)
      | .ok lacts =>
        .ok { st with
          world := { st.world with
            dests := alSet st.world.dests link_path (.symlinkTo skill_path) },
          acts := st.acts ++ lacts.map (Act.linkOp link_path) }
  | _ => .ok st

/-- Per-skill step of `_sync_body`: check `SKILL.md` exists at the
resolved export path, then link the skill for each enabled agent. -/
def processSkill (env : GitEnv) (agents : List (String × Option String))
    (force : Bool) (store_dir repo_id sha : String)
    (st : SyncSt) (sk : Skill) : Except (String × SyncSt) SyncSt :=
  let skill_root := _normalize_skill_path sk.location
  let skill_path := posixParts store_dir ++ [repo_id, sha] ++ posixParts skill_root
  if env.skillOk repo_id sha skill_root then
    foldE (linkAgent agents force sk.name skill_path) st sk.agents
  else
    .error ("Missing SKILL.md for " ++ sk.name ++ " at " ++ renderPath skill_path, st)

/-- `repo_filter is not None and repo_entry.get("repo") not in repo_filter`
(the filter, when present, is the singleton `{repo_url}` of `sync_repo`). -/
def passesFilter (flt : Option String) (url : String) : Bool :=
  match flt with
  | none => true
  | some f => f == url

/-- One iteration of the repository loop of `_sync_body`. -/
def processEntry (env : GitEnv) (store_dir : String)
    (agents : List (String × Option String)) (flt : Option String)
    (force : Bool) (st : SyncSt) (entry : RepoEntry) :
    Except (String × SyncSt) SyncSt :=
  if !passesFilter flt entry.repo then
    .ok { st with repos_out := st.repos_out ++ [entry] }
  else if _collect_sparse_paths entry.skills = [] then
    .ok { st with repos_out := st.repos_out ++ [entry] }
  else
    let repo_id := _repo_id entry.repo
    match exportRepo env repo_id entry.repo entry.rev st with
    | .error e => .error e
    | .ok (sha, created, st1) =>
      let st2 := { st1 with
        created_dirs := st1.created_dirs ++ (if created then [(repo_id, sha)] else []),
        processed := alSet st1.processed repo_id sha,
        repos_out := st1.repos_out ++ [{ entry with resolved_sha := some sha }] }
      foldE (processSkill env agents force store_dir repo_id sha) st2 entry.skills

/-- `_cleanup_repo_root`: keep non-directories and the directory named
`keep`; every other directory (stale identifier or `.tmp-*` temporary) is
removed. -/
def cleanupRepoKept (keep : String) (es : List DirEntry) : List DirEntry :=
  es.filter (fun e => !e.isDir || e.name == keep)

def cleanupRepoRemoved (keep : String) (es : List DirEntry) : List DirEntry :=
  es.filter (fun e => e.isDir && e.name != keep)

/-- The `for repo_root, keep_sha in processed_repos.items()` loop of
`_cleanup_store` (skipping repo roots that do not exist). -/
def cleanupProcessed : List (String × String) → List (String × List DirEntry) →
    List (String × List DirEntry) × List Act
  | [], store => (store, [])
  | (id, sha) :: rest, store =>
    match alGet store id with
    | none => cleanupProcessed rest store
    | some es =>
      let out := cleanupProcessed rest (alSet store id (cleanupRepoKept sha es))
      (out.1, (cleanupRepoRemoved sha es).map (fun e => Act.pruneEntry id e.name) ++ out.2)

/-- The store-root sweep of `_cleanup_store` (full sync only): remove every
repository subtree whose id is not a processed repo root. -/
def sweepStore (keys : List String) (store : List (String × List DirEntry)) :
    List (String × List DirEntry) × List Act :=
  (store.filter (fun kv => keys.contains kv.1),
   (store.filter (fun kv => !keys.contains kv.1)).map (fun kv => Act.pruneRepo kv.1))

/-- `_cleanup_store` from `sync.py`. -/
def _cleanup_store (processed : List (String × String)) (flt : Option String)
    (store : List (String × List DirEntry)) :
    List (String × List DirEntry) × List Act :=
  let s1 := cleanupProcessed processed store
  match flt with
  | some _ => s1
  | none =>
    let s2 := sweepStore (processed.map (·.1)) s1.1
    (s2.1, s1.2 ++ s2.2)

/-- `_sync_body` from `sync.py`: the repository loop, then store pruning,
then `save_config` (the manifest write) as the final step. -/
def _sync_body (env : GitEnv) (cfg : ConfigData) (flt : Option String)
    (force : Bool) (st0 : SyncSt) :
    Except (String × SyncSt) (ConfigData × SyncSt) :=
  match foldE (processEntry env cfg.store_dir cfg.agents flt force) st0 cfg.repos with
  | .error e => .error e
  | .ok st =>
    let cl := _cleanup_store st.processed flt st.world.store
    let data' := { cfg with repos := st.repos_out }
    let content := dumpData data'
    .ok (data',
      { st with
        world := { st.world with store := cl.1, manifest := content },
        acts := st.acts ++ cl.2 ++ [Act.saveManifest content] })

/-- The `except` handler of `_sync_config`: delete every `created_dirs`
directory that still exists, in creation order. -/
def rollbackCreated : List (String × String) → List (String × List DirEntry) →
    List (String × List DirEntry)
  | [], store => store
  | (id, sha) :: rest, store =>
    rollbackCreated rest
      (match alGet store id with
       | none => store
       | some es =>
         if entriesHas es sha then alSet store id (es.filter (fun e => e.name != sha))
         else store)

/-- `_sync_config` from `sync.py`: run the body; on any failure roll back
the store directories created during this run and re-raise.  Returns the
outcome, the final world, and the action trace. -/
def _sync_config (env : GitEnv) (cfg : ConfigData) (w : World)
    (flt : Option String) (force : Bool) :
    Except String ConfigData × World × List Act :=
  match _sync_body env cfg flt force
      { world := w, acts := [], created_dirs := [], processed := [], repos_out := [] } with
  | .ok (data', st) => (.ok data', st.world, st.acts)
  | .error (e, st) =>
    (.error e,
     { st.world with store := rollbackCreated st.created_dirs st.world.store },
     st.acts)

/-- `sync_config`: a full (non-filtered) sync. -/
def sync_config (env : GitEnv) (cfg : ConfigData) (w : World) (force : Bool) :
    Except String ConfigData × World × List Act :=
  _sync_config env cfg w none force

/-- `sync_repo`: a sync filtered to a single repository locator. -/
def sync_repo (env : GitEnv) (cfg : ConfigData) (w : World) (repo_url : String)
    (force : Bool) : Except String ConfigData × World × List Act :=
  _sync_config env cfg w (some repo_url) force

/-! ## Lemmas about the export copy steps -/

theorem runCopy_copyFiles (l acc : FileTree) (d : Option FileTree) :
    runCopy ⟨d, some acc⟩ (l.map (fun e => CopyStep.copyFile e.1 e.2)) =
      ⟨d, some (acc ++ l)⟩ := by
  induction l generalizing acc with
  | nil => simp [runCopy]
  | cons x xs ih =>
    simp only [List.map_cons, runCopy, List.foldl_cons, copyStep, Option.map_some]
    have := ih (acc ++ [x])
    simp only [runCopy] at this
    simpa using this

/-- C2 (atomic export): every intermediate state of the copy-then-rename
sequence shows the final identifier-keyed path either absent or holding the
complete exported tree (the fetched tree minus version-control metadata);
before the rename the final path is still absent, and the `finally` cleanup
removes the temporary directory, restoring the initial state. -/
theorem export_copy_atomic (t : FileTree) (k : Nat)
    (hk : k ≤ (copySteps t).length) :
    ((runCopy initExportFS ((copySteps t).take k)).dest = none ∨
      (runCopy initExportFS ((copySteps t).take k)).dest = some (exportTree t)) ∧
    (k < (copySteps t).length →
      (runCopy initExportFS ((copySteps t).take k)).dest = none ∧
      exportFinally (runCopy initExportFS ((copySteps t).take k)) = initExportFS) := by
  have hlen : (copySteps t).length = (exportTree t).length + 2 := by
    simp [copySteps]
  cases k with
  | zero =>
    constructor
    · left; rfl
    · intro _; constructor <;> rfl
  | succ j =>
    have hstep :
        runCopy initExportFS ((copySteps t).take (j + 1)) =
          runCopy ⟨none, some []⟩
            ((((exportTree t).map (fun e => CopyStep.copyFile e.1 e.2)) ++
              [CopyStep.renameTmp]).take j) := by
      simp [copySteps, runCopy, copyStep, initExportFS]
    by_cases hj : j ≤ (exportTree t).length
    · -- still inside the copy phase (or exactly at the end of it)
      have htake :
          ((((exportTree t).map (fun e => CopyStep.copyFile e.1 e.2)) ++
            [CopyStep.renameTmp]).take j) =
            (((exportTree t).take j).map (fun e => CopyStep.copyFile e.1 e.2)) := by
        rw [List.take_append_of_le_length (by simpa using hj), List.map_take]
      have hstate :
          runCopy initExportFS ((copySteps t).take (j + 1)) =
            ⟨none, some ((exportTree t).take j)⟩ := by
        rw [hstep, htake, runCopy_copyFiles]
        simp
      constructor
      · left; rw [hstate]
      · intro _
        constructor
        · rw [hstate]
        · rw [hstate]; rfl
    · -- the rename has happened: j = (exportTree t).length + 1, k = length
      have hj' : j = (exportTree t).length + 1 := by
        have : j + 1 ≤ (exportTree t).length + 2 := by rw [← hlen]; exact hk
        omega
      have htake :
          ((((exportTree t).map (fun e => CopyStep.copyFile e.1 e.2)) ++
            [CopyStep.renameTmp]).take j) =
            (((exportTree t).map (fun e => CopyStep.copyFile e.1 e.2)) ++
              [CopyStep.renameTmp]) := by
        apply List.take_of_length_le
        simp [hj']
      have hstate :
          runCopy initExportFS ((copySteps t).take (j + 1)) =
            ⟨some (exportTree t), none⟩ := by
        rw [hstep, htake, runCopy, List.foldl_append]
        have := runCopy_copyFiles (exportTree t) [] none
        simp only [runCopy] at this
        rw [this]
        simp [copyStep]
      constructor
      · right; rw [hstate]
      · intro hlt
        exfalso
        rw [hlen] at hlt
        omega

/-- Witness for `export_copy_atomic` at a concrete tree (including a
`.git` entry that the copy excludes) and a concrete step count. -/
theorem export_copy_atomic_witness :
    (2 : Nat) ≤ (copySteps [([".git", "config"], "g"), (["SKILL.md"], "s")]).length ∧
    ((runCopy initExportFS
        ((copySteps [([".git", "config"], "g"), (["SKILL.md"], "s")]).take 2)).dest = none ∨
      (runCopy initExportFS
        ((copySteps [([".git", "config"], "g"), (["SKILL.md"], "s")]).take 2)).dest =
        some (exportTree [([".git", "config"], "g"), (["SKILL.md"], "s")])) ∧
    (2 < (copySteps [([".git", "config"], "g"), (["SKILL.md"], "s")]).length →
      (runCopy initExportFS
        ((copySteps [([".git", "config"], "g"), (["SKILL.md"], "s")]).take 2)).dest = none ∧
      exportFinally (runCopy initExportFS
        ((copySteps [([".git", "config"], "g"), (["SKILL.md"], "s")]).take 2)) =
        initExportFS) :=
  ⟨by decide,
   (export_copy_atomic [([".git", "config"], "g"), (["SKILL.md"], "s")] 2 (by decide)).1,
   (export_copy_atomic [([".git", "config"], "g"), (["SKILL.md"], "s")] 2 (by decide)).2⟩

/-! ## C10: the locator transliteration is not injective -/

/-- C10: `_repo_id` is not injective — two distinct repository locators
(identical alphanumeric runs, different separators) map to the same store
directory name, so two declared repositories can share one store subtree. -/
theorem repo_id_not_injective :
    ∃ u v : String, u ≠ v ∧ _repo_id u = _repo_id v :=
  ⟨"a-b", "a.b", by decide, by decide⟩

/-! ## C3: how the manifest is persisted -/

/-- C3 counterexample: the manifest write of `_dump_yaml` is *not* an
atomic replace — after the truncating `open("w")` the file holds neither
the old nor the new content (it is empty). -/
theorem dump_yaml_not_atomic_counterexample :
    ¬ AtomicReplace (dumpYamlSteps "b") "a" "b" := by
  intro h
  have h1 := h 1 (by decide)
  exact absurd h1 (by decide)

/-- C3 (amended): persisting the updated manifest is the last step of a
successful sync pass, but the write is a truncating open followed by a
single write — the file is empty in between, not an atomic replace. -/
theorem persist_is_last_step_and_truncating :
    (∀ env cfg w flt force d w' acts,
      _sync_config env cfg w flt force = (.ok d, w', acts) →
      acts.getLast? = some (.saveManifest (dumpData d)) ∧
        w'.manifest = dumpData d) ∧
    (∀ old c, ((dumpYamlSteps c).take 1).foldl fileStep (some old) = some "" ∧
      (dumpYamlSteps c).foldl fileStep (some old) = some c) := by
  constructor
  · intro env cfg w flt force d w' acts h
    unfold _sync_config at h
    cases hb : _sync_body env cfg flt force
        { world := w, acts := [], created_dirs := [], processed := [], repos_out := [] } with
    | ok p =>
      obtain ⟨data', st⟩ := p
      rw [hb] at h
      simp only [Prod.mk.injEq, Except.ok.injEq] at h
      obtain ⟨hd, hw, hacts⟩ := h
      unfold _sync_body at hb
      cases hf : foldE (processEntry env cfg.store_dir cfg.agents flt force)
          { world := w, acts := [], created_dirs := [], processed := [], repos_out := [] }
          cfg.repos with
      | ok st1 =>
        rw [hf] at hb
        simp only [Except.ok.injEq, Prod.mk.injEq] at hb
        obtain ⟨hd', hst⟩ := hb
        subst hst hd' hd hw
        constructor
        · rw [← hacts]; exact List.getLast?_concat _
        · rfl
      | error e =>
        rw [hf] at hb
        exact absurd hb (by simp)
    | error e =>
      rw [hb] at h
      obtain ⟨e', st⟩ := e
      simp at h
  · intro old c
    constructor <;> simp [dumpYamlSteps, fileStep]

/-- Witness for `persist_is_last_step_and_truncating`: a concrete
successful run whose trace ends with the manifest save. -/
theorem persist_is_last_step_witness :
    ([Act.gitFetch "u" "v", Act.exportCopy "u" "abc",
        Act.saveManifest (dumpData
          { store_dir := "st", agents := [],
            repos := [⟨"u", "v", some "abc", [⟨"s", "d", []⟩]⟩] })].getLast? =
      some (.saveManifest (dumpData
        { store_dir := "st", agents := [],
          repos := [⟨"u", "v", some "abc", [⟨"s", "d", []⟩]⟩] }))) ∧
    ((dumpYamlSteps "NEW").take 1).foldl fileStep (some "OLD") = some "" := by
  constructor
  · exact (persist_is_last_step_and_truncating.1
      { git := fun _ _ => .ok "abc", skillOk := fun _ _ _ => true }
      { store_dir := "st", agents := [], repos := [⟨"u", "v", none, [⟨"s", "d", []⟩]⟩] }
      { store := [], dests := [], manifest := "OLD" } none false
      { store_dir := "st", agents := [],
        repos := [⟨"u", "v", some "abc", [⟨"s", "d", []⟩]⟩] }
      { store := [("u", [⟨"abc", true⟩])], dests := [],
        manifest := dumpData
          { store_dir := "st", agents := [],
            repos := [⟨"u", "v", some "abc", [⟨"s", "d", []⟩]⟩] } }
      [Act.gitFetch "u" "v", Act.exportCopy "u" "abc",
        Act.saveManifest (dumpData
          { store_dir := "st", agents := [],
            repos := [⟨"u", "v", some "abc", [⟨"s", "d", []⟩]⟩] })]
      rfl).1
  · exact (persist_is_last_step_and_truncating.2 "OLD" "NEW").1

/-! ## C6: the link conflict policy -/

/-- C6: per (agent, skill) destination policy of `_ensure_symlink` — a
correct symlink is a no-op; a wrong symlink is removed and recreated; a
non-link destination is a fatal error naming the path without `force`;
with `force`, a plain file or empty directory is removed and relinked,
while a non-empty directory is still fatal. -/
theorem ensure_symlink_policy (lp t : List String) (force : Bool)
    (dest : DestState) :
    (_ensure_symlink lp (.symlinkTo t) t true true force = .ok []) ∧
    (∀ t0, t0 ≠ t →
      _ensure_symlink lp (.symlinkTo t0) t true true force =
        .ok [.unlink, .mkLink t]) ∧
    (dest = .plainFile ∨ dest = .emptyDir ∨ dest = .nonEmptyDir →
      _ensure_symlink lp dest t true true false =
        .error ("Path exists and is not a symlink: " ++ renderPath lp)) ∧
    (_ensure_symlink lp .plainFile t true true true = .ok [.unlink, .mkLink t]) ∧
    (_ensure_symlink lp .emptyDir t true true true = .ok [.rmdir, .mkLink t]) ∧
    (_ensure_symlink lp .nonEmptyDir t true true true =
      .error ("Refusing to overwrite non-empty dir: " ++ renderPath lp)) := by
  refine ⟨?_, ?_, ?_, ?_, ?_, ?_⟩
  · simp [_ensure_symlink]
  · intro t0 h; simp [_ensure_symlink, h]
  · rintro (rfl | rfl | rfl) <;> simp [_ensure_symlink]
  · simp [_ensure_symlink]
  · simp [_ensure_symlink]
  · simp [_ensure_symlink]

/-- Witness for `ensure_symlink_policy` at concrete paths. -/
theorem ensure_symlink_policy_witness :
    (_ensure_symlink [".claude", "skills", "s"] (.symlinkTo ["st", "r", "a", "d"])
      ["st", "r", "a", "d"] true true false = .ok []) ∧
    (_ensure_symlink [".claude", "skills", "s"] (.symlinkTo ["st", "r", "old", "d"])
      ["st", "r", "a", "d"] true true false =
      .ok [.unlink, .mkLink ["st", "r", "a", "d"]]) ∧
    (_ensure_symlink [".claude", "skills", "s"] .plainFile
      ["st", "r", "a", "d"] true true false =
      .error ("Path exists and is not a symlink: " ++
        renderPath [".claude", "skills", "s"])) ∧
    (_ensure_symlink [".claude", "skills", "s"] .emptyDir
      ["st", "r", "a", "d"] true true true =
      .ok [.rmdir, .mkLink ["st", "r", "a", "d"]]) ∧
    (_ensure_symlink [".claude", "skills", "s"] .nonEmptyDir
      ["st", "r", "a", "d"] true true true =
      .error ("Refusing to overwrite non-empty dir: " ++
        renderPath [".claude", "skills", "s"])) :=
  ⟨(ensure_symlink_policy [".claude", "skills", "s"] ["st", "r", "a", "d"] false .absent).1,
   (ensure_symlink_policy [".claude", "skills", "s"] ["st", "r", "a", "d"] false .absent).2.1
     ["st", "r", "old", "d"] (by decide),
   (ensure_symlink_policy [".claude", "skills", "s"] ["st", "r", "a", "d"] false .plainFile).2.2.1
     (Or.inl rfl),
   (ensure_symlink_policy [".claude", "skills", "s"] ["st", "r", "a", "d"] true .absent).2.2.2.2.1,
   (ensure_symlink_policy [".claude", "skills", "s"] ["st", "r", "a", "d"] true .absent).2.2.2.2.2⟩

/-! ## Path-string lemmas for the sparse pattern derivation -/

theorem rstripSlashCore_concat (l : List Char) (c : Char) (h : c ≠ '/') :
    rstripSlashCore (l ++ [c]) = l ++ [c] := by
  unfold rstripSlashCore
  rw [List.reverse_append]
  simp [List.dropWhile_cons, h]

theorem splitSlashCore_ne_nil (l : List Char) : splitSlashCore l ≠ [] := by
  induction l with
  | nil => simp [splitSlashCore]
  | cons c rest ih =>
    unfold splitSlashCore
    by_cases hc : c = '/'
    · simp [hc]
    · simp only [beq_iff_eq, hc, if_false]
      cases hr : splitSlashCore rest with
      | nil => simp
      | cons p ps => simp

theorem splitSlashCore_cons_ns (c : Char) (rest : List Char) (hc : c ≠ '/') :
    splitSlashCore (c :: rest) =
      match splitSlashCore rest with
      | [] => [[c]]
      | p :: ps => (c :: p) :: ps := by
  rw [splitSlashCore.eq_def]
  simp [hc]

theorem splitSlashCore_no_slash (a : List Char) (ha : ('/' : Char) ∉ a) :
    splitSlashCore a = [a] := by
  induction a with
  | nil => rfl
  | cons c rest ih =>
    have hc : c ≠ '/' := fun h => ha (h ▸ List.mem_cons_self c rest)
    have hrest : ('/' : Char) ∉ rest := fun h => ha (List.mem_cons_of_mem c h)
    rw [splitSlashCore_cons_ns c rest hc, ih hrest]

theorem splitSlashCore_append (a b : List Char) (ha : ('/' : Char) ∉ a) :
    splitSlashCore (a ++ '/' :: b) = a :: splitSlashCore b := by
  induction a with
  | nil => simp [splitSlashCore]
  | cons c rest ih =>
    have hc : c ≠ '/' := fun h => ha (h ▸ List.mem_cons_self c rest)
    have hrest : ('/' : Char) ∉ rest := fun h => ha (List.mem_cons_of_mem c h)
    rw [List.cons_append, splitSlashCore_cons_ns c _ hc, ih hrest]

theorem joinSlash_cons_cons (p q : String) (rest : List String) :
    joinSlash (p :: q :: rest) = p ++ "/" ++ joinSlash (q :: rest) := rfl

theorem joinSlash_concat (ps : List String) (q : String) (h : ps ≠ []) :
    joinSlash (ps ++ [q]) = joinSlash ps ++ "/" ++ q := by
  induction ps with
  | nil => exact absurd rfl h
  | cons p rest ih =>
    cases rest with
    | nil => rfl
    | cons r rs =>
      simp only [List.cons_append, joinSlash_cons_cons]
      rw [List.cons_append] at ih
      rw [ih (by simp)]
      simp [String.append_assoc]

theorem data_joinSlash_cons_cons (p q : String) (rest : List String) :
    (joinSlash (p :: q :: rest)).data = p.data ++ '/' :: (joinSlash (q :: rest)).data := by
  rw [joinSlash_cons_cons, String.data_append, String.data_append, List.append_assoc]
  rfl

theorem splitSlash_joinSlash (ps : List String) (h : ps ≠ [])
    (hcl : ∀ p ∈ ps, ('/' : Char) ∉ p.data) :
    splitSlashCore (joinSlash ps).data = ps.map String.data := by
  induction ps with
  | nil => exact absurd rfl h
  | cons p rest ih =>
    cases rest with
    | nil =>
      simp only [joinSlash, List.map]
      exact splitSlashCore_no_slash p.data (hcl p (List.mem_cons_self p []))
    | cons q rs =>
      rw [data_joinSlash_cons_cons,
        splitSlashCore_append _ _ (hcl p (List.mem_cons_self p _)),
        ih (by simp) (fun x hx => hcl x (List.mem_cons_of_mem p hx))]
      rfl

theorem posixParts_joinSlash (ps : List String) (h : ps ≠ [])
    (hcl : ∀ p ∈ ps, ('/' : Char) ∉ p.data ∧ p ≠ "" ∧ p ≠ ".") :
    posixParts (joinSlash ps) = ps := by
  unfold posixParts
  rw [splitSlash_joinSlash ps h (fun p hp => (hcl p hp).1)]
  have hmap : (ps.map String.data).map String.mk = ps := by
    rw [List.map_map]
    have : (String.mk ∘ String.data) = id := by
      funext s; rfl
    rw [this, List.map_id]
  rw [hmap]
  apply List.filter_eq_self.mpr
  intro p hp
  have := hcl p hp
  simp [this.2.1, this.2.2]

theorem joinSlash_ne_empty (ps : List String) (h : ps ≠ [])
    (hne : ∀ p ∈ ps, p ≠ "") : joinSlash ps ≠ "" := by
  cases ps with
  | nil => exact absurd rfl h
  | cons p rest =>
    cases rest with
    | nil => exact hne p (List.mem_cons_self p [])
    | cons q rs =>
      intro hcontra
      have hd := congrArg String.data hcontra
      rw [data_joinSlash_cons_cons] at hd
      have : p.data ++ '/' :: (joinSlash (q :: rs)).data ≠ [] := by simp
      exact this hd

theorem joinSlash_ne_dot (ps : List String) (h : ps ≠ [])
    (hcl : ∀ p ∈ ps, p ≠ "" ∧ p ≠ ".") : joinSlash ps ≠ "." := by
  cases ps with
  | nil => exact absurd rfl h
  | cons p rest =>
    cases rest with
    | nil => exact (hcl p (List.mem_cons_self p [])).2
    | cons q rs =>
      intro hcontra
      have hd := congrArg String.data hcontra
      rw [data_joinSlash_cons_cons] at hd
      have hp : p.data ≠ [] := by
        intro hp0
        exact (hcl p (List.mem_cons_self p _)).1 (String.ext hp0)
      have hdot : (".").data = ['.'] := rfl
      rw [hdot] at hd
      have hlen := congrArg List.length hd
      simp only [List.length_append, List.length_cons, List.length_singleton,
        List.length_nil] at hlen
      have : 1 ≤ p.data.length := Nat.one_le_iff_ne_zero.mpr
        (fun h0 => hp (List.eq_nil_of_length_eq_zero h0))
      omega

theorem joinSlash_last_char (ps : List String) (h : ps ≠ [])
    (hcl : ∀ p ∈ ps, ('/' : Char) ∉ p.data ∧ p ≠ "") :
    ∃ (l : List Char) (c : Char), (joinSlash ps).data = l ++ [c] ∧ c ≠ '/' := by
  induction ps with
  | nil => exact absurd rfl h
  | cons p rest ih =>
    cases rest with
    | nil =>
      have hp : p.data ≠ [] := fun h0 => (hcl p (List.mem_cons_self p _)).2 (String.ext h0)
      refine ⟨p.data.dropLast, p.data.getLast hp, ?_, ?_⟩
      · simp [joinSlash, List.dropLast_append_getLast hp]
      · exact fun hc => (hcl p (List.mem_cons_self p _)).1
          (hc ▸ List.getLast_mem hp)
    | cons q rs =>
      obtain ⟨l, c, hlc, hc⟩ := ih (by simp)
        (fun x hx => hcl x (List.mem_cons_of_mem p hx))
      refine ⟨p.data ++ '/' :: l, c, ?_, hc⟩
      rw [data_joinSlash_cons_cons, hlc]
      simp

theorem pyRstripSlash_joinSlash (ps : List String) (h : ps ≠ [])
    (hcl : ∀ p ∈ ps, ('/' : Char) ∉ p.data ∧ p ≠ "") :
    pyRstripSlash (joinSlash ps) = joinSlash ps := by
  obtain ⟨l, c, hlc, hc⟩ := joinSlash_last_char ps h hcl
  unfold pyRstripSlash
  rw [hlc, rstripSlashCore_concat l c hc, ← hlc]

theorem joinSlash_head_not_slash (p : String) (rest : List String)
    (hp : p ≠ "") (hps : ('/' : Char) ∉ p.data) :
    ((joinSlash (p :: rest)).data.head? == some '/') = false := by
  have hpd : p.data ≠ [] := fun h0 => hp (String.ext h0)
  have hhead : (joinSlash (p :: rest)).data.head? = p.data.head? := by
    cases rest with
    | nil => rfl
    | cons q rs => rw [data_joinSlash_cons_cons, List.head?_append_of_ne_nil _ hpd]
  rw [hhead]
  cases hpd' : p.data with
  | nil => exact absurd hpd' hpd
  | cons c cs =>
    have hc : c ≠ '/' := fun hh => hps (by rw [hpd']; exact hh ▸ List.mem_cons_self c cs)
    simp [hc]

theorem pyEndsWith_lower_skillmd (s : String) :
    pyEndsWith (pyLower (s ++ "SKILL.md")) "skill.md" = true := by
  unfold pyEndsWith pyLower
  have hdata : (s ++ "SKILL.md").data = s.data ++ "SKILL.md".data :=
    String.data_append s "SKILL.md"
  rw [hdata, List.map_append]
  have hmap : "SKILL.md".data.map Char.toLower = "skill.md".data := by decide
  rw [hmap]
  simp [List.isSuffixOf_iff_suffix, List.suffix_append]

/-- Left-cancellation of string append, as an inequality transfer. -/
theorem string_append_left_ne (b x y : String) (h : x ≠ y) : b ++ x ≠ b ++ y := by
  intro hcontra
  apply h
  apply String.ext
  have := congrArg String.data hcontra
  rw [String.data_append, String.data_append] at this
  exact List.append_cancel_left this

/-! ## `_dedupe` keeps the first occurrence of each pattern -/

theorem firstOccAux_congr (f₁ : Nat) :
    ∀ (f₂ : Nat) (l : List String), l.length ≤ f₁ → l.length ≤ f₂ →
      firstOccAux f₁ l = firstOccAux f₂ l := by
  induction f₁ with
  | zero =>
    intro f₂ l h1 _
    have : l = [] := List.eq_nil_of_length_eq_zero (Nat.le_zero.mp h1)
    subst this
    cases f₂ <;> rfl
  | succ n ih =>
    intro f₂ l h1 h2
    cases l with
    | nil => cases f₂ <;> rfl
    | cons x xs =>
      cases f₂ with
      | zero => simp at h2
      | succ m =>
        simp only [firstOccAux, List.cons.injEq, true_and]
        apply ih
        · exact le_trans (List.length_filter_le _ _) (by simpa using h1)
        · exact le_trans (List.length_filter_le _ _) (by simpa using h2)

theorem dedupeAux_eq_firstOcc (l : List String) :
    ∀ seen, dedupeAux seen l =
      firstOccurrences (l.filter (fun x => !seen.contains x)) := by
  induction l with
  | nil => intro seen; rfl
  | cons x xs ih =>
    intro seen
    by_cases hx : x ∈ seen
    · have hc : (!seen.contains x) = false := by simp [hx]
      simp only [dedupeAux, if_pos hx, List.filter_cons, hc, Bool.false_eq_true,
        if_false]
      exact ih seen
    · have hc : (!seen.contains x) = true := by simp [hx]
      have hstep : (x :: xs).filter (fun y => !seen.contains y) =
          x :: xs.filter (fun y => !seen.contains y) := by
        simp [List.filter_cons, hc, hx]
      have hrhs : firstOccurrences (x :: xs.filter (fun y => !seen.contains y)) =
          x :: firstOccAux (xs.filter (fun y => !seen.contains y)).length
            ((xs.filter (fun y => !seen.contains y)).filter (fun y => y != x)) := rfl
      have hfilter :
          (xs.filter (fun y => !seen.contains y)).filter (fun y => y != x) =
            xs.filter (fun y => !(x :: seen).contains y) := by
        rw [List.filter_filter]
        apply List.filter_congr
        intro a _
        show ((a != x) && !seen.contains a) = !(x :: seen).contains a
        simp only [List.contains_cons, Bool.not_or]
        rfl
      simp only [dedupeAux, if_neg hx]
      rw [hstep, hrhs, hfilter]
      congr 1
      rw [ih (x :: seen)]
      exact firstOccAux_congr _ _ _ (le_refl _)
        (hfilter ▸ List.length_filter_le _ _)

theorem dedupe_eq_firstOccurrences (l : List String) :
    _dedupe l = firstOccurrences l := by
  have h := dedupeAux_eq_firstOcc l []
  simpa using h

/-! ## C7: sparse path pattern derivation -/

theorem collect_singleton (n loc : String) (ags : List String) :
    _collect_sparse_paths [⟨n, loc, ags⟩] = _dedupe (skillPatterns ⟨n, loc, ags⟩) := by
  unfold _collect_sparse_paths
  simp

theorem skillPatterns_congr (n1 n2 l1 l2 : String) (a1 a2 : List String)
    (h : _normalize_skill_path l1 = _normalize_skill_path l2) :
    skillPatterns ⟨n1, l1, a1⟩ = skillPatterns ⟨n2, l2, a2⟩ := by
  unfold skillPatterns
  rw [show (Skill.mk n1 l1 a1).location = l1 from rfl,
    show (Skill.mk n2 l2 a2).location = l2 from rfl, h]

theorem dedupe_three (x y z : String) (hxy : x ≠ y) (hxz : x ≠ z) (hyz : y ≠ z) :
    _dedupe [x, y, z] = [x, y, z] := by
  simp [_dedupe, dedupeAux, hxy.symm, hxz.symm, hyz.symm,
    List.mem_singleton, List.mem_cons]

/-- A location that is already in canonical directory form is left
unchanged by `_normalize_skill_path`. -/
theorem normalize_canonical (d : String) (h1 : pyStrip d = d)
    (h2 : pyRstripSlash d = d) (h3 : pyEndsWith (pyLower d) "skill.md" = false)
    (h4 : d ≠ "") : _normalize_skill_path d = d := by
  unfold _normalize_skill_path
  rw [h1]
  simp [h4, h2, h3]

/-- `str(PurePosixPath(join ps [q]).parent) = join ps` for clean components. -/
theorem posixParent_concat (ps : List String) (q : String) (hne : ps ≠ [])
    (hcl : ∀ p ∈ ps ++ [q], ('/' : Char) ∉ p.data ∧ p ≠ "" ∧ p ≠ ".") :
    posixParent (joinSlash (ps ++ [q])) = joinSlash ps := by
  unfold posixParent
  have hparts : posixParts (joinSlash (ps ++ [q])) = ps ++ [q] :=
    posixParts_joinSlash (ps ++ [q]) (by simp) hcl
  rw [hparts, List.dropLast_concat]
  obtain ⟨p, rest, rfl⟩ : ∃ p rest, ps = p :: rest := by
    cases ps with
    | nil => exact absurd rfl hne
    | cons p rest => exact ⟨p, rest, rfl⟩
  have hp := hcl p (by simp)
  rw [show (p :: rest) ++ [q] = p :: (rest ++ [q]) from rfl]
  rw [joinSlash_head_not_slash p (rest ++ [q]) hp.2.1 hp.1]
  simp

/-- A location written as `dir/SKILL.md` normalizes to `dir`. -/
theorem normalize_join_skillmd (ps : List String) (hne : ps ≠ [])
    (hcl : ∀ p ∈ ps, ('/' : Char) ∉ p.data ∧ p ≠ "" ∧ p ≠ ".")
    (hstrip : pyStrip (joinSlash (ps ++ ["SKILL.md"])) = joinSlash (ps ++ ["SKILL.md"])) :
    _normalize_skill_path (joinSlash (ps ++ ["SKILL.md"])) = joinSlash ps := by
  have hclS : ∀ p ∈ ps ++ ["SKILL.md"], ('/' : Char) ∉ p.data ∧ p ≠ "" ∧ p ≠ "." := by
    intro p hp
    rcases List.mem_append.mp hp with h | h
    · exact hcl p h
    · rw [List.mem_singleton.mp h]
      refine ⟨by decide, by decide, by decide⟩
  have hLne : joinSlash (ps ++ ["SKILL.md"]) ≠ "" :=
    joinSlash_ne_empty _ (by simp) (fun p hp => (hclS p hp).2.1)
  have hrstrip : pyRstripSlash (joinSlash (ps ++ ["SKILL.md"])) =
      joinSlash (ps ++ ["SKILL.md"]) :=
    pyRstripSlash_joinSlash _ (by simp) (fun p hp => ⟨(hclS p hp).1, (hclS p hp).2.1⟩)
  have hends : pyEndsWith (pyLower (joinSlash (ps ++ ["SKILL.md"]))) "skill.md" = true := by
    rw [joinSlash_concat ps "SKILL.md" hne]
    exact pyEndsWith_lower_skillmd (joinSlash ps ++ "/")
  have hparent : posixParent (joinSlash (ps ++ ["SKILL.md"])) = joinSlash ps :=
    posixParent_concat ps "SKILL.md" hne hclS
  have hdot : joinSlash ps ≠ "." :=
    joinSlash_ne_dot ps hne (fun p hp => ⟨(hcl p hp).2.1, (hcl p hp).2.2⟩)
  unfold _normalize_skill_path
  rw [hstrip]
  simp [hLne, hrstrip, hends, hparent, hdot]

/-- A clean joined path is a fixed point of `_normalize_skill_path`,
provided it does not itself end in `skill.md`. -/
theorem normalize_join_fix (ps : List String) (hne : ps ≠ [])
    (hcl : ∀ p ∈ ps, ('/' : Char) ∉ p.data ∧ p ≠ "" ∧ p ≠ ".")
    (hstrip : pyStrip (joinSlash ps) = joinSlash ps)
    (hends : pyEndsWith (pyLower (joinSlash ps)) "skill.md" = false) :
    _normalize_skill_path (joinSlash ps) = joinSlash ps :=
  normalize_canonical _ hstrip
    (pyRstripSlash_joinSlash ps hne (fun p hp => ⟨(hcl p hp).1, (hcl p hp).2.1⟩))
    hends
    (joinSlash_ne_empty ps hne (fun p hp => (hcl p hp).2.1))

/-- C7 (amended): sparse pattern derivation.  For a canonical directory
location `d` the patterns are `d/SKILL.md`, `d/references/**`,
`d/scripts/**`; a location of `"."` yields the root-level patterns; an
*empty* location yields **no** patterns (the skill is skipped — not the
root patterns the original claim stated); a location `dir/SKILL.md`
contributes exactly what `dir` contributes; and patterns are deduplicated
across the repository's skills preserving first occurrence. -/
theorem sparse_path_derivation :
    (∀ (n : String) (ags : List String) (d : String),
      pyStrip d = d → pyRstripSlash d = d →
      pyEndsWith (pyLower d) "skill.md" = false → d ≠ "" → d ≠ "." →
      _collect_sparse_paths [⟨n, d, ags⟩] =
        [d ++ "/SKILL.md", d ++ "/references/**", d ++ "/scripts/**"]) ∧
    (∀ (n : String) (ags : List String),
      _collect_sparse_paths [⟨n, ".", ags⟩] =
        ["SKILL.md", "references/**", "scripts/**"]) ∧
    (∀ (n : String) (ags : List String),
      _collect_sparse_paths [⟨n, "", ags⟩] = []) ∧
    (∀ (n : String) (ags : List String) (ps : List String),
      ps ≠ [] → (∀ p ∈ ps, ('/' : Char) ∉ p.data ∧ p ≠ "" ∧ p ≠ ".") →
      pyStrip (joinSlash (ps ++ ["SKILL.md"])) = joinSlash (ps ++ ["SKILL.md"]) →
      pyStrip (joinSlash ps) = joinSlash ps →
      pyEndsWith (pyLower (joinSlash ps)) "skill.md" = false →
      _collect_sparse_paths [⟨n, joinSlash (ps ++ ["SKILL.md"]), ags⟩] =
        _collect_sparse_paths [⟨n, joinSlash ps, ags⟩]) ∧
    (∀ skills : List Skill,
      _collect_sparse_paths skills =
        firstOccurrences (skills.flatMap skillPatterns)) := by
  refine ⟨?_, ?_, ?_, ?_, ?_⟩
  · intro n ags d h1 h2 h3 h4 h5
    rw [collect_singleton]
    have hn := normalize_canonical d h1 h2 h3 h4
    unfold skillPatterns
    rw [show (Skill.mk n d ags).location = d from rfl, hn]
    rw [if_neg h4, h2]
    have hbase : (if d = "" ∨ d = "." then "" else d ++ "/") = d ++ "/" :=
      if_neg (by simp [h4, h5])
    simp only [hbase]
    have e1 : d ++ "/" ++ "SKILL.md" = d ++ "/SKILL.md" := by
      rw [String.append_assoc]; rfl
    have e2 : d ++ "/" ++ "references/**" = d ++ "/references/**" := by
      rw [String.append_assoc]; rfl
    have e3 : d ++ "/" ++ "scripts/**" = d ++ "/scripts/**" := by
      rw [String.append_assoc]; rfl
    rw [e1, e2, e3]
    exact dedupe_three _ _ _
      (string_append_left_ne d "/SKILL.md" "/references/**" (by decide))
      (string_append_left_ne d "/SKILL.md" "/scripts/**" (by decide))
      (string_append_left_ne d "/references/**" "/scripts/**" (by decide))
  · intro n ags
    rw [collect_singleton]
    rw [show skillPatterns ⟨n, ".", ags⟩ =
      ["SKILL.md", "references/**", "scripts/**"] from rfl]
    decide
  · intro n ags
    rw [collect_singleton]
    rfl
  · intro n ags ps hne hcl hstrip1 hstrip2 hends
    rw [collect_singleton, collect_singleton]
    rw [skillPatterns_congr n n (joinSlash (ps ++ ["SKILL.md"])) (joinSlash ps) ags ags]
    rw [normalize_join_skillmd ps hne hcl hstrip1,
      normalize_join_fix ps hne hcl hstrip2 hends]
  · intro skills
    exact dedupe_eq_firstOccurrences _

/-- Witness for `sparse_path_derivation` at concrete locations. -/
theorem sparse_path_derivation_witness :
    (_collect_sparse_paths [⟨"a", "skills/a", []⟩] =
      ["skills/a/SKILL.md", "skills/a/references/**", "skills/a/scripts/**"]) ∧
    (_collect_sparse_paths [⟨"b", ".", []⟩] =
      ["SKILL.md", "references/**", "scripts/**"]) ∧
    (_collect_sparse_paths [⟨"c", "", []⟩] = []) ∧
    (_collect_sparse_paths [⟨"d", joinSlash (["skills", "a"] ++ ["SKILL.md"]), []⟩] =
      _collect_sparse_paths [⟨"d", joinSlash ["skills", "a"], []⟩]) ∧
    (_collect_sparse_paths [⟨"e", "x", []⟩, ⟨"f", "x", []⟩] =
      firstOccurrences ([⟨"e", "x", []⟩, ⟨"f", "x", []⟩].flatMap skillPatterns)) :=
  ⟨sparse_path_derivation.1 "a" [] "skills/a" (by decide) (by decide) (by decide)
      (by decide) (by decide),
   sparse_path_derivation.2.1 "b" [],
   sparse_path_derivation.2.2.1 "c" [],
   sparse_path_derivation.2.2.2.1 "d" [] ["skills", "a"] (by decide)
     (by decide) (by decide) (by decide) (by decide),
   sparse_path_derivation.2.2.2.2 [⟨"e", "x", []⟩, ⟨"f", "x", []⟩]⟩

/-- C7 counterexample: an *empty* location does not normalize to the
repository root patterns — it contributes no patterns at all (the claim
asserted it yields `SKILL.md`, `references/**`, `scripts/**`). -/
theorem sparse_path_empty_location_counterexample :
    _collect_sparse_paths [⟨"s", "", []⟩] = [] ∧
    _collect_sparse_paths [⟨"s", "", []⟩] ≠
      ["SKILL.md", "references/**", "scripts/**"] := by
  constructor
  · rfl
  · decide

/-! ## Observers and well-formedness for the orchestrator -/

/-- The name marks a temporary export directory (`.tmp-` reserved prefix
of `_export_sparse_repo` / `_cleanup_repo_root`). -/
def isTmpName (n : String) : Bool := ".tmp-".data.isPrefixOf n.data

/-- An identifier-keyed export entry: a directory not marked temporary. -/
def isExportEntry (e : DirEntry) : Bool := e.isDir && !isTmpName e.name

/-- The export directory names below one store repo root. -/
def exNames (store : List (String × List DirEntry)) (id : String) : List String :=
  (((alGet store id).getD []).filter isExportEntry).map (·.name)

/-- The git pipeline invocations recorded in an action trace. -/
def gitCalls (acts : List Act) : List (String × String) :=
  acts.filterMap (fun a => match a with | .gitFetch u r => some (u, r) | _ => none)

/-- A repository entry the loop actually processes: it passes the filter
and derives at least one sparse path. -/
def eligible (flt : Option String) (r : RepoEntry) : Bool :=
  passesFilter flt r.repo && !(_collect_sparse_paths r.skills).isEmpty

/-- Resolved commit ids never collide with the temporary-name convention
(they are hex strings from `rev-parse`). -/
def GitOk (env : GitEnv) : Prop :=
  ∀ u r s, env.git u r = .ok s → isTmpName s = false

/-- The store is fully managed by the engine: it only ever creates
directories under a repo root, and directory names are unique. -/
def StoreWf (store : List (String × List DirEntry)) : Prop :=
  ∀ kv ∈ store, (∀ e ∈ kv.2, e.isDir = true) ∧ (kv.2.map (·.name)).Nodup

/-! ### Association list lemmas -/

theorem alGet_set_self {α β : Type} [DecidableEq α] (l : List (α × β)) (k : α) (v : β) :
    alGet (alSet l k v) k = some v := by
  induction l with
  | nil => simp [alGet, alSet]
  | cons kv rest ih =>
    by_cases h : kv.1 = k
    · simp [alSet, h, alGet]
    · simp [alSet, h, alGet, ih]

theorem alGet_set_ne {α β : Type} [DecidableEq α] (l : List (α × β)) (k k' : α) (v : β)
    (h : k' ≠ k) : alGet (alSet l k v) k' = alGet l k' := by
  induction l with
  | nil => simp [alGet, alSet, Ne.symm h]
  | cons kv rest ih =>
    obtain ⟨k1, v1⟩ := kv
    by_cases hk : k1 = k
    · subst hk
      simp [alSet, alGet, Ne.symm h]
    · by_cases hk' : k1 = k'
      · subst hk'
        simp [alSet, hk, alGet]
      · simp [alSet, hk, alGet, hk', ih]

theorem alSet_same {α β : Type} [DecidableEq α] (l : List (α × β)) (k : α) (v : β)
    (h : alGet l k = some v) : alSet l k v = l := by
  induction l with
  | nil => simp [alGet] at h
  | cons kv rest ih =>
    obtain ⟨k1, v1⟩ := kv
    by_cases hk : k1 = k
    · subst hk
      have h' : v1 = v := by simpa [alGet] using h
      simp [alSet, h']
    · simp only [alGet, hk, if_false, if_neg hk] at h
      simp [alSet, hk, ih h]

theorem alGet_append {α β : Type} [DecidableEq α] (l₁ l₂ : List (α × β)) (k : α) :
    alGet (l₁ ++ l₂) k =
      match alGet l₁ k with
      | some v => some v
      | none => alGet l₂ k := by
  induction l₁ with
  | nil => simp [alGet]
  | cons kv rest ih =>
    by_cases hk : kv.1 = k
    · simp [alGet, hk]
    · simp [alGet, hk, ih]

theorem alGet_isSome_set {α β : Type} [DecidableEq α] (l : List (α × β)) (k k' : α) (v : β) :
    (alGet (alSet l k v) k').isSome = ((alGet l k').isSome || k' = k) := by
  by_cases h : k' = k
  · subst h; simp [alGet_set_self]
  · simp [alGet_set_ne l k k' v h, h]

theorem storeMkdir_get_ne (store : List (String × List DirEntry)) (id id' : String)
    (h : id' ≠ id) : alGet (storeMkdir store id) id' = alGet store id' := by
  unfold storeMkdir
  by_cases hs : (alGet store id).isSome
  · simp [hs]
  · simp only [hs, Bool.false_eq_true, if_false]
    rw [alGet_append]
    cases hg : alGet store id' with
    | some v => simp
    | none => simp [alGet, Ne.symm h]

theorem storeMkdir_get_self (store : List (String × List DirEntry)) (id : String) :
    alGet (storeMkdir store id) id = some ((alGet store id).getD []) := by
  unfold storeMkdir
  cases hs : alGet store id with
  | some v => simp [hs]
  | none =>
    simp only [hs, Option.isSome_none, Bool.false_eq_true, if_false]
    rw [alGet_append, hs]
    simp [alGet]

/-! ### Generic invariant propagation through `foldE` -/

theorem foldE_inv {α : Type} (f : SyncSt → α → Except (String × SyncSt) SyncSt)
    (P : SyncSt → SyncSt → Prop)
    (hrefl : ∀ s, P s s)
    (htrans : ∀ s t u, P s t → P t u → P s u)
    (hok : ∀ s x s', f s x = .ok s' → P s s')
    (herr : ∀ s x e s', f s x = .error (e, s') → P s s') :
    ∀ (l : List α) (st : SyncSt),
      (∀ st', foldE f st l = .ok st' → P st st') ∧
      (∀ e st', foldE f st l = .error (e, st') → P st st') := by
  intro l
  induction l with
  | nil =>
    intro st
    constructor
    · intro st' h
      simp only [foldE, Except.ok.injEq] at h
      exact h ▸ hrefl st
    · intro e st' h
      simp [foldE] at h
  | cons x xs ih =>
    intro st
    constructor
    · intro st' h
      simp only [foldE] at h
      cases hf : f st x with
      | error ep => rw [hf] at h; simp at h
      | ok st1 =>
        rw [hf] at h
        exact htrans st st1 st' (hok st x st1 hf) ((ih st1).1 st' h)
    · intro e st' h
      simp only [foldE] at h
      cases hf : f st x with
      | error ep =>
        rw [hf] at h
        simp only [Except.error.injEq] at h
        obtain ⟨p, rest⟩ := ep
        cases h
        exact herr st x _ _ hf
      | ok st1 =>
        rw [hf] at h
        exact htrans st st1 st' (hok st x st1 hf) ((ih st1).2 e st' h)

/-! ### Case analysis of one repository-loop iteration -/

/-- The state after `repo_root.mkdir` and a failed git pipeline. -/
def gitErrSt (st : SyncSt) (entry : RepoEntry) : SyncSt :=
  { st with
    world := { st.world with store := storeMkdir st.world.store (_repo_id entry.repo) },
    acts := st.acts ++ [Act.gitFetch entry.repo entry.rev] }

/-- The state after a successful export step (skip or copy-and-rename)
and the bookkeeping of lines 72–76 of `sync.py`. -/
def afterExportSt (st : SyncSt) (entry : RepoEntry) (sha : String) : SyncSt :=
  if entriesHas ((alGet (storeMkdir st.world.store (_repo_id entry.repo))
      (_repo_id entry.repo)).getD []) sha then
    { st with
      world := { st.world with store := storeMkdir st.world.store (_repo_id entry.repo) },
      acts := st.acts ++ [Act.gitFetch entry.repo entry.rev],
      processed := alSet st.processed (_repo_id entry.repo) sha,
      repos_out := st.repos_out ++ [{ entry with resolved_sha := some sha }] }
  else
    { st with
      world := { st.world with
        store :=
          alSet (storeMkdir st.world.store (_repo_id entry.repo)) (_repo_id entry.repo)
            ((((alGet (storeMkdir st.world.store (_repo_id entry.repo))
                (_repo_id entry.repo)).getD []).filter
                  (fun e => e.name != ".tmp-" ++ sha)) ++ [⟨sha, true⟩]) },
      acts := st.acts ++ [Act.gitFetch entry.repo entry.rev,
        Act.exportCopy (_repo_id entry.repo) sha],
      created_dirs := st.created_dirs ++ [(_repo_id entry.repo, sha)],
      processed := alSet st.processed (_repo_id entry.repo) sha,
      repos_out := st.repos_out ++ [{ entry with resolved_sha := some sha }] }

theorem processEntry_cases (env : GitEnv) (sd : String)
    (ags : List (String × Option String)) (flt : Option String) (force : Bool)
    (st : SyncSt) (entry : RepoEntry) :
    (processEntry env sd ags flt force st entry =
        .ok { st with repos_out := st.repos_out ++ [entry] } ∧
      eligible flt entry = false) ∨
    (∃ msg, eligible flt entry = true ∧
      env.git entry.repo entry.rev = .error msg ∧
      processEntry env sd ags flt force st entry =
        .error ("Command failed: " ++ msg, gitErrSt st entry)) ∨
    (∃ sha, eligible flt entry = true ∧
      env.git entry.repo entry.rev = .ok sha ∧
      processEntry env sd ags flt force st entry =
        foldE (processSkill env ags force sd (_repo_id entry.repo) sha)
          (afterExportSt st entry sha) entry.skills) := by
  cases hf : passesFilter flt entry.repo with
  | false =>
    left
    constructor
    · simp [processEntry, hf]
    · simp [eligible, hf]
  | true =>
    by_cases hs : _collect_sparse_paths entry.skills = []
    · left
      constructor
      · simp [processEntry, hf, hs]
      · simp [eligible, hf, hs]
    · cases hg : env.git entry.repo entry.rev with
      | error msg =>
        right; left
        refine ⟨msg, ?_, rfl, ?_⟩
        · simp [eligible, hf, hs]
        · simp only [processEntry, hf, Bool.not_true, Bool.false_eq_true, if_false,
            hs, if_neg hs]
          simp only [exportRepo, hg]
          rfl
      | ok sha =>
        right; right
        refine ⟨sha, ?_, rfl, ?_⟩
        · simp [eligible, hf, hs]
        · simp only [processEntry, hf, Bool.not_true, Bool.false_eq_true, if_false,
            hs, if_neg hs]
          simp only [exportRepo, hg, afterExportSt]
          by_cases hE : entriesHas ((alGet (storeMkdir st.world.store (_repo_id entry.repo))
              (_repo_id entry.repo)).getD []) sha = true
          · simp [hE]
          · simp only [Bool.not_eq_true] at hE
            simp [hE, List.append_assoc]

/-! ### Frame properties of the linking phase -/

/-- What the skill-verification/linking phase leaves untouched: everything
except the symlink destinations and (link-only) action-trace additions. -/
structure LinkFrame (st st' : SyncSt) : Prop where
  store : st'.world.store = st.world.store
  manifest : st'.world.manifest = st.world.manifest
  created : st'.created_dirs = st.created_dirs
  processed : st'.processed = st.processed
  repos : st'.repos_out = st.repos_out
  acts : ∃ d, st'.acts = st.acts ++ d ∧ ∀ a ∈ d, ∃ lp la, a = Act.linkOp lp la

theorem LinkFrame.refl (s : SyncSt) : LinkFrame s s :=
  ⟨rfl, rfl, rfl, rfl, rfl, [], by simp, by simp⟩

theorem LinkFrame.trans {s t u : SyncSt} (h1 : LinkFrame s t) (h2 : LinkFrame t u) :
    LinkFrame s u := by
  obtain ⟨d1, hd1, hl1⟩ := h1.acts
  obtain ⟨d2, hd2, hl2⟩ := h2.acts
  refine ⟨h2.store.trans h1.store, h2.manifest.trans h1.manifest,
    h2.created.trans h1.created, h2.processed.trans h1.processed,
    h2.repos.trans h1.repos, d1 ++ d2, ?_, ?_⟩
  · rw [hd2, hd1, List.append_assoc]
  · intro a ha
    rcases List.mem_append.mp ha with h | h
    · exact hl1 a h
    · exact hl2 a h

theorem linkAgent_frame (ags : List (String × Option String)) (force : Bool)
    (n : String) (p : List String) (st : SyncSt) (ag : String) :
    (∀ st', linkAgent ags force n p st ag = .ok st' → LinkFrame st st') ∧
    (∀ e st', linkAgent ags force n p st ag = .error (e, st') → LinkFrame st st') := by
  constructor
  · intro st' h
    unfold linkAgent at h
    cases hga : alGet ags ag with
    | none =>
      simp only [hga] at h
      simp only [Except.ok.injEq] at h
      exact h ▸ LinkFrame.refl st
    | some td? =>
      cases td? with
      | none =>
        simp only [hga] at h
        simp only [Except.ok.injEq] at h
        exact h ▸ LinkFrame.refl st
      | some td =>
        simp only [hga] at h
        by_cases htd : td = ""
        · rw [if_pos htd] at h
          simp only [Except.ok.injEq] at h
          exact h ▸ LinkFrame.refl st
        · rw [if_neg htd] at h
          cases hs : _ensure_symlink (posixParts td ++ [n])
              ((alGet st.world.dests (posixParts td ++ [n])).getD .absent) p true true force with
          | error e => rw [hs] at h; simp at h
          | ok lacts =>
            rw [hs] at h
            simp only [Except.ok.injEq] at h
            subst h
            refine ⟨rfl, rfl, rfl, rfl, rfl, lacts.map (Act.linkOp (posixParts td ++ [n])),
              rfl, ?_⟩
            intro a ha
            obtain ⟨la, _, rfl⟩ := List.mem_map.mp ha
            exact ⟨_, _, rfl⟩
  · intro e st' h
    unfold linkAgent at h
    cases hga : alGet ags ag with
    | none => rw [hga] at h; simp at h
    | some td? =>
      cases td? with
      | none => rw [hga] at h; simp at h
      | some td =>
        simp only [hga] at h
        by_cases htd : td = ""
        · rw [if_pos htd] at h; simp at h
        · rw [if_neg htd] at h
          cases hs : _ensure_symlink (posixParts td ++ [n])
              ((alGet st.world.dests (posixParts td ++ [n])).getD .absent) p true true force with
          | error e' =>
            rw [hs] at h
            simp only [Except.error.injEq, Prod.mk.injEq] at h
            exact h.2 ▸ LinkFrame.refl st
          | ok lacts => rw [hs] at h; simp at h

theorem processSkill_frame (env : GitEnv) (ags : List (String × Option String))
    (force : Bool) (sd id sha : String) (st : SyncSt) (sk : Skill) :
    (∀ st', processSkill env ags force sd id sha st sk = .ok st' → LinkFrame st st') ∧
    (∀ e st', processSkill env ags force sd id sha st sk = .error (e, st') →
      LinkFrame st st') := by
  have hfold := foldE_inv
    (linkAgent ags force sk.name
      (posixParts sd ++ [id, sha] ++ posixParts (_normalize_skill_path sk.location)))
    LinkFrame LinkFrame.refl (fun _ _ _ => LinkFrame.trans)
    (fun s x s' h => (linkAgent_frame ags force sk.name _ s x).1 s' h)
    (fun s x e s' h => (linkAgent_frame ags force sk.name _ s x).2 e s' h)
  constructor
  · intro st' h
    unfold processSkill at h
    by_cases hok : env.skillOk id sha (_normalize_skill_path sk.location) = true
    · rw [if_pos hok] at h
      exact (hfold sk.agents st).1 st' h
    · rw [if_neg hok] at h
      simp at h
  · intro e st' h
    unfold processSkill at h
    by_cases hok : env.skillOk id sha (_normalize_skill_path sk.location) = true
    · rw [if_pos hok] at h
      exact (hfold sk.agents st).2 e st' h
    · rw [if_neg hok] at h
      simp only [Except.error.injEq, Prod.mk.injEq] at h
      exact h.2 ▸ LinkFrame.refl st

theorem skillsPhase_frame (env : GitEnv) (ags : List (String × Option String))
    (force : Bool) (sd id sha : String) (skills : List Skill) (st : SyncSt) :
    (∀ st', foldE (processSkill env ags force sd id sha) st skills = .ok st' →
      LinkFrame st st') ∧
    (∀ e st', foldE (processSkill env ags force sd id sha) st skills = .error (e, st') →
      LinkFrame st st') :=
  foldE_inv (processSkill env ags force sd id sha) LinkFrame LinkFrame.refl
    (fun _ _ _ => LinkFrame.trans)
    (fun s x s' h => (processSkill_frame env ags force sd id sha s x).1 s' h)
    (fun s x e s' h => (processSkill_frame env ags force sd id sha s x).2 e s' h)
    skills st

/-! ### Git-call traces -/

theorem gitCalls_append (a b : List Act) :
    gitCalls (a ++ b) = gitCalls a ++ gitCalls b := by
  simp [gitCalls, List.filterMap_append]

theorem gitCalls_linkOnly (d : List Act)
    (h : ∀ a ∈ d, ∃ lp la, a = Act.linkOp lp la) : gitCalls d = [] := by
  induction d with
  | nil => rfl
  | cons a rest ih =>
    obtain ⟨lp, la, rfl⟩ := h a (List.mem_cons_self a rest)
    simp only [gitCalls, List.filterMap_cons]
    exact ih (fun x hx => h x (List.mem_cons_of_mem _ hx))

theorem LinkFrame.gitCalls_eq {s t : SyncSt} (h : LinkFrame s t) :
    gitCalls t.acts = gitCalls s.acts := by
  obtain ⟨d, hd, hl⟩ := h.acts
  rw [hd, gitCalls_append, gitCalls_linkOnly d hl, List.append_nil]

theorem processEntry_gitCalls (env : GitEnv) (sd : String)
    (ags : List (String × Option String)) (flt : Option String) (force : Bool)
    (st : SyncSt) (entry : RepoEntry) :
    (∀ st', processEntry env sd ags flt force st entry = .ok st' →
      gitCalls st'.acts = gitCalls st.acts ++
        (if eligible flt entry then [(entry.repo, entry.rev)] else [])) ∧
    (∀ e st', processEntry env sd ags flt force st entry = .error (e, st') →
      gitCalls st'.acts = gitCalls st.acts ++
        (if eligible flt entry then [(entry.repo, entry.rev)] else [])) := by
  rcases processEntry_cases env sd ags flt force st entry with
    ⟨heq, helig⟩ | ⟨msg, helig, hgit, heq⟩ | ⟨sha, helig, hgit, heq⟩
  · constructor
    · intro st' h
      rw [heq] at h
      simp only [Except.ok.injEq] at h
      subst h
      simp [helig]
    · intro e st' h
      rw [heq] at h
      simp at h
  · constructor
    · intro st' h
      rw [heq] at h
      simp at h
    · intro e st' h
      rw [heq] at h
      simp only [Except.error.injEq, Prod.mk.injEq] at h
      rw [← h.2, helig]
      unfold gitErrSt
      simp [gitCalls_append, gitCalls]
  · have hAfter' : gitCalls (afterExportSt st entry sha).acts =
        gitCalls st.acts ++ [(entry.repo, entry.rev)] := by
      unfold afterExportSt
      split
      · rw [gitCalls_append]; rfl
      · rw [gitCalls_append]; rfl
    constructor
    · intro st' h
      rw [heq] at h
      have hf := (skillsPhase_frame env ags force sd (_repo_id entry.repo) sha
        entry.skills (afterExportSt st entry sha)).1 st' h
      rw [hf.gitCalls_eq, hAfter', helig]
      simp
    · intro e st' h
      rw [heq] at h
      have hf := (skillsPhase_frame env ags force sd (_repo_id entry.repo) sha
        entry.skills (afterExportSt st entry sha)).2 e st' h
      rw [hf.gitCalls_eq, hAfter', helig]
      simp

theorem runRepos_gitCalls (env : GitEnv) (sd : String)
    (ags : List (String × Option String)) (flt : Option String) (force : Bool) :
    ∀ (l : List RepoEntry) (st st' : SyncSt),
      foldE (processEntry env sd ags flt force) st l = .ok st' →
      gitCalls st'.acts = gitCalls st.acts ++
        (l.filter (eligible flt)).map (fun r => (r.repo, r.rev)) := by
  intro l
  induction l with
  | nil =>
    intro st st' h
    simp only [foldE, Except.ok.injEq] at h
    subst h
    simp
  | cons x xs ih =>
    intro st st' h
    simp only [foldE] at h
    cases hx : processEntry env sd ags flt force st x with
    | error ep => rw [hx] at h; simp at h
    | ok st1 =>
      rw [hx] at h
      have h1 := (processEntry_gitCalls env sd ags flt force st x).1 st1 hx
      have h2 := ih st1 st' h
      rw [h2, h1, List.filter_cons]
      by_cases he : eligible flt x = true
      · simp [he, List.append_assoc]
      · simp only [Bool.not_eq_true] at he
        simp [he]

/-- The cleanup phase records only prune actions: no git calls. -/
theorem cleanupProcessed_acts (processed : List (String × String)) :
    ∀ store, ∀ a ∈ (cleanupProcessed processed store).2,
      ∃ id n, a = Act.pruneEntry id n := by
  induction processed with
  | nil => intro store a ha; simp [cleanupProcessed] at ha
  | cons p rest ih =>
    intro store a ha
    obtain ⟨id, sha⟩ := p
    unfold cleanupProcessed at ha
    cases hg : alGet store id with
    | none =>
      rw [hg] at ha
      exact ih store a ha
    | some es =>
      rw [hg] at ha
      simp only [List.mem_append] at ha
      rcases ha with ha | ha
      · obtain ⟨e, _, rfl⟩ := List.mem_map.mp ha
        exact ⟨id, e.name, rfl⟩
      · exact ih _ a ha

theorem cleanup_store_gitCalls (processed : List (String × String))
    (flt : Option String) (store : List (String × List DirEntry)) :
    gitCalls (_cleanup_store processed flt store).2 = [] := by
  have hgen : ∀ (acts : List Act),
      (∀ a ∈ acts, (∃ id n, a = Act.pruneEntry id n) ∨ ∃ id, a = Act.pruneRepo id) →
      gitCalls acts = [] := by
    intro acts h
    induction acts with
    | nil => rfl
    | cons a rest ih =>
      rcases h a (List.mem_cons_self a rest) with ⟨id, n, rfl⟩ | ⟨id, rfl⟩ <;>
        simp only [gitCalls, List.filterMap_cons] <;>
        exact ih (fun x hx => h x (List.mem_cons_of_mem _ hx))
  apply hgen
  intro a ha
  unfold _cleanup_store at ha
  cases flt with
  | some f =>
    simp only at ha
    exact Or.inl (cleanupProcessed_acts processed store a ha)
  | none =>
    simp only [List.mem_append] at ha
    rcases ha with ha | ha
    · exact Or.inl (cleanupProcessed_acts processed store a ha)
    · right
      unfold sweepStore at ha
      obtain ⟨kv, _, rfl⟩ := List.mem_map.mp ha
      exact ⟨kv.1, rfl⟩

/-! ### The run never consults `resolved_sha`

The loop reads only `repo`, `rev` and `skills` of each entry; the stored
`resolved_sha` is written, never read.  We prove this as invariance of the
run (modulo the `repos_out` bookkeeping) under changes of `resolved_sha`. -/

/-- What `_sync_body` reads from a repository entry. -/
def entryShape (r : RepoEntry) : String × String × List Skill :=
  (r.repo, r.rev, r.skills)

/-- Equality of run states up to the `repos_out` bookkeeping. -/
def SameCore (s t : SyncSt) : Prop :=
  s.world = t.world ∧ s.acts = t.acts ∧ s.created_dirs = t.created_dirs ∧
    s.processed = t.processed

theorem sameCore_refl (s : SyncSt) : SameCore s s := ⟨rfl, rfl, rfl, rfl⟩

theorem sameCore_iff (s t : SyncSt) :
    SameCore s t ↔ t = { s with repos_out := t.repos_out } := by
  constructor
  · rintro ⟨h1, h2, h3, h4⟩
    cases s; cases t
    simp_all [SameCore]
  · intro h
    rw [h]
    exact ⟨rfl, rfl, rfl, rfl⟩

/-- Map an outcome's state through a `repos_out` replacement. -/
def mapRepos (X : List RepoEntry) :
    Except (String × SyncSt) SyncSt → Except (String × SyncSt) SyncSt
  | .ok s => .ok { s with repos_out := X }
  | .error (e, s) => .error (e, { s with repos_out := X })

theorem linkAgent_reposIrrel (ags : List (String × Option String)) (force : Bool)
    (n : String) (p : List String) (st : SyncSt) (ag : String) (X : List RepoEntry) :
    linkAgent ags force n p { st with repos_out := X } ag =
      mapRepos X (linkAgent ags force n p st ag) := by
  unfold linkAgent
  cases alGet ags ag with
  | none => rfl
  | some td? =>
    cases td? with
    | none => rfl
    | some td =>
      by_cases htd : td = ""
      · simp [htd, mapRepos]
      · simp only [htd, if_false, if_neg htd]
        cases _ensure_symlink (posixParts td ++ [n])
            ((alGet st.world.dests (posixParts td ++ [n])).getD .absent) p true true force with
        | error e => rfl
        | ok lacts => rfl

theorem foldE_reposIrrel {α : Type} (f : SyncSt → α → Except (String × SyncSt) SyncSt)
    (hf : ∀ st x X, f { st with repos_out := X } x = mapRepos X (f st x)) :
    ∀ (l : List α) (st : SyncSt) (X : List RepoEntry),
      foldE f { st with repos_out := X } l = mapRepos X (foldE f st l) := by
  intro l
  induction l with
  | nil => intro st X; rfl
  | cons x xs ih =>
    intro st X
    simp only [foldE, hf st x X]
    cases hfx : f st x with
    | error ep => obtain ⟨e, s⟩ := ep; rfl
    | ok s1 =>
      simp only [mapRepos]
      exact ih s1 X

theorem processSkill_reposIrrel (env : GitEnv) (ags : List (String × Option String))
    (force : Bool) (sd id sha : String) (st : SyncSt) (sk : Skill) (X : List RepoEntry) :
    processSkill env ags force sd id sha { st with repos_out := X } sk =
      mapRepos X (processSkill env ags force sd id sha st sk) := by
  unfold processSkill
  by_cases hok : env.skillOk id sha (_normalize_skill_path sk.location) = true
  · simp only [hok, if_true]
    exact foldE_reposIrrel _ (fun s x Y => linkAgent_reposIrrel ags force sk.name _ s x Y)
      sk.agents st X
  · simp only [hok, Bool.false_eq_true, if_false]
    rfl

theorem skillsPhase_reposIrrel (env : GitEnv) (ags : List (String × Option String))
    (force : Bool) (sd id sha : String) (skills : List Skill) (st : SyncSt)
    (X : List RepoEntry) :
    foldE (processSkill env ags force sd id sha) { st with repos_out := X } skills =
      mapRepos X (foldE (processSkill env ags force sd id sha) st skills) :=
  foldE_reposIrrel _ (fun s x Y => processSkill_reposIrrel env ags force sd id sha s x Y)
    skills st X

/-- One loop iteration on shape-equal entries from core-equal states yields
core-equal outcomes with identical error messages. -/
theorem processEntry_sameCore (env : GitEnv) (sd : String)
    (ags : List (String × Option String)) (flt : Option String) (force : Bool)
    (s : SyncSt) (X : List RepoEntry) (x x' : RepoEntry)
    (hx : entryShape x = entryShape x') :
    (∀ t, processEntry env sd ags flt force s x = .ok t →
      ∃ t', processEntry env sd ags flt force { s with repos_out := X } x' = .ok t' ∧
        SameCore t t') ∧
    (∀ e t, processEntry env sd ags flt force s x = .error (e, t) →
      ∃ t', processEntry env sd ags flt force { s with repos_out := X } x' =
        .error (e, t') ∧ SameCore t t') := by
  obtain ⟨hrepo, hrev, hskills⟩ : x.repo = x'.repo ∧ x.rev = x'.rev ∧ x.skills = x'.skills := by
    unfold entryShape at hx
    simp only [Prod.mk.injEq] at hx
    exact ⟨hx.1, hx.2.1, hx.2.2⟩
  have helig : eligible flt x = eligible flt x' := by
    unfold eligible
    rw [hrepo, hskills]
  have hafter : ∀ sha, afterExportSt { s with repos_out := X } x' sha =
      { afterExportSt s x sha with
        repos_out := X ++ [{ x' with resolved_sha := some sha }] } := by
    intro sha
    unfold afterExportSt
    rw [← hrepo, ← hrev]
    split <;> rfl
  have hgerr : gitErrSt { s with repos_out := X } x' = { gitErrSt s x with repos_out := X } := by
    unfold gitErrSt
    rw [← hrepo, ← hrev]
  rcases processEntry_cases env sd ags flt force s x with
    ⟨heq, he⟩ | ⟨msg, he, hgit, heq⟩ | ⟨sha, he, hgit, heq⟩
  · -- skipped
    rcases processEntry_cases env sd ags flt force { s with repos_out := X } x' with
      ⟨heq', _⟩ | ⟨msg', he', _, _⟩ | ⟨sha', he', _, _⟩
    · constructor
      · intro t h
        rw [heq] at h
        simp only [Except.ok.injEq] at h
        refine ⟨_, heq', ?_⟩
        subst h
        exact ⟨rfl, rfl, rfl, rfl⟩
      · intro e t h
        rw [heq] at h
        simp at h
    · rw [← helig, he] at he'; simp at he'
    · rw [← helig, he] at he'; simp at he'
  · -- git pipeline failure
    rcases processEntry_cases env sd ags flt force { s with repos_out := X } x' with
      ⟨_, he'⟩ | ⟨msg', he', hgit', heq'⟩ | ⟨sha', he', hgit', heq'⟩
    · rw [← helig, he] at he'; simp at he'
    · constructor
      · intro t h
        rw [heq] at h
        simp at h
      · intro e t h
        rw [heq] at h
        simp only [Except.error.injEq, Prod.mk.injEq] at h
        rw [← hrepo, ← hrev] at hgit'
        rw [hgit] at hgit'
        simp only [Except.error.injEq] at hgit'
        refine ⟨gitErrSt { s with repos_out := X } x', ?_, ?_⟩
        · rw [heq', ← h.1, hgit']
        · rw [hgerr, ← h.2]
          exact ⟨rfl, rfl, rfl, rfl⟩
    · rw [← hrepo, ← hrev] at hgit'
      rw [hgit] at hgit'
      simp at hgit'
  · -- git pipeline success
    rcases processEntry_cases env sd ags flt force { s with repos_out := X } x' with
      ⟨_, he'⟩ | ⟨msg', he', hgit', heq'⟩ | ⟨sha', he', hgit', heq'⟩
    · rw [← helig, he] at he'; simp at he'
    · rw [← hrepo, ← hrev] at hgit'
      rw [hgit] at hgit'
      simp at hgit'
    · rw [← hrepo, ← hrev] at hgit'
      rw [hgit] at hgit'
      simp only [Except.ok.injEq] at hgit'
      subst hgit'
      have hrw : processEntry env sd ags flt force { s with repos_out := X } x' =
          mapRepos (X ++ [{ x' with resolved_sha := some sha }])
            (foldE (processSkill env ags force sd (_repo_id x.repo) sha)
              (afterExportSt s x sha) x.skills) := by
        rw [heq', hafter sha, hrepo, hskills]
        have := skillsPhase_reposIrrel env ags force sd (_repo_id x'.repo) sha x'.skills
          (afterExportSt s x sha) (X ++ [{ x' with resolved_sha := some sha }])
        rw [← this]
      constructor
      · intro t h
        rw [heq] at h
        rw [h] at hrw
        exact ⟨_, hrw, ⟨rfl, rfl, rfl, rfl⟩⟩
      · intro e t h
        rw [heq] at h
        rw [h] at hrw
        exact ⟨_, hrw, ⟨rfl, rfl, rfl, rfl⟩⟩

theorem runRepos_sameCore (env : GitEnv) (sd : String)
    (ags : List (String × Option String)) (flt : Option String) (force : Bool) :
    ∀ (l l' : List RepoEntry), l.map entryShape = l'.map entryShape →
    ∀ (s : SyncSt) (X : List RepoEntry),
    (∀ t, foldE (processEntry env sd ags flt force) s l = .ok t →
      ∃ t', foldE (processEntry env sd ags flt force) { s with repos_out := X } l' =
        .ok t' ∧ SameCore t t') ∧
    (∀ e t, foldE (processEntry env sd ags flt force) s l = .error (e, t) →
      ∃ t', foldE (processEntry env sd ags flt force) { s with repos_out := X } l' =
        .error (e, t') ∧ SameCore t t') := by
  intro l
  induction l with
  | nil =>
    intro l' hmap s X
    have hl' : l' = [] := by
      cases l' with
      | nil => rfl
      | cons y ys => simp at hmap
    subst hl'
    constructor
    · intro t h
      simp only [foldE, Except.ok.injEq] at h
      subst h
      exact ⟨{ s with repos_out := X }, rfl, ⟨rfl, rfl, rfl, rfl⟩⟩
    · intro e t h
      simp [foldE] at h
  | cons x xs ih =>
    intro l' hmap s X
    cases l' with
    | nil => simp at hmap
    | cons x' xs' =>
      simp only [List.map_cons, List.cons.injEq] at hmap
      obtain ⟨hx, hxs⟩ := hmap
      constructor
      · intro t h
        simp only [foldE] at h
        cases hpx : processEntry env sd ags flt force s x with
        | error ep => rw [hpx] at h; simp at h
        | ok st1 =>
          rw [hpx] at h
          obtain ⟨t1', hpx', hc1⟩ :=
            (processEntry_sameCore env sd ags flt force s X x x' hx).1 st1 hpx
          obtain ⟨t', hrest, hc⟩ := (ih xs' hxs st1 t1'.repos_out).1 t h
          refine ⟨t', ?_, hc⟩
          simp only [foldE, hpx']
          rw [← (sameCore_iff st1 t1').mp hc1] at hrest
          exact hrest
      · intro e t h
        simp only [foldE] at h
        cases hpx : processEntry env sd ags flt force s x with
        | error ep =>
          rw [hpx] at h
          obtain ⟨e0, t0⟩ := ep
          simp only [Except.error.injEq, Prod.mk.injEq] at h
          rw [h.1, h.2] at hpx
          obtain ⟨t', hpx', hc⟩ :=
            (processEntry_sameCore env sd ags flt force s X x x' hx).2 e t hpx
          refine ⟨t', ?_, hc⟩
          simp only [foldE, hpx']
        | ok st1 =>
          rw [hpx] at h
          obtain ⟨t1', hpx', hc1⟩ :=
            (processEntry_sameCore env sd ags flt force s X x x' hx).1 st1 hpx
          obtain ⟨t', hrest, hc⟩ := (ih xs' hxs st1 t1'.repos_out).2 e t h
          refine ⟨t', ?_, hc⟩
          simp only [foldE, hpx']
          rw [← (sameCore_iff st1 t1').mp hc1] at hrest
          exact hrest

/-- C9: every sync run invokes the git fetch pipeline once per repository
that passes the filter and has sparse paths — unconditionally.  (i) On a
successful run the pipeline invocations are exactly one per eligible
repository, in manifest order; (ii) the pipeline invocations (indeed, the
whole trace up to the manifest save) never depend on the recorded
`resolved_sha` values: any two configurations agreeing on `repo`, `rev`
and `skills` of every entry produce identical git-call traces. -/
theorem git_fetch_unconditional :
    (∀ env cfg w flt force d w' acts,
      _sync_config env cfg w flt force = (.ok d, w', acts) →
      gitCalls acts = (cfg.repos.filter (eligible flt)).map (fun r => (r.repo, r.rev))) ∧
    (∀ env cfg cfg' w flt force,
      cfg'.store_dir = cfg.store_dir → cfg'.agents = cfg.agents →
      cfg'.repos.map entryShape = cfg.repos.map entryShape →
      gitCalls (_sync_config env cfg' w flt force).2.2 =
        gitCalls (_sync_config env cfg w flt force).2.2) := by
  constructor
  · intro env cfg w flt force d w' acts h
    unfold _sync_config at h
    cases hb : _sync_body env cfg flt force
        { world := w, acts := [], created_dirs := [], processed := [], repos_out := [] } with
    | error e => rw [hb] at h; obtain ⟨e', st⟩ := e; simp at h
    | ok p =>
      obtain ⟨data', st⟩ := p
      rw [hb] at h
      simp only [Prod.mk.injEq, Except.ok.injEq] at h
      obtain ⟨-, -, hacts⟩ := h
      unfold _sync_body at hb
      cases hf : foldE (processEntry env cfg.store_dir cfg.agents flt force)
          { world := w, acts := [], created_dirs := [], processed := [], repos_out := [] }
          cfg.repos with
      | error e => rw [hf] at hb; simp at hb
      | ok st1 =>
        rw [hf] at hb
        simp only [Except.ok.injEq, Prod.mk.injEq] at hb
        obtain ⟨-, hst⟩ := hb
        have hcalls := runRepos_gitCalls env cfg.store_dir cfg.agents flt force
          cfg.repos _ st1 hf
        rw [← hacts, ← hst]
        simp only [gitCalls_append]
        rw [hcalls, cleanup_store_gitCalls]
        simp [gitCalls]
  · intro env cfg cfg' w flt force hsd hags hmap
    unfold _sync_config _sync_body
    rw [hsd, hags]
    cases hf : foldE (processEntry env cfg.store_dir cfg.agents flt force)
        { world := w, acts := [], created_dirs := [], processed := [], repos_out := [] }
        cfg.repos with
    | ok st1 =>
      obtain ⟨t', hf', hc⟩ := (runRepos_sameCore env cfg.store_dir cfg.agents flt force
        cfg.repos cfg'.repos hmap.symm
        { world := w, acts := [], created_dirs := [], processed := [], repos_out := [] }
        []).1 st1 hf
      dsimp only at hf'
      rw [hf']
      obtain ⟨hw, hacts, -, hproc⟩ := hc
      dsimp only
      simp only [gitCalls_append, ← hacts, ← hw, ← hproc]
      simp [gitCalls]
    | error ep =>
      obtain ⟨e, st1⟩ := ep
      obtain ⟨t', hf', hc⟩ := (runRepos_sameCore env cfg.store_dir cfg.agents flt force
        cfg.repos cfg'.repos hmap.symm
        { world := w, acts := [], created_dirs := [], processed := [], repos_out := [] }
        []).2 e st1 hf
      dsimp only at hf'
      rw [hf']
      obtain ⟨-, hacts, -, -⟩ := hc
      dsimp only
      rw [hacts]

/-- Concrete fixtures for witnesses. -/
def sampleEnv : GitEnv := { git := fun _ _ => .ok "abc", skillOk := fun _ _ _ => true }

def sampleCfg : ConfigData :=
  { store_dir := "st", agents := [], repos := [⟨"u", "v", none, [⟨"s", "d", []⟩]⟩] }

def sampleCfgSha : ConfigData :=
  { store_dir := "st", agents := [], repos := [⟨"u", "v", some "zzz", [⟨"s", "d", []⟩]⟩] }

def sampleWorld : World := { store := [], dests := [], manifest := "OLD" }

/-- Witness for `git_fetch_unconditional`: a successful concrete run makes
exactly one git call, and changing the recorded `resolved_sha` does not
change the git calls. -/
theorem git_fetch_unconditional_witness :
    gitCalls (_sync_config sampleEnv sampleCfg sampleWorld none false).2.2 =
      (sampleCfg.repos.filter (eligible none)).map (fun r => (r.repo, r.rev)) ∧
    gitCalls (_sync_config sampleEnv sampleCfgSha sampleWorld none false).2.2 =
      gitCalls (_sync_config sampleEnv sampleCfg sampleWorld none false).2.2 :=
  ⟨git_fetch_unconditional.1 sampleEnv sampleCfg sampleWorld none false _ _ _ rfl,
   git_fetch_unconditional.2 sampleEnv sampleCfg sampleCfgSha sampleWorld none false
     rfl rfl rfl⟩

/-! ### Rollback on failure (C1)

Invariant: at every point of the loop, the export directories in the store
are exactly the pre-run ones plus the ones recorded in `created_dirs`;
recorded ones are fresh (not exports that pre-existed the run) and
recorded once. -/

theorem tmpName_isTmp (s : String) : isTmpName (".tmp-" ++ s) = true := by
  unfold isTmpName
  rw [String.data_append]
  simp [List.isPrefixOf_iff_prefix, List.prefix_append]

theorem exNames_mkdir (store : List (String × List DirEntry)) (id' id : String) :
    exNames (storeMkdir store id') id = exNames store id := by
  by_cases h : id = id'
  · subst h
    unfold exNames
    rw [storeMkdir_get_self]
    cases alGet store id <;> simp
  · unfold exNames
    rw [storeMkdir_get_ne store id' id h]

theorem filter_tmp_exports (es : List DirEntry) (t : String) (ht : isTmpName t = true) :
    (es.filter (fun e => e.name != t)).filter isExportEntry =
      es.filter isExportEntry := by
  rw [List.filter_filter]
  apply List.filter_congr
  intro e _
  by_cases hex : isExportEntry e = true
  · have hne : e.name ≠ t := by
      intro hh
      unfold isExportEntry at hex
      rw [hh, ht] at hex
      simp at hex
    simp [hex, hne]
  · simp only [Bool.not_eq_true] at hex
    simp [hex]

theorem exNames_remove (es : List DirEntry) (s : String) :
    (es.filter (fun e => e.name != s)).filter isExportEntry =
      (es.filter isExportEntry).filter (fun e => e.name != s) := by
  rw [List.filter_filter, List.filter_filter]
  apply List.filter_congr
  intro e _
  exact Bool.and_comm _ _

theorem map_name_filter (l : List DirEntry) (s : String) :
    ((l.filter (fun e => e.name != s)).map (·.name)) =
      (l.map (·.name)).filter (· != s) := by
  induction l with
  | nil => rfl
  | cons e rest ih =>
    by_cases h : e.name = s
    · simp [List.filter_cons, h, ih]
    · simp [List.filter_cons, h, ih]

theorem entriesHas_of_mem_exNames (store : List (String × List DirEntry))
    (id s : String) (h : s ∈ exNames store id) :
    entriesHas ((alGet store id).getD []) s = true := by
  unfold exNames at h
  obtain ⟨e, he, hname⟩ := List.mem_map.mp h
  have := List.mem_filter.mp he
  unfold entriesHas
  apply List.any_eq_true.mpr
  exact ⟨e, this.1, by simp [hname]⟩

/-- The run's created-exports bookkeeping invariant, relative to the
pre-run store. -/
def CreatedInv (base : List (String × List DirEntry)) (st : SyncSt) : Prop :=
  (∀ id, exNames st.world.store id =
    exNames base id ++ (st.created_dirs.filter (fun c => c.1 == id)).map (·.2)) ∧
  (∀ c ∈ st.created_dirs, c.2 ∉ exNames base c.1) ∧
  (∀ id, ((st.created_dirs.filter (fun c => c.1 == id)).map (·.2)).Nodup)

theorem linkFrame_createdInv {base : List (String × List DirEntry)} {s t : SyncSt}
    (hf : LinkFrame s t) (h : CreatedInv base s) : CreatedInv base t := by
  obtain ⟨h1, h2, h3⟩ := h
  refine ⟨?_, ?_, ?_⟩
  · intro id
    rw [hf.store, hf.created]
    exact h1 id
  · intro c hc
    rw [hf.created] at hc
    exact h2 c hc
  · intro id
    rw [hf.created]
    exact h3 id

theorem afterExport_createdInv (env : GitEnv) (hGit : GitOk env)
    (base : List (String × List DirEntry)) (st : SyncSt) (entry : RepoEntry)
    (sha : String) (hsha : env.git entry.repo entry.rev = .ok sha)
    (h : CreatedInv base st) : CreatedInv base (afterExportSt st entry sha) := by
  obtain ⟨h1, h2, h3⟩ := h
  have hTmpSha : isTmpName sha = false := hGit entry.repo entry.rev sha hsha
  unfold afterExportSt
  by_cases hE : entriesHas ((alGet (storeMkdir st.world.store (_repo_id entry.repo))
      (_repo_id entry.repo)).getD []) sha = true
  · rw [if_pos hE]
    refine ⟨?_, h2, h3⟩
    intro id
    simp only
    rw [exNames_mkdir]
    exact h1 id
  · rw [if_neg hE]
    simp only [Bool.not_eq_true] at hE
    set rid := _repo_id entry.repo with hrid
    set es := (alGet (storeMkdir st.world.store rid) rid).getD [] with hes
    have hfresh : sha ∉ exNames (storeMkdir st.world.store rid) rid := by
      intro hmem
      have := entriesHas_of_mem_exNames _ rid sha hmem
      rw [storeMkdir_get_self] at this
      rw [storeMkdir_get_self] at hes
      simp only [Option.getD_some] at this hes
      rw [← hes] at this
      rw [this] at hE
      simp at hE
    have hAtRid : exNames (storeMkdir st.world.store rid) rid =
        exNames base rid ++ ((st.created_dirs.filter (fun c => c.1 == rid)).map (·.2)) := by
      rw [exNames_mkdir]; exact h1 rid
    have hshaBase : sha ∉ exNames base rid := by
      intro hc
      exact hfresh (hAtRid ▸ List.mem_append_left _ hc)
    have hshaCreated : sha ∉ (st.created_dirs.filter (fun c => c.1 == rid)).map (·.2) := by
      intro hc
      exact hfresh (hAtRid ▸ List.mem_append_right _ hc)
    refine ⟨?_, ?_, ?_⟩
    · intro id
      simp only
      by_cases hid : id = rid
      · rw [hid]
        unfold exNames
        rw [alGet_set_self]
        simp only [Option.getD_some]
        rw [List.filter_append, List.map_append]
        rw [filter_tmp_exports es (".tmp-" ++ sha) (tmpName_isTmp sha)]
        have hsha' : isExportEntry ⟨sha, true⟩ = true := by
          simp [isExportEntry, hTmpSha]
        rw [show (([⟨sha, true⟩] : List DirEntry).filter isExportEntry) = [⟨sha, true⟩] by
          simp [hsha']]
        have hthis : (es.filter isExportEntry).map (·.name) =
            exNames (storeMkdir st.world.store rid) rid := by
          unfold exNames
          rw [← hes]
        rw [hthis, hAtRid]
        rw [List.filter_append, List.map_append]
        simp [List.filter_cons]
        rfl
      · unfold exNames
        rw [alGet_set_ne _ _ _ _ hid]
        have : exNames (storeMkdir st.world.store rid) id = exNames st.world.store id :=
          exNames_mkdir _ _ _
        unfold exNames at this
        rw [this, List.filter_append, List.map_append]
        have hfil : (([(rid, sha)] : List (String × String)).filter (fun c => c.1 == id)) = [] := by
          simp [Ne.symm hid]
        rw [hfil]
        simp only [List.map_nil, List.append_nil]
        exact h1 id
    · intro c hc
      rcases List.mem_append.mp hc with hc | hc
      · exact h2 c hc
      · rw [List.mem_singleton.mp hc]
        exact hshaBase
    · intro id
      rw [List.filter_append, List.map_append]
      by_cases hid : id = rid
      · rw [hid]
        rw [show ((([(rid, sha)] : List (String × String)).filter
            (fun c => c.1 == rid)).map (·.2)) = [sha] by simp]
        refine List.Nodup.append (h3 rid) (List.nodup_singleton sha) ?_
        intro a ha hb
        rw [List.mem_singleton.mp hb] at ha
        exact hshaCreated ha
      · rw [show ((([(rid, sha)] : List (String × String)).filter
            (fun c => c.1 == id)).map (·.2)) = [] by simp [Ne.symm hid]]
        rw [List.append_nil]
        exact h3 id

theorem gitErrSt_createdInv (base : List (String × List DirEntry)) (st : SyncSt)
    (entry : RepoEntry) (h : CreatedInv base st) :
    CreatedInv base (gitErrSt st entry) := by
  obtain ⟨h1, h2, h3⟩ := h
  refine ⟨?_, h2, h3⟩
  intro id
  show exNames (storeMkdir st.world.store (_repo_id entry.repo)) id = _
  rw [exNames_mkdir]
  exact h1 id

theorem processEntry_createdInv (env : GitEnv) (hGit : GitOk env) (sd : String)
    (ags : List (String × Option String)) (flt : Option String) (force : Bool)
    (base : List (String × List DirEntry)) (st : SyncSt) (entry : RepoEntry) :
    (∀ st', processEntry env sd ags flt force st entry = .ok st' →
      CreatedInv base st → CreatedInv base st') ∧
    (∀ e st', processEntry env sd ags flt force st entry = .error (e, st') →
      CreatedInv base st → CreatedInv base st') := by
  rcases processEntry_cases env sd ags flt force st entry with
    ⟨heq, -⟩ | ⟨msg, -, hgit, heq⟩ | ⟨sha, -, hgit, heq⟩
  · constructor
    · intro st' h hinv
      rw [heq] at h
      simp only [Except.ok.injEq] at h
      subst h
      exact hinv
    · intro e st' h _
      rw [heq] at h
      simp at h
  · constructor
    · intro st' h hinv
      rw [heq] at h
      simp at h
    · intro e st' h hinv
      rw [heq] at h
      simp only [Except.error.injEq, Prod.mk.injEq] at h
      rw [← h.2]
      exact gitErrSt_createdInv base st entry hinv
  · constructor
    · intro st' h hinv
      rw [heq] at h
      exact linkFrame_createdInv
        ((skillsPhase_frame env ags force sd (_repo_id entry.repo) sha entry.skills
          (afterExportSt st entry sha)).1 st' h)
        (afterExport_createdInv env hGit base st entry sha hgit hinv)
    · intro e st' h hinv
      rw [heq] at h
      exact linkFrame_createdInv
        ((skillsPhase_frame env ags force sd (_repo_id entry.repo) sha entry.skills
          (afterExportSt st entry sha)).2 e st' h)
        (afterExport_createdInv env hGit base st entry sha hgit hinv)

theorem processEntry_manifest (env : GitEnv) (sd : String)
    (ags : List (String × Option String)) (flt : Option String) (force : Bool)
    (st : SyncSt) (entry : RepoEntry) :
    (∀ st', processEntry env sd ags flt force st entry = .ok st' →
      st'.world.manifest = st.world.manifest) ∧
    (∀ e st', processEntry env sd ags flt force st entry = .error (e, st') →
      st'.world.manifest = st.world.manifest) := by
  have hafter : (afterExportSt st entry
      ((env.git entry.repo entry.rev).toOption.getD "x")).world.manifest =
      st.world.manifest := by
    unfold afterExportSt
    split <;> rfl
  rcases processEntry_cases env sd ags flt force st entry with
    ⟨heq, -⟩ | ⟨msg, -, hgit, heq⟩ | ⟨sha, -, hgit, heq⟩
  · constructor
    · intro st' h
      rw [heq] at h
      simp only [Except.ok.injEq] at h
      subst h
      rfl
    · intro e st' h
      rw [heq] at h
      simp at h
  · constructor
    · intro st' h
      rw [heq] at h
      simp at h
    · intro e st' h
      rw [heq] at h
      simp only [Except.error.injEq, Prod.mk.injEq] at h
      rw [← h.2]
      rfl
  · have hman : (afterExportSt st entry sha).world.manifest = st.world.manifest := by
      unfold afterExportSt
      split <;> rfl
    constructor
    · intro st' h
      rw [heq] at h
      have hf := (skillsPhase_frame env ags force sd (_repo_id entry.repo) sha
        entry.skills (afterExportSt st entry sha)).1 st' h
      rw [hf.manifest, hman]
    · intro e st' h
      rw [heq] at h
      have hf := (skillsPhase_frame env ags force sd (_repo_id entry.repo) sha
        entry.skills (afterExportSt st entry sha)).2 e st' h
      rw [hf.manifest, hman]

theorem processEntry_no_save (env : GitEnv) (sd : String)
    (ags : List (String × Option String)) (flt : Option String) (force : Bool)
    (st : SyncSt) (entry : RepoEntry) :
    (∀ st', processEntry env sd ags flt force st entry = .ok st' →
      ∀ c, Act.saveManifest c ∈ st'.acts → Act.saveManifest c ∈ st.acts) ∧
    (∀ e st', processEntry env sd ags flt force st entry = .error (e, st') →
      ∀ c, Act.saveManifest c ∈ st'.acts → Act.saveManifest c ∈ st.acts) := by
  have hafterActs : ∀ sha c,
      Act.saveManifest c ∈ (afterExportSt st entry sha).acts →
      Act.saveManifest c ∈ st.acts := by
    intro sha c hc
    unfold afterExportSt at hc
    split at hc <;>
    · simp only [List.mem_append] at hc
      rcases hc with hc | hc
      · exact hc
      · simp at hc
  rcases processEntry_cases env sd ags flt force st entry with
    ⟨heq, -⟩ | ⟨msg, -, hgit, heq⟩ | ⟨sha, -, hgit, heq⟩
  · constructor
    · intro st' h c hc
      rw [heq] at h
      simp only [Except.ok.injEq] at h
      subst h
      exact hc
    · intro e st' h
      rw [heq] at h
      simp at h
  · constructor
    · intro st' h
      rw [heq] at h
      simp at h
    · intro e st' h c hc
      rw [heq] at h
      simp only [Except.error.injEq, Prod.mk.injEq] at h
      rw [← h.2] at hc
      unfold gitErrSt at hc
      simp only [List.mem_append] at hc
      rcases hc with hc | hc
      · exact hc
      · simp at hc
  · have hframe : ∀ (st' : SyncSt), LinkFrame (afterExportSt st entry sha) st' →
        ∀ c, Act.saveManifest c ∈ st'.acts → Act.saveManifest c ∈ st.acts := by
      intro st' hf c hc
      obtain ⟨d, hd, hl⟩ := hf.acts
      rw [hd] at hc
      rcases List.mem_append.mp hc with hc | hc
      · exact hafterActs sha c hc
      · obtain ⟨lp, la, hla⟩ := hl _ hc
        simp at hla
    constructor
    · intro st' h
      rw [heq] at h
      exact hframe st' ((skillsPhase_frame env ags force sd (_repo_id entry.repo) sha
        entry.skills (afterExportSt st entry sha)).1 st' h)
    · intro e st' h
      rw [heq] at h
      exact hframe st' ((skillsPhase_frame env ags force sd (_repo_id entry.repo) sha
        entry.skills (afterExportSt st entry sha)).2 e st' h)

theorem rollback_exNames :
    ∀ (L : List (String × String)) (store : List (String × List DirEntry))
      (base : String → List String),
      (∀ id, exNames store id = base id ++ (L.filter (fun c => c.1 == id)).map (·.2)) →
      (∀ c ∈ L, c.2 ∉ base c.1) →
      (∀ id, ((L.filter (fun c => c.1 == id)).map (·.2)).Nodup) →
      ∀ id, exNames (rollbackCreated L store) id = base id := by
  intro L
  induction L with
  | nil =>
    intro store base heq _ _ id
    have := heq id
    simpa [rollbackCreated] using this
  | cons c rest ih =>
    obtain ⟨id0, sha0⟩ := c
    intro store base heq hfresh hnodup id
    have heq0 := heq id0
    rw [List.filter_cons] at heq0
    simp only [beq_self_eq_true, if_true, List.map_cons] at heq0
    have hsome : ∃ es, alGet store id0 = some es := by
      cases hg : alGet store id0 with
      | some es => exact ⟨es, rfl⟩
      | none =>
        exfalso
        have hnil : exNames store id0 = [] := by
          unfold exNames
          rw [hg]
          rfl
        rw [hnil] at heq0
        exact absurd heq0.symm (by simp)
    obtain ⟨es, hg⟩ := hsome
    have hhas : entriesHas es sha0 = true := by
      have hmem : sha0 ∈ exNames store id0 := by
        rw [heq0]
        exact List.mem_append_right _ (List.mem_cons_self _ _)
      have := entriesHas_of_mem_exNames store id0 sha0 hmem
      rw [hg] at this
      simpa using this
    have hstep : rollbackCreated ((id0, sha0) :: rest) store =
        rollbackCreated rest (alSet store id0 (es.filter (fun e => e.name != sha0))) := by
      simp only [rollbackCreated, hg, hhas, if_true]
    rw [hstep]
    have hshaBase : sha0 ∉ base id0 := hfresh (id0, sha0) (List.mem_cons_self _ _)
    have hshaRest : sha0 ∉ (rest.filter (fun c => c.1 == id0)).map (·.2) := by
      have := hnodup id0
      rw [List.filter_cons] at this
      simp only [beq_self_eq_true, if_true, List.map_cons] at this
      exact (List.nodup_cons.mp this).1
    apply ih
    · intro id'
      by_cases hid : id' = id0
      · subst hid
        unfold exNames
        rw [alGet_set_self]
        simp only [Option.getD_some]
        rw [exNames_remove, map_name_filter]
        have hexpand : (es.filter isExportEntry).map (·.name) = exNames store id' := by
          unfold exNames
          rw [hg]
          rfl
        rw [hexpand, heq0]
        rw [List.filter_append, List.filter_cons]
        simp only [bne_self_eq_false, Bool.false_eq_true, if_false]
        rw [List.filter_eq_self.mpr (fun a ha => by
          simp only [bne_iff_ne, ne_eq]
          intro hcontra
          exact hshaBase (hcontra ▸ ha))]
        rw [List.filter_eq_self.mpr (fun a ha => by
          simp only [bne_iff_ne, ne_eq]
          intro hcontra
          exact hshaRest (hcontra ▸ ha))]
      · unfold exNames
        rw [alGet_set_ne _ _ _ _ hid]
        have := heq id'
        rw [List.filter_cons] at this
        simp only [show ((id0, sha0).1 == id') = false by
          simp [Ne.symm hid], Bool.false_eq_true, if_false] at this
        exact this
    · intro c hc
      exact hfresh c (List.mem_cons_of_mem _ hc)
    · intro id'
      have := hnodup id'
      rw [List.filter_cons] at this
      by_cases hid : id0 = id'
      · simp only [hid, beq_self_eq_true, if_true, List.map_cons] at this
        rw [← hid] at this ⊢
        exact (List.nodup_cons.mp (by rw [hid] at this ⊢; exact this)).2
      · simp only [show ((id0, sha0).1 == id') = false by simp [hid],
          Bool.false_eq_true, if_false] at this
        exact this

/-- C1: if any step of a sync pass fails, the orchestrator deletes every
store export directory newly created during this run and no others — the
export directories of every repo root are exactly their pre-run set — and
the persisted manifest is byte-identical to its pre-run state (no
`save_config` is ever performed). -/
theorem sync_failure_rollback (env : GitEnv) (cfg : ConfigData) (w : World)
    (flt : Option String) (force : Bool) (hGit : GitOk env) (e : String)
    (w' : World) (acts : List Act)
    (h : _sync_config env cfg w flt force = (.error e, w', acts)) :
    (∀ id, exNames w'.store id = exNames w.store id) ∧
    w'.manifest = w.manifest ∧
    (∀ c, Act.saveManifest c ∉ acts) := by
  unfold _sync_config at h
  cases hb : _sync_body env cfg flt force
      { world := w, acts := [], created_dirs := [], processed := [], repos_out := [] } with
  | ok p =>
    obtain ⟨data', st⟩ := p
    rw [hb] at h
    simp at h
  | error ep =>
    obtain ⟨e0, st⟩ := ep
    rw [hb] at h
    simp only [Prod.mk.injEq, Except.error.injEq] at h
    obtain ⟨he, hw, ha⟩ := h
    unfold _sync_body at hb
    cases hf : foldE (processEntry env cfg.store_dir cfg.agents flt force)
        { world := w, acts := [], created_dirs := [], processed := [], repos_out := [] }
        cfg.repos with
    | ok st1 =>
      rw [hf] at hb
      simp at hb
    | error ep1 =>
      obtain ⟨e1, st1'⟩ := ep1
      rw [hf] at hb
      simp only [Except.error.injEq, Prod.mk.injEq] at hb
      rw [hb.1, hb.2] at hf
      have hInv := (foldE_inv (processEntry env cfg.store_dir cfg.agents flt force)
        (fun s s' => CreatedInv w.store s → CreatedInv w.store s')
        (fun _ hs => hs) (fun _ _ _ h1 h2 h3 => h2 (h1 h3))
        (fun s x s' hok => (processEntry_createdInv env hGit cfg.store_dir cfg.agents
          flt force w.store s x).1 s' hok)
        (fun s x e' s' herr => (processEntry_createdInv env hGit cfg.store_dir cfg.agents
          flt force w.store s x).2 e' s' herr)
        cfg.repos _).2 e0 st hf
      have hInv0 : CreatedInv w.store
          { world := w, acts := [], created_dirs := [], processed := [], repos_out := [] } := by
        refine ⟨fun id => by simp, by simp, fun id => by simp⟩
      have hInvSt := hInv hInv0
      obtain ⟨hI1, hI2, hI3⟩ := hInvSt
      refine ⟨?_, ?_, ?_⟩
      · intro id
        rw [← hw]
        exact rollback_exNames st.created_dirs st.world.store
          (fun id => exNames w.store id) hI1 hI2 hI3 id
      · rw [← hw]
        show st.world.manifest = w.manifest
        exact (foldE_inv (processEntry env cfg.store_dir cfg.agents flt force)
          (fun s s' => s'.world.manifest = s.world.manifest)
          (fun _ => rfl) (fun _ _ _ h1 h2 => h2.trans h1)
          (fun s x s' hok => (processEntry_manifest env cfg.store_dir cfg.agents
            flt force s x).1 s' hok)
          (fun s x e' s' herr => (processEntry_manifest env cfg.store_dir cfg.agents
            flt force s x).2 e' s' herr)
          cfg.repos _).2 e0 st hf
      · intro c hc
        rw [← ha] at hc
        have := (foldE_inv (processEntry env cfg.store_dir cfg.agents flt force)
          (fun s s' => ∀ c, Act.saveManifest c ∈ s'.acts → Act.saveManifest c ∈ s.acts)
          (fun _ _ hs => hs) (fun _ _ _ h1 h2 c hc => h1 c (h2 c hc))
          (fun s x s' hok => (processEntry_no_save env cfg.store_dir cfg.agents
            flt force s x).1 s' hok)
          (fun s x e' s' herr => (processEntry_no_save env cfg.store_dir cfg.agents
            flt force s x).2 e' s' herr)
          cfg.repos _).2 e0 st hf c hc
        simp at this

/-- Concrete failing scenario: the second of two repositories fails
verification (missing `SKILL.md`); the first repository's fresh export is
rolled back, the pre-existing export survives, the manifest is untouched. -/
def failEnv : GitEnv :=
  { git := fun u _ => if u = "u1" then .ok "aaa" else .ok "bbb",
    skillOk := fun rid _ _ => rid = "u1" }

def failCfg : ConfigData :=
  { store_dir := "st", agents := [],
    repos := [⟨"u1", "v1", none, [⟨"s1", "d1", []⟩]⟩,
              ⟨"u2", "v2", none, [⟨"s2", "d2", []⟩]⟩] }

def failWorld : World :=
  { store := [("u1", [⟨"old", true⟩])], dests := [], manifest := "PREV" }

/-- Witness for `sync_failure_rollback` at the concrete failing scenario. -/
theorem sync_failure_rollback_witness :
    exNames (_sync_config failEnv failCfg failWorld none false).2.1.store "u1" =
      exNames failWorld.store "u1" ∧
    (_sync_config failEnv failCfg failWorld none false).2.1.manifest =
      failWorld.manifest ∧
    Act.saveManifest "x" ∉ (_sync_config failEnv failCfg failWorld none false).2.2 := by
  have hGit : GitOk failEnv := by
    intro u r s hs
    simp only [failEnv] at hs
    split at hs <;> (cases hs; decide)
  have h := sync_failure_rollback failEnv failCfg failWorld none false hGit _ _ _ rfl
  exact ⟨h.1 "u1", h.2.1, h.2.2 "x"⟩

/-! ### Filtered sync touches only the filtered repository's subtree (C5) -/

theorem alSet_mem {α β : Type} [DecidableEq α] (l : List (α × β)) (k : α) (v : β) :
    ∀ p ∈ alSet l k v, p ∈ l ∨ p.1 = k := by
  induction l with
  | nil =>
    intro p hp
    simp only [alSet, List.mem_singleton] at hp
    right
    rw [hp]
  | cons kv rest ih =>
    intro p hp
    by_cases hk : kv.1 = k
    · simp only [alSet, if_pos hk] at hp
      rcases List.mem_cons.mp hp with hp | hp
      · right; rw [hp]
      · left; exact List.mem_cons_of_mem _ hp
    · simp only [alSet, if_neg hk] at hp
      rcases List.mem_cons.mp hp with hp | hp
      · left; rw [hp]; exact List.mem_cons_self _ _
      · rcases ih p hp with h | h
        · left; exact List.mem_cons_of_mem _ h
        · right; exact h

/-- The frame a filtered run maintains: store keys other than the filtered
repo id are untouched, and all bookkeeping refers to the filtered repo id. -/
def FilterFrame (rid : String) (st st' : SyncSt) : Prop :=
  (∀ id, id ≠ rid → alGet st'.world.store id = alGet st.world.store id) ∧
  (∀ p ∈ st'.processed, p ∈ st.processed ∨ p.1 = rid) ∧
  (∀ c ∈ st'.created_dirs, c ∈ st.created_dirs ∨ c.1 = rid)

theorem FilterFrame.rfl' (rid : String) (s : SyncSt) : FilterFrame rid s s :=
  ⟨fun _ _ => rfl, fun p hp => Or.inl hp, fun c hc => Or.inl hc⟩

theorem FilterFrame.trans' {rid : String} {s t u : SyncSt}
    (h1 : FilterFrame rid s t) (h2 : FilterFrame rid t u) : FilterFrame rid s u := by
  refine ⟨?_, ?_, ?_⟩
  · intro id hid
    rw [h2.1 id hid, h1.1 id hid]
  · intro p hp
    rcases h2.2.1 p hp with h | h
    · exact h1.2.1 p h
    · exact Or.inr h
  · intro c hc
    rcases h2.2.2 c hc with h | h
    · exact h1.2.2 c h
    · exact Or.inr h

theorem linkFrame_filterFrame {rid : String} {s t : SyncSt} (h : LinkFrame s t) :
    FilterFrame rid s t := by
  refine ⟨?_, ?_, ?_⟩
  · intro id _
    rw [h.store]
  · intro p hp
    rw [h.processed] at hp
    exact Or.inl hp
  · intro c hc
    rw [h.created] at hc
    exact Or.inl hc

theorem processEntry_filtered (env : GitEnv) (sd : String)
    (ags : List (String × Option String)) (url : String) (force : Bool)
    (st : SyncSt) (entry : RepoEntry) :
    (∀ st', processEntry env sd ags (some url) force st entry = .ok st' →
      FilterFrame (_repo_id url) st st') ∧
    (∀ e st', processEntry env sd ags (some url) force st entry = .error (e, st') →
      FilterFrame (_repo_id url) st st') := by
  rcases processEntry_cases env sd ags (some url) force st entry with
    ⟨heq, -⟩ | ⟨msg, helig, hgit, heq⟩ | ⟨sha, helig, hgit, heq⟩
  · constructor
    · intro st' h
      rw [heq] at h
      simp only [Except.ok.injEq] at h
      subst h
      exact FilterFrame.rfl' _ _
    · intro e st' h
      rw [heq] at h
      simp at h
  · have hurl : entry.repo = url := by
      unfold eligible passesFilter at helig
      simp only [Bool.and_eq_true, beq_iff_eq] at helig
      exact helig.1.symm
    constructor
    · intro st' h
      rw [heq] at h
      simp at h
    · intro e st' h
      rw [heq] at h
      simp only [Except.error.injEq, Prod.mk.injEq] at h
      rw [← h.2]
      refine ⟨?_, fun p hp => Or.inl hp, fun c hc => Or.inl hc⟩
      intro id hid
      show alGet (storeMkdir st.world.store (_repo_id entry.repo)) id = _
      rw [hurl]
      exact storeMkdir_get_ne _ _ _ hid
  · have hurl : entry.repo = url := by
      unfold eligible passesFilter at helig
      simp only [Bool.and_eq_true, beq_iff_eq] at helig
      exact helig.1.symm
    have hAfter : FilterFrame (_repo_id url) st (afterExportSt st entry sha) := by
      unfold afterExportSt
      rw [hurl]
      split
      · refine ⟨?_, ?_, fun c hc => Or.inl hc⟩
        · intro id hid
          exact storeMkdir_get_ne _ _ _ hid
        · intro p hp
          rcases alSet_mem _ _ _ p hp with h | h
          · exact Or.inl h
          · exact Or.inr h
      · refine ⟨?_, ?_, ?_⟩
        · intro id hid
          show alGet (alSet (storeMkdir st.world.store (_repo_id url)) (_repo_id url) _) id = _
          rw [alGet_set_ne _ _ _ _ hid]
          exact storeMkdir_get_ne _ _ _ hid
        · intro p hp
          rcases alSet_mem _ _ _ p hp with h | h
          · exact Or.inl h
          · exact Or.inr h
        · intro c hc
          rcases List.mem_append.mp hc with h | h
          · exact Or.inl h
          · right
            rw [List.mem_singleton.mp h]
    constructor
    · intro st' h
      rw [heq] at h
      exact FilterFrame.trans' hAfter
        (linkFrame_filterFrame ((skillsPhase_frame env ags force sd (_repo_id entry.repo)
          sha entry.skills (afterExportSt st entry sha)).1 st' h))
    · intro e st' h
      rw [heq] at h
      exact FilterFrame.trans' hAfter
        (linkFrame_filterFrame ((skillsPhase_frame env ags force sd (_repo_id entry.repo)
          sha entry.skills (afterExportSt st entry sha)).2 e st' h))

theorem cleanupProcessed_frame :
    ∀ (processed : List (String × String)) (store : List (String × List DirEntry))
      (id : String), (∀ p ∈ processed, p.1 ≠ id) →
      alGet (cleanupProcessed processed store).1 id = alGet store id := by
  intro processed
  induction processed with
  | nil => intro store id _; rfl
  | cons p rest ih =>
    obtain ⟨id0, sha0⟩ := p
    intro store id hne
    have hid0 : id0 ≠ id := hne (id0, sha0) (List.mem_cons_self _ _)
    unfold cleanupProcessed
    cases hg : alGet store id0 with
    | none =>
      exact ih store id (fun q hq => hne q (List.mem_cons_of_mem _ hq))
    | some es =>
      simp only
      rw [ih _ id (fun q hq => hne q (List.mem_cons_of_mem _ hq))]
      exact alGet_set_ne _ _ _ _ (Ne.symm hid0)

theorem rollbackCreated_frame :
    ∀ (L : List (String × String)) (store : List (String × List DirEntry))
      (id : String), (∀ c ∈ L, c.1 ≠ id) →
      alGet (rollbackCreated L store) id = alGet store id := by
  intro L
  induction L with
  | nil => intro store id _; rfl
  | cons c rest ih =>
    obtain ⟨id0, sha0⟩ := c
    intro store id hne
    have hid0 : id0 ≠ id := hne (id0, sha0) (List.mem_cons_self _ _)
    unfold rollbackCreated
    rw [ih _ id (fun q hq => hne q (List.mem_cons_of_mem _ hq))]
    cases hg : alGet store id0 with
    | none => rfl
    | some es =>
      simp only
      split
      · exact alGet_set_ne _ _ _ _ (Ne.symm hid0)
      · rfl

/-- Loop actions: what the repository loop may append to the trace. -/
def isLoopAct (a : Act) : Prop :=
  (∃ u r, a = Act.gitFetch u r) ∨ (∃ i s, a = Act.exportCopy i s) ∨
    (∃ lp la, a = Act.linkOp lp la)

theorem processEntry_acts_loop (env : GitEnv) (sd : String)
    (ags : List (String × Option String)) (flt : Option String) (force : Bool)
    (st : SyncSt) (entry : RepoEntry) :
    (∀ st', processEntry env sd ags flt force st entry = .ok st' →
      ∀ a ∈ st'.acts, a ∈ st.acts ∨ isLoopAct a) ∧
    (∀ e st', processEntry env sd ags flt force st entry = .error (e, st') →
      ∀ a ∈ st'.acts, a ∈ st.acts ∨ isLoopAct a) := by
  have hafterActs : ∀ sha a, a ∈ (afterExportSt st entry sha).acts →
      a ∈ st.acts ∨ isLoopAct a := by
    intro sha a ha
    unfold afterExportSt at ha
    split at ha <;>
    · simp only [List.mem_append] at ha
      rcases ha with ha | ha
      · exact Or.inl ha
      · right
        rcases List.mem_cons.mp ha with ha | ha
        · exact Or.inl ⟨_, _, ha⟩
        · first
          | exact Or.inr (Or.inl ⟨_, _, List.mem_singleton.mp ha⟩)
          | (exfalso; simp at ha)
  have hframe : ∀ sha (st' : SyncSt), LinkFrame (afterExportSt st entry sha) st' →
      ∀ a ∈ st'.acts, a ∈ st.acts ∨ isLoopAct a := by
    intro sha st' hf a ha
    obtain ⟨d, hd, hl⟩ := hf.acts
    rw [hd] at ha
    rcases List.mem_append.mp ha with ha | ha
    · exact hafterActs sha a ha
    · obtain ⟨lp, la, rfl⟩ := hl _ ha
      exact Or.inr (Or.inr (Or.inr ⟨lp, la, rfl⟩))
  rcases processEntry_cases env sd ags flt force st entry with
    ⟨heq, -⟩ | ⟨msg, -, hgit, heq⟩ | ⟨sha, -, hgit, heq⟩
  · constructor
    · intro st' h a ha
      rw [heq] at h
      simp only [Except.ok.injEq] at h
      subst h
      exact Or.inl ha
    · intro e st' h
      rw [heq] at h
      simp at h
  · constructor
    · intro st' h
      rw [heq] at h
      simp at h
    · intro e st' h a ha
      rw [heq] at h
      simp only [Except.error.injEq, Prod.mk.injEq] at h
      rw [← h.2] at ha
      unfold gitErrSt at ha
      simp only [List.mem_append] at ha
      rcases ha with ha | ha
      · exact Or.inl ha
      · exact Or.inr (Or.inl ⟨_, _, List.mem_singleton.mp ha⟩)
  · constructor
    · intro st' h
      rw [heq] at h
      exact hframe sha st' ((skillsPhase_frame env ags force sd (_repo_id entry.repo)
        sha entry.skills (afterExportSt st entry sha)).1 st' h)
    · intro e st' h
      rw [heq] at h
      exact hframe sha st' ((skillsPhase_frame env ags force sd (_repo_id entry.repo)
        sha entry.skills (afterExportSt st entry sha)).2 e st' h)

/-- C5 (amended): a sync filtered to one repository locator never touches
any store repo subtree other than the one named by that locator's
`repo_id`, and never performs the store-root-wide sweep — whether the run
succeeds or fails.  (Two locators transliterating to the same `repo_id`
share one subtree; that shared subtree is pruned as the filtered
repository's own — see the counterexample.) -/
theorem filtered_sync_frame (env : GitEnv) (cfg : ConfigData) (w : World)
    (url : String) (force : Bool) (res : Except String ConfigData)
    (w' : World) (acts : List Act)
    (h : sync_repo env cfg w url force = (res, w', acts)) :
    (∀ id, id ≠ _repo_id url → alGet w'.store id = alGet w.store id) ∧
    (∀ rid, Act.pruneRepo rid ∉ acts) := by
  unfold sync_repo _sync_config at h
  have hFold := foldE_inv (processEntry env cfg.store_dir cfg.agents (some url) force)
    (FilterFrame (_repo_id url)) (FilterFrame.rfl' _)
    (fun _ _ _ => FilterFrame.trans')
    (fun s x s' hok => (processEntry_filtered env cfg.store_dir cfg.agents url force s x).1
      s' hok)
    (fun s x e s' herr => (processEntry_filtered env cfg.store_dir cfg.agents url force s x).2
      e s' herr)
    cfg.repos
    { world := w, acts := [], created_dirs := [], processed := [], repos_out := [] }
  have hActs := foldE_inv (processEntry env cfg.store_dir cfg.agents (some url) force)
    (fun s s' => ∀ a ∈ s'.acts, a ∈ s.acts ∨ isLoopAct a)
    (fun _ _ ha => Or.inl ha)
    (fun _ _ _ h1 h2 a ha => by
      rcases h2 a ha with hh | hh
      · exact h1 a hh
      · exact Or.inr hh)
    (fun s x s' hok => (processEntry_acts_loop env cfg.store_dir cfg.agents (some url)
      force s x).1 s' hok)
    (fun s x e s' herr => (processEntry_acts_loop env cfg.store_dir cfg.agents (some url)
      force s x).2 e s' herr)
    cfg.repos
    { world := w, acts := [], created_dirs := [], processed := [], repos_out := [] }
  cases hf : foldE (processEntry env cfg.store_dir cfg.agents (some url) force)
      { world := w, acts := [], created_dirs := [], processed := [], repos_out := [] }
      cfg.repos with
  | ok st1 =>
    rw [show _sync_body env cfg (some url) force
        { world := w, acts := [], created_dirs := [], processed := [], repos_out := [] } =
        .ok ({ cfg with repos := st1.repos_out },
          { st1 with
            world := { st1.world with
              store := (_cleanup_store st1.processed (some url) st1.world.store).1,
              manifest := dumpData { cfg with repos := st1.repos_out } },
            acts := st1.acts ++ (_cleanup_store st1.processed (some url) st1.world.store).2 ++
              [Act.saveManifest (dumpData { cfg with repos := st1.repos_out })] }) by
      unfold _sync_body
      rw [hf]] at h
    simp only [Prod.mk.injEq, Except.ok.injEq] at h
    obtain ⟨-, hw, ha⟩ := h
    have hframe := (hFold.1) st1 hf
    constructor
    · intro id hid
      rw [← hw]
      show alGet (_cleanup_store st1.processed (some url) st1.world.store).1 id = _
      unfold _cleanup_store
      simp only
      rw [cleanupProcessed_frame st1.processed st1.world.store id ?hne]
      · exact hframe.1 id hid
      case hne =>
        intro p hp
        rcases hframe.2.1 p hp with hc | hc
        · simp at hc
        · rw [hc]; exact Ne.symm hid
    · intro rid hmem
      rw [← ha] at hmem
      rcases List.mem_append.mp hmem with hmem | hmem
      · rcases List.mem_append.mp hmem with hmem | hmem
        · rcases (hActs.1 st1 hf) _ hmem with hh | hh
          · simp at hh
          · rcases hh with ⟨u, r, hx⟩ | ⟨i, s, hx⟩ | ⟨lp, la, hx⟩ <;> simp at hx
        · unfold _cleanup_store at hmem
          simp only at hmem
          obtain ⟨i, n, hx⟩ := cleanupProcessed_acts st1.processed st1.world.store _ hmem
          simp at hx
      · simp at hmem
  | error ep =>
    obtain ⟨e0, st1⟩ := ep
    rw [show _sync_body env cfg (some url) force
        { world := w, acts := [], created_dirs := [], processed := [], repos_out := [] } =
        .error (e0, st1) by
      unfold _sync_body
      rw [hf]] at h
    simp only [Prod.mk.injEq, Except.error.injEq] at h
    obtain ⟨-, hw, ha⟩ := h
    have hframe := (hFold.2) e0 st1 hf
    constructor
    · intro id hid
      rw [← hw]
      show alGet (rollbackCreated st1.created_dirs st1.world.store) id = _
      rw [rollbackCreated_frame st1.created_dirs st1.world.store id ?hne]
      · exact hframe.1 id hid
      case hne =>
        intro c hc
        rcases hframe.2.2 c hc with hh | hh
        · simp at hh
        · rw [hh]; exact Ne.symm hid
    · intro rid hmem
      rw [← ha] at hmem
      rcases (hActs.2 e0 st1 hf) _ hmem with hh | hh
      · simp at hh
      · rcases hh with ⟨u, r, hx⟩ | ⟨i, s, hx⟩ | ⟨lp, la, hx⟩ <;> simp at hx

/-- Collision fixtures: two declared repositories whose locators
transliterate to the same `repo_id`. -/
def cexEnv : GitEnv :=
  { git := fun u _ => if u = "a-b" then .ok "shaA" else .error "x",
    skillOk := fun _ _ _ => true }

def cexCfg : ConfigData :=
  { store_dir := "st", agents := [],
    repos := [⟨"a-b", "v", none, [⟨"sA", "pA", []⟩]⟩,
              ⟨"a.b", "v2", none, [⟨"sB", "pB", []⟩]⟩] }

def cexWorld : World :=
  { store := [("a__b", [⟨"oldB", true⟩])], dests := [], manifest := "M" }

/-- C5 counterexample: a sync filtered to repository `a-b` removes the
stale export `oldB` of the *other* declared repository `a.b`, because both
locators share the store subtree `a__b` — so "every other repository's
store subtree is left untouched" is false as stated. -/
theorem filtered_sync_counterexample :
    ("a.b" : String) ≠ "a-b" ∧
    "a.b" ∈ cexCfg.repos.map (·.repo) ∧
    (⟨"oldB", true⟩ : DirEntry) ∈ ((alGet cexWorld.store (_repo_id "a.b")).getD []) ∧
    (⟨"oldB", true⟩ : DirEntry) ∉
      ((alGet (sync_repo cexEnv cexCfg cexWorld "a-b" false).2.1.store
        (_repo_id "a.b")).getD []) := by
  refine ⟨by decide, by decide, by decide, by decide⟩

/-- A second collision world holding an unrelated repo subtree `other`. -/
def cexWorld2 : World :=
  { store := [("other", [⟨"keep", true⟩]), ("a__b", [⟨"oldB", true⟩])],
    dests := [], manifest := "M" }

/-- Witness for `filtered_sync_frame` at a concrete filtered run: a store
subtree with a different repo id is untouched and no root sweep happens. -/
theorem filtered_sync_frame_witness :
    alGet (sync_repo cexEnv cexCfg cexWorld2 "a-b" false).2.1.store "other" =
      alGet cexWorld2.store "other" ∧
    Act.pruneRepo "other" ∉ (sync_repo cexEnv cexCfg cexWorld2 "a-b" false).2.2 := by
  have h := filtered_sync_frame cexEnv cexCfg cexWorld2 "a-b" false _ _ _ rfl
  exact ⟨h.1 "other" (by decide), h.2 "other"⟩

/-! ### Full-sync pruning (C4): store shape after a successful full run -/

/-- The commit id the pipeline resolves (defaulting on failure; only used
on paths where the pipeline succeeded). -/
def gitShaD (env : GitEnv) (u r : String) : String :=
  match env.git u r with
  | .ok s => s
  | .error _ => ""

/-- The `processed_repos` mapping a run computes: one binding per eligible
repository, later bindings overwriting earlier ones with the same repo id
(dict semantics). -/
def plannedProcessed (env : GitEnv) (flt : Option String)
    (repos : List RepoEntry) : List (String × String) :=
  repos.foldl
    (fun acc r =>
      if eligible flt r then alSet acc (_repo_id r.repo) (gitShaD env r.repo r.rev)
      else acc) []

theorem alSet_mem_eq {α β : Type} [DecidableEq α] (l : List (α × β)) (k : α) (v : β) :
    ∀ p ∈ alSet l k v, p ∈ l ∨ p = (k, v) := by
  induction l with
  | nil =>
    intro p hp
    simp only [alSet, List.mem_singleton] at hp
    exact Or.inr hp
  | cons kv rest ih =>
    intro p hp
    by_cases hk : kv.1 = k
    · simp only [alSet, if_pos hk] at hp
      rcases List.mem_cons.mp hp with hp | hp
      · exact Or.inr hp
      · exact Or.inl (List.mem_cons_of_mem _ hp)
    · simp only [alSet, if_neg hk] at hp
      rcases List.mem_cons.mp hp with hp | hp
      · exact Or.inl (hp ▸ List.mem_cons_self _ _)
      · rcases ih p hp with h | h
        · exact Or.inl (List.mem_cons_of_mem _ h)
        · exact Or.inr h

theorem alGet_set_cases {α β : Type} [DecidableEq α] (l : List (α × β)) (k : α) (v : β)
    (k' : α) (v' : β) (h : alGet (alSet l k v) k' = some v') :
    (k' = k ∧ v' = v) ∨ (k' ≠ k ∧ alGet l k' = some v') := by
  by_cases hk : k' = k
  · subst hk
    rw [alGet_set_self] at h
    exact Or.inl ⟨rfl, (Option.some.injEq _ _ ▸ h).symm⟩
  · rw [alGet_set_ne _ _ _ _ hk] at h
    exact Or.inr ⟨hk, h⟩

theorem alGet_isSome_iff_mem {α β : Type} [DecidableEq α] (l : List (α × β)) (k : α) :
    (alGet l k).isSome = true ↔ k ∈ l.map (·.1) := by
  induction l with
  | nil => simp [alGet]
  | cons kv rest ih =>
    by_cases hk : kv.1 = k
    · simp [alGet, hk]
    · simp [alGet, hk, ih, Ne.symm hk]

theorem alSet_keys_nodup {α β : Type} [DecidableEq α] (l : List (α × β)) (k : α) (v : β)
    (h : (l.map (·.1)).Nodup) : ((alSet l k v).map (·.1)).Nodup := by
  induction l with
  | nil => simp [alSet]
  | cons kv rest ih =>
    by_cases hk : kv.1 = k
    · simp only [alSet, if_pos hk, List.map_cons]
      simp only [List.map_cons] at h
      rw [← hk]
      exact h
    · simp only [alSet, if_neg hk, List.map_cons]
      simp only [List.map_cons, List.nodup_cons] at h ⊢
      constructor
      · intro hmem
        rcases List.mem_map.mp hmem with ⟨p, hp, hp1⟩
        rcases alSet_mem_eq rest k v p hp with hh | hh
        · exact h.1 (hp1 ▸ List.mem_map_of_mem _ hh)
        · rw [hh] at hp1
          exact hk hp1.symm
      · exact ih h.2

theorem storeMkdir_wf (store : List (String × List DirEntry)) (id : String)
    (h : StoreWf store) : StoreWf (storeMkdir store id) := by
  unfold storeMkdir
  split
  · exact h
  · intro kv hkv
    rcases List.mem_append.mp hkv with hkv | hkv
    · exact h kv hkv
    · rw [List.mem_singleton.mp hkv]
      exact ⟨fun e he => absurd he (List.not_mem_nil e), List.nodup_nil⟩

theorem storeWf_set (store : List (String × List DirEntry)) (id : String)
    (es : List DirEntry) (h : StoreWf store)
    (hes : (∀ e ∈ es, e.isDir = true) ∧ (es.map (·.name)).Nodup) :
    StoreWf (alSet store id es) := by
  intro kv hkv
  rcases alSet_mem_eq store id es kv hkv with hh | hh
  · exact h kv hh
  · rw [hh]
    exact hes

/-- After a successful loop, `processed` is the planned mapping. -/
theorem runRepos_processed (env : GitEnv) (sd : String)
    (ags : List (String × Option String)) (flt : Option String) (force : Bool) :
    ∀ (l : List RepoEntry) (st st' : SyncSt),
      foldE (processEntry env sd ags flt force) st l = .ok st' →
      st'.processed = l.foldl
        (fun acc r =>
          if eligible flt r then alSet acc (_repo_id r.repo) (gitShaD env r.repo r.rev)
          else acc) st.processed := by
  intro l
  induction l with
  | nil =>
    intro st st' h
    simp only [foldE, Except.ok.injEq] at h
    subst h
    rfl
  | cons x xs ih =>
    intro st st' h
    simp only [foldE] at h
    cases hx : processEntry env sd ags flt force st x with
    | error ep => rw [hx] at h; simp at h
    | ok st1 =>
      rw [hx] at h
      have hstep : st1.processed =
          if eligible flt x then alSet st.processed (_repo_id x.repo) (gitShaD env x.repo x.rev)
          else st.processed := by
        rcases processEntry_cases env sd ags flt force st x with
          ⟨heq, helig⟩ | ⟨msg, helig, hgit, heq⟩ | ⟨sha, helig, hgit, heq⟩
        · rw [heq] at hx
          simp only [Except.ok.injEq] at hx
          rw [← hx, helig]
          simp
        · rw [heq] at hx
          simp at hx
        · rw [heq] at hx
          have hf := (skillsPhase_frame env ags force sd (_repo_id x.repo) sha
            x.skills (afterExportSt st x sha)).1 st1 hx
          rw [hf.processed, helig, if_pos rfl]
          have hsha : gitShaD env x.repo x.rev = sha := by
            unfold gitShaD
            rw [hgit]
          rw [hsha]
          unfold afterExportSt
          split <;> rfl
      rw [ih st1 st' h, hstep]
      simp only [List.foldl_cons]

/-- Invariant of the full-sync loop needed for the pruning theorem. -/
def FullInv (st : SyncSt) : Prop :=
  StoreWf st.world.store ∧
  (∀ id sha, alGet st.processed id = some sha →
    isTmpName sha = false ∧
    ∃ es, alGet st.world.store id = some es ∧ ⟨sha, true⟩ ∈ es) ∧
  (st.processed.map (·.1)).Nodup

theorem linkFrame_fullInv {s t : SyncSt} (hf : LinkFrame s t) (h : FullInv s) :
    FullInv t := by
  obtain ⟨h1, h2, h3⟩ := h
  refine ⟨?_, ?_, ?_⟩
  · rw [hf.store]; exact h1
  · intro id sha hsha
    rw [hf.processed] at hsha
    rw [hf.store]
    exact h2 id sha hsha
  · rw [hf.processed]; exact h3

theorem alGet_mem {α β : Type} [DecidableEq α] (l : List (α × β)) (k : α) (v : β)
    (h : alGet l k = some v) : (k, v) ∈ l := by
  induction l with
  | nil => simp [alGet] at h
  | cons kv rest ih =>
    obtain ⟨k1, v1⟩ := kv
    by_cases hk : k1 = k
    · subst hk
      have hv : v1 = v := by simpa [alGet] using h
      subst hv
      exact List.mem_cons_self _ _
    · simp only [alGet, hk, if_false, if_neg hk] at h
      exact List.mem_cons_of_mem _ (ih h)

theorem afterExport_fullInv (env : GitEnv) (hGit : GitOk env) (st : SyncSt)
    (entry : RepoEntry) (sha : String)
    (hsha : env.git entry.repo entry.rev = .ok sha) (h : FullInv st) :
    FullInv (afterExportSt st entry sha) := by
  obtain ⟨h1, h2, h3⟩ := h
  have hTmp : isTmpName sha = false := hGit entry.repo entry.rev sha hsha
  have hwf1 : StoreWf (storeMkdir st.world.store (_repo_id entry.repo)) :=
    storeMkdir_wf _ _ h1
  obtain ⟨es, hes⟩ : ∃ es, alGet (storeMkdir st.world.store (_repo_id entry.repo))
      (_repo_id entry.repo) = some es := by
    rw [storeMkdir_get_self]
    exact ⟨_, rfl⟩
  have heswf := hwf1 _ (alGet_mem _ _ _ hes)
  unfold afterExportSt
  by_cases hE : entriesHas ((alGet (storeMkdir st.world.store (_repo_id entry.repo))
      (_repo_id entry.repo)).getD []) sha = true
  · rw [if_pos hE]
    rw [hes] at hE
    simp only [Option.getD_some] at hE
    obtain ⟨e0, he0, he0name⟩ := List.any_eq_true.mp hE
    have he0dir : e0.isDir = true := heswf.1 e0 he0
    have he0eq : e0 = ⟨sha, true⟩ := by
      obtain ⟨n, b⟩ := e0
      simp only [DirEntry.mk.injEq]
      simp only at he0dir
      exact ⟨by simpa using he0name, he0dir⟩
    refine ⟨hwf1, ?_, alSet_keys_nodup _ _ _ h3⟩
    intro id sha0 hget
    rcases alGet_set_cases st.processed (_repo_id entry.repo) sha id sha0 hget with
      ⟨hid, hsha0⟩ | ⟨hid, hget'⟩
    · subst hid hsha0
      exact ⟨hTmp, es, hes, he0eq ▸ he0⟩
    · obtain ⟨htmp0, es0, hes0, hmem0⟩ := h2 id sha0 hget'
      exact ⟨htmp0, es0, by rw [storeMkdir_get_ne _ _ _ hid]; exact hes0, hmem0⟩
  · rw [if_neg hE]
    rw [hes]
    simp only [Option.getD_some]
    rw [hes] at hE
    simp only [Option.getD_some] at hE
    have hnot : ∀ e ∈ es, e.name ≠ sha := by
      intro e he hcontra
      apply hE
      exact List.any_eq_true.mpr ⟨e, he, by simp [hcontra]⟩
    have hkeep : ∀ e ∈ es.filter (fun e => e.name != ".tmp-" ++ sha), e ∈ es :=
      fun e he => (List.mem_filter.mp he).1
    have hNewWf : (∀ e ∈ (es.filter (fun e => e.name != ".tmp-" ++ sha)) ++
          ([⟨sha, true⟩] : List DirEntry), e.isDir = true) ∧
        ((((es.filter (fun e => e.name != ".tmp-" ++ sha)) ++
          ([⟨sha, true⟩] : List DirEntry)).map (·.name)).Nodup) := by
      constructor
      · intro e he
        rcases List.mem_append.mp he with he | he
        · exact heswf.1 e (hkeep e he)
        · rw [List.mem_singleton.mp he]
      · rw [List.map_append]
        refine List.Nodup.append ?_ (by simp) ?_
        · exact List.Nodup.sublist
            (List.Sublist.map (·.name) (List.filter_sublist es)) heswf.2
        · intro x hx hx'
          simp only [List.map_cons, List.map_nil, List.mem_singleton] at hx'
          obtain ⟨e, he, hename⟩ := List.mem_map.mp hx
          exact hnot e (hkeep e he) (by rw [hename, hx'])
    refine ⟨?_, ?_, alSet_keys_nodup _ _ _ h3⟩
    · exact storeWf_set _ _ _ hwf1 hNewWf
    · intro id sha0 hget
      rcases alGet_set_cases st.processed (_repo_id entry.repo) sha id sha0 hget with
        ⟨hid, hsha0⟩ | ⟨hid, hget'⟩
      · subst hid hsha0
        refine ⟨hTmp, _, alGet_set_self _ _ _, ?_⟩
        exact List.mem_append_right _ (List.mem_singleton.mpr rfl)
      · obtain ⟨htmp0, es0, hes0, hmem0⟩ := h2 id sha0 hget'
        refine ⟨htmp0, es0, ?_, hmem0⟩
        rw [alGet_set_ne _ _ _ _ hid, storeMkdir_get_ne _ _ _ hid]
        exact hes0

theorem storeMkdir_get_mono (store : List (String × List DirEntry)) (id' id : String)
    (es : List DirEntry) (h : alGet store id = some es) :
    alGet (storeMkdir store id') id = some es := by
  unfold storeMkdir
  split
  · exact h
  · rw [alGet_append, h]

theorem processEntry_fullInv (env : GitEnv) (hGit : GitOk env) (sd : String)
    (ags : List (String × Option String)) (flt : Option String) (force : Bool)
    (st : SyncSt) (entry : RepoEntry) :
    (∀ st', processEntry env sd ags flt force st entry = .ok st' →
      FullInv st → FullInv st') ∧
    (∀ e st', processEntry env sd ags flt force st entry = .error (e, st') →
      FullInv st → FullInv st') := by
  have hgitErr : FullInv st → FullInv (gitErrSt st entry) := by
    rintro ⟨h1, h2, h3⟩
    refine ⟨storeMkdir_wf _ _ h1, ?_, h3⟩
    intro id sha hget
    obtain ⟨htmp, es, hes, hmem⟩ := h2 id sha hget
    exact ⟨htmp, es, storeMkdir_get_mono _ _ _ _ hes, hmem⟩
  rcases processEntry_cases env sd ags flt force st entry with
    ⟨heq, -⟩ | ⟨msg, -, hgit, heq⟩ | ⟨sha, -, hgit, heq⟩
  · constructor
    · intro st' h hinv
      rw [heq] at h
      simp only [Except.ok.injEq] at h
      subst h
      exact hinv
    · intro e st' h
      rw [heq] at h
      simp at h
  · constructor
    · intro st' h
      rw [heq] at h
      simp at h
    · intro e st' h hinv
      rw [heq] at h
      simp only [Except.error.injEq, Prod.mk.injEq] at h
      rw [← h.2]
      exact hgitErr hinv
  · constructor
    · intro st' h hinv
      rw [heq] at h
      exact linkFrame_fullInv
        ((skillsPhase_frame env ags force sd (_repo_id entry.repo) sha entry.skills
          (afterExportSt st entry sha)).1 st' h)
        (afterExport_fullInv env hGit st entry sha hgit hinv)
    · intro e st' h hinv
      rw [heq] at h
      exact linkFrame_fullInv
        ((skillsPhase_frame env ags force sd (_repo_id entry.repo) sha entry.skills
          (afterExportSt st entry sha)).2 e st' h)
        (afterExport_fullInv env hGit st entry sha hgit hinv)

theorem alSet_isSome_of_mem {α β : Type} [DecidableEq α] (l : List (α × β)) (k : α)
    (v : β) (h : (alGet l k).isSome = true) (id : α) :
    (alGet (alSet l k v) id).isSome = (alGet l id).isSome := by
  by_cases hk : id = k
  · subst hk
    rw [alGet_set_self, h]
    rfl
  · rw [alGet_set_ne _ _ _ _ hk]

theorem cleanupRepoKept_singleton (sha : String) (es : List DirEntry)
    (hdir : ∀ e ∈ es, e.isDir = true) (hnodup : (es.map (·.name)).Nodup)
    (hmem : (⟨sha, true⟩ : DirEntry) ∈ es) :
    cleanupRepoKept sha es = [⟨sha, true⟩] := by
  induction es with
  | nil => cases hmem
  | cons e rest ih =>
    simp only [List.map_cons, List.nodup_cons] at hnodup
    rcases List.mem_cons.mp hmem with he | he
    · rw [← he]
      unfold cleanupRepoKept
      rw [List.filter_cons, if_pos (by simp)]
      have hrest : rest.filter (fun x => !x.isDir || x.name == sha) = [] := by
        apply List.filter_eq_nil.mpr
        intro x hx
        have hxdir := hdir x (List.mem_cons_of_mem _ hx)
        have hxname : x.name ≠ sha := by
          intro hc
          apply hnodup.1
          rw [← he]
          simp only
          rw [← hc]
          exact List.mem_map_of_mem _ hx
        simp [hxdir, hxname]
      unfold cleanupRepoKept at hrest
      rw [hrest]
    · have hename : e.name ≠ sha := by
        intro hc
        apply hnodup.1
        rw [hc]
        have : (⟨sha, true⟩ : DirEntry).name = sha := rfl
        rw [← this]
        exact List.mem_map_of_mem _ he
      unfold cleanupRepoKept
      rw [List.filter_cons]
      have hcond : (!e.isDir || e.name == sha) = false := by
        simp [hdir e (List.mem_cons_self _ _), hename]
      rw [if_neg (by rw [hcond]; simp)]
      have := ih (fun x hx => hdir x (List.mem_cons_of_mem _ hx)) hnodup.2 he
      unfold cleanupRepoKept at this
      rw [this]

theorem cleanupProcessed_isSome :
    ∀ (processed : List (String × String)) (store : List (String × List DirEntry))
      (id : String),
      (alGet (cleanupProcessed processed store).1 id).isSome = (alGet store id).isSome := by
  intro processed
  induction processed with
  | nil => intro store id; rfl
  | cons p rest ih =>
    obtain ⟨id0, sha0⟩ := p
    intro store id
    unfold cleanupProcessed
    cases hg : alGet store id0 with
    | none => exact ih store id
    | some es =>
      simp only
      rw [ih _ id]
      exact alSet_isSome_of_mem _ _ _ (by rw [hg]; rfl) id

theorem cleanupProcessed_get :
    ∀ (processed : List (String × String)) (store : List (String × List DirEntry)),
      ((processed.map (·.1)).Nodup) →
      ∀ id sha es, alGet processed id = some sha → alGet store id = some es →
        alGet (cleanupProcessed processed store).1 id = some (cleanupRepoKept sha es) := by
  intro processed
  induction processed with
  | nil =>
    intro store _ id sha es hget _
    simp [alGet] at hget
  | cons p rest ih =>
    obtain ⟨id0, sha0⟩ := p
    intro store hnodup id sha es hget hstore
    simp only [List.map_cons, List.nodup_cons] at hnodup
    by_cases hid : id0 = id
    · subst hid
      have hsha : sha = sha0 := by simpa [alGet] using hget.symm
      subst hsha
      unfold cleanupProcessed
      rw [hstore]
      simp only
      rw [cleanupProcessed_frame rest _ id0 ?hr]
      · exact alGet_set_self _ _ _
      case hr =>
        intro q hq hc
        exact hnodup.1 (hc ▸ List.mem_map_of_mem _ hq)
    · have hget' : alGet rest id = some sha := by
        simpa [alGet, hid] using hget
      unfold cleanupProcessed
      cases hg : alGet store id0 with
      | none => exact ih store hnodup.2 id sha es hget' hstore
      | some es0 =>
        simp only
        refine ih _ hnodup.2 id sha es hget' ?_
        rw [alGet_set_ne _ _ _ _ (Ne.symm hid)]
        exact hstore

theorem filter_keys_get (keys : List String) :
    ∀ (store : List (String × List DirEntry)) (id : String),
      alGet (store.filter (fun kv => keys.contains kv.1)) id =
        if keys.contains id then alGet store id else none := by
  intro store
  induction store with
  | nil =>
    intro id
    simp [alGet]
  | cons kv rest ih =>
    intro id
    by_cases hc : keys.contains kv.1 = true
    · rw [List.filter_cons, if_pos (by rw [hc])]
      by_cases hk : kv.1 = id
      · subst hk
        rw [if_pos hc]
        simp [alGet]
      · simp only [alGet, hk, if_false, if_neg hk]
        exact ih id
    · rw [List.filter_cons, if_neg (by simpa using hc)]
      by_cases hk : kv.1 = id
      · subst hk
        rw [ih kv.1]
        simp only [Bool.not_eq_true] at hc
        rw [hc]
        rfl
      · simp only [alGet]
        rw [ih id]
        simp [alGet, hk]

theorem list_contains_iff_mem (l : List String) (a : String) :
    l.contains a = true ↔ a ∈ l := by
  simp [List.contains]

theorem cleanupProcessed_wf :
    ∀ (processed : List (String × String)) (store : List (String × List DirEntry)),
      StoreWf store → StoreWf (cleanupProcessed processed store).1 := by
  intro processed
  induction processed with
  | nil => intro store h; exact h
  | cons p rest ih =>
    obtain ⟨id0, sha0⟩ := p
    intro store h
    unfold cleanupProcessed
    cases hg : alGet store id0 with
    | none => exact ih store h
    | some es =>
      simp only
      apply ih
      apply storeWf_set store id0 _ h
      have hes := h _ (alGet_mem _ _ _ hg)
      constructor
      · intro e he
        exact hes.1 e (List.mem_of_mem_filter he)
      · exact List.Nodup.sublist
          (List.Sublist.map (·.name) (List.filter_sublist es)) hes.2

/-- The store shape after a successful full sync: exactly one subtree per
planned processed repo id, holding exactly the resolved identifier
directory; the resulting store is again well-formed. -/
theorem sync_store_shape (env : GitEnv) (cfg : ConfigData) (w : World) (force : Bool)
    (d : ConfigData) (w' : World) (acts : List Act)
    (hGit : GitOk env) (hwf : StoreWf w.store)
    (h : sync_config env cfg w force = (.ok d, w', acts)) :
    (∀ id, (alGet w'.store id).isSome =
      (alGet (plannedProcessed env none cfg.repos) id).isSome) ∧
    (∀ id sha, alGet (plannedProcessed env none cfg.repos) id = some sha →
      alGet w'.store id = some [⟨sha, true⟩]) ∧
    StoreWf w'.store := by
  unfold sync_config _sync_config at h
  cases hb : _sync_body env cfg none force
      { world := w, acts := [], created_dirs := [], processed := [], repos_out := [] } with
  | error ep => rw [hb] at h; obtain ⟨e, st⟩ := ep; simp at h
  | ok p =>
    obtain ⟨data', st⟩ := p
    rw [hb] at h
    simp only [Prod.mk.injEq, Except.ok.injEq] at h
    obtain ⟨-, hw', -⟩ := h
    unfold _sync_body at hb
    cases hf : foldE (processEntry env cfg.store_dir cfg.agents none force)
        { world := w, acts := [], created_dirs := [], processed := [], repos_out := [] }
        cfg.repos with
    | error ep => rw [hf] at hb; simp at hb
    | ok st1 =>
      rw [hf] at hb
      simp only [Except.ok.injEq, Prod.mk.injEq] at hb
      obtain ⟨-, hst⟩ := hb
      have hstore : w'.store =
          (_cleanup_store st1.processed none st1.world.store).1 := by
        rw [← hw', ← hst]
      have hinv1 : FullInv st1 := by
        refine (foldE_inv (processEntry env cfg.store_dir cfg.agents none force)
          (fun s t => FullInv s → FullInv t) (fun _ hs => hs)
          (fun _ _ _ h1 h2 hs => h2 (h1 hs))
          (fun s x s' hfx => (processEntry_fullInv env hGit cfg.store_dir cfg.agents
            none force s x).1 s' hfx)
          (fun s x e s' hfx => (processEntry_fullInv env hGit cfg.store_dir cfg.agents
            none force s x).2 e s' hfx)
          cfg.repos _).1 st1 hf ?_
        refine ⟨hwf, ?_, List.nodup_nil⟩
        intro id sha hget
        simp [alGet] at hget
      have hproc : st1.processed = plannedProcessed env none cfg.repos := by
        rw [runRepos_processed env cfg.store_dir cfg.agents none force cfg.repos _ st1 hf]
        rfl
      obtain ⟨hS, hPairs, hNodup⟩ := hinv1
      have hfinal : ∀ id, alGet w'.store id =
          if (st1.processed.map (·.1)).contains id then
            alGet (cleanupProcessed st1.processed st1.world.store).1 id
          else none := by
        intro id
        rw [hstore]
        exact filter_keys_get (st1.processed.map (·.1))
          (cleanupProcessed st1.processed st1.world.store).1 id
      refine ⟨?_, ?_, ?_⟩
      · intro id
        rw [hfinal id]
        by_cases hk : (st1.processed.map (·.1)).contains id = true
        · rw [if_pos hk]
          have hid : id ∈ st1.processed.map (·.1) := (list_contains_iff_mem _ _).mp hk
          have hisP : (alGet st1.processed id).isSome = true :=
            (alGet_isSome_iff_mem _ _).mpr hid
          obtain ⟨sha, hsha⟩ := Option.isSome_iff_exists.mp hisP
          obtain ⟨-, es, hes, -⟩ := hPairs id sha hsha
          rw [cleanupProcessed_isSome, hes, ← hproc, hsha]
          rfl
        · rw [if_neg hk, ← hproc]
          have hne : (alGet st1.processed id).isSome ≠ true := by
            intro hc
            exact hk ((list_contains_iff_mem _ _).mpr ((alGet_isSome_iff_mem _ _).mp hc))
          cases hcase : alGet st1.processed id with
          | none => rfl
          | some sha =>
            rw [hcase] at hne
            exact absurd rfl hne
      · intro id sha hplan
        have hsha : alGet st1.processed id = some sha := by
          rw [hproc]; exact hplan
        obtain ⟨-, es, hes, hmem⟩ := hPairs id sha hsha
        have heswf := hS _ (alGet_mem _ _ _ hes)
        have hclean : alGet (cleanupProcessed st1.processed st1.world.store).1 id =
            some (cleanupRepoKept sha es) :=
          cleanupProcessed_get st1.processed st1.world.store hNodup id sha es hsha hes
        have hkept : cleanupRepoKept sha es = [⟨sha, true⟩] :=
          cleanupRepoKept_singleton sha es heswf.1 heswf.2 hmem
        have hk : (st1.processed.map (·.1)).contains id = true :=
          (list_contains_iff_mem _ _).mpr
            ((alGet_isSome_iff_mem _ _).mp (by rw [hsha]; rfl))
        rw [hfinal id, if_pos hk, hclean, hkept]
      · rw [hstore]
        intro kv hkv
        have hkv' : kv ∈ (cleanupProcessed st1.processed st1.world.store).1.filter
            (fun kv => (st1.processed.map (·.1)).contains kv.1) := hkv
        exact cleanupProcessed_wf st1.processed st1.world.store hS kv
          (List.mem_of_mem_filter hkv')

/-- C4 (amended): on a full (non-filtered) successful sync of a well-formed
store, the final store keeps exactly one subtree per repo id that was
actually processed this run (eligible repositories: passing the filter and
having at least one derived sparse path), and that subtree holds exactly
the identifier directory resolved in this run; every other repository
subtree — including subtrees of repositories still declared in the
manifest but with no processed skills — is removed by the store-root
sweep. -/
theorem full_sync_prune (env : GitEnv) (cfg : ConfigData) (w : World) (force : Bool)
    (d : ConfigData) (w' : World) (acts : List Act)
    (hGit : GitOk env) (hwf : StoreWf w.store)
    (h : sync_config env cfg w force = (.ok d, w', acts)) :
    (∀ id, (alGet w'.store id).isSome =
      (alGet (plannedProcessed env none cfg.repos) id).isSome) ∧
    (∀ id sha, alGet (plannedProcessed env none cfg.repos) id = some sha →
      alGet w'.store id = some [⟨sha, true⟩]) :=
  ⟨(sync_store_shape env cfg w force d w' acts hGit hwf h).1,
   (sync_store_shape env cfg w force d w' acts hGit hwf h).2.1⟩

def noSkillCfg : ConfigData :=
  { store_dir := "st", agents := [], repos := [⟨"u", "v1", none, []⟩] }

def noSkillWorld : World :=
  { store := [("u", [⟨"abc", true⟩])], dests := [], manifest := "M" }

/-- C4 counterexample: a repository declared in the manifest but with no
skills (hence no derived sparse paths) is skipped by the loop, so it is
not a processed repo root; the store-root sweep of a full successful sync
then removes its store subtree even though the repository is still present
in the manifest — refuting "subtrees of repositories still declared in the
manifest are kept". -/
theorem full_sync_prune_counterexample :
    (sync_config sampleEnv noSkillCfg noSkillWorld false).1 = .ok noSkillCfg ∧
    noSkillCfg.repos.map (fun r => _repo_id r.repo) = ["u"] ∧
    alGet noSkillWorld.store "u" = some [⟨"abc", true⟩] ∧
    alGet (sync_config sampleEnv noSkillCfg noSkillWorld false).2.1.store "u" = none :=
  ⟨rfl, rfl, rfl, rfl⟩

/-- Witness for `full_sync_prune`: a concrete successful full sync from an
empty (hence well-formed) store ends with exactly the resolved identifier
directory under the processed repository's subtree. -/
theorem full_sync_prune_witness :
    GitOk sampleEnv ∧ StoreWf sampleWorld.store ∧
    alGet (plannedProcessed sampleEnv none sampleCfg.repos) "u" = some "abc" ∧
    alGet (sync_config sampleEnv sampleCfg sampleWorld false).2.1.store "u" =
      some [⟨"abc", true⟩] := by
  have hGit : GitOk sampleEnv := by
    intro u r s hs
    simp only [sampleEnv] at hs
    cases hs
    decide
  have hwf : StoreWf sampleWorld.store := by
    intro kv hkv
    exact absurd hkv (List.not_mem_nil kv)
  refine ⟨hGit, hwf, rfl, ?_⟩
  exact (full_sync_prune sampleEnv sampleCfg sampleWorld false _ _ _ hGit hwf rfl).2
    "u" "abc" rfl

/-! ### Idempotence of a second run (C8) -/

theorem storeMkdir_id (store : List (String × List DirEntry)) (id : String)
    (h : (alGet store id).isSome = true) : storeMkdir store id = store := by
  unfold storeMkdir
  rw [if_pos h]

theorem planned_foldl_frame (env : GitEnv) (flt : Option String) :
    ∀ (l : List RepoEntry) (acc : List (String × String)) (id : String),
      (∀ r ∈ l, _repo_id r.repo ≠ id) →
      alGet (l.foldl (fun acc r =>
        if eligible flt r then alSet acc (_repo_id r.repo) (gitShaD env r.repo r.rev)
        else acc) acc) id = alGet acc id := by
  intro l
  induction l with
  | nil => intro acc id _; rfl
  | cons x xs ih =>
    intro acc id hne
    simp only [List.foldl_cons]
    rw [ih _ id (fun r hr => hne r (List.mem_cons_of_mem _ hr))]
    split
    · exact alGet_set_ne _ _ _ _ (Ne.symm (hne x (List.mem_cons_self _ _)))
    · rfl

theorem planned_foldl_get (env : GitEnv) :
    ∀ (l : List RepoEntry) (acc : List (String × String)) (r : RepoEntry),
      ((l.map (fun r => _repo_id r.repo)).Nodup) →
      r ∈ l → eligible none r = true →
      alGet (l.foldl (fun acc r =>
        if eligible none r then alSet acc (_repo_id r.repo) (gitShaD env r.repo r.rev)
        else acc) acc) (_repo_id r.repo) = some (gitShaD env r.repo r.rev) := by
  intro l
  induction l with
  | nil => intro acc r _ hr; cases hr
  | cons x xs ih =>
    intro acc r hnodup hr helig
    simp only [List.map_cons, List.nodup_cons] at hnodup
    rcases List.mem_cons.mp hr with rfl | hr'
    · simp only [List.foldl_cons, helig, if_true]
      rw [planned_foldl_frame env none xs _ (_repo_id r.repo) ?hf]
      · exact alGet_set_self _ _ _
      case hf =>
        intro r' hr' hc
        exact hnodup.1 (hc ▸ List.mem_map_of_mem _ hr')
    · simp only [List.foldl_cons]
      exact ih _ r hnodup.2 hr' helig

/-- A successful run resolves every eligible (non-id-colliding) repository
to its planned identifier. -/
theorem plannedProcessed_get (env : GitEnv) (repos : List RepoEntry) (r : RepoEntry)
    (hnodup : (repos.map (fun r => _repo_id r.repo)).Nodup)
    (hr : r ∈ repos) (helig : eligible none r = true) :
    alGet (plannedProcessed env none repos) (_repo_id r.repo) =
      some (gitShaD env r.repo r.rev) :=
  planned_foldl_get env repos [] r hnodup hr helig

theorem foldSkills_skillOk (env : GitEnv) (ags : List (String × Option String))
    (force : Bool) (sd id sha : String) :
    ∀ (skills : List Skill) (st st' : SyncSt),
      foldE (processSkill env ags force sd id sha) st skills = .ok st' →
      ∀ sk ∈ skills, env.skillOk id sha (_normalize_skill_path sk.location) = true := by
  intro skills
  induction skills with
  | nil => intro st st' _ sk hsk; cases hsk
  | cons x xs ih =>
    intro st st' h sk hsk
    simp only [foldE] at h
    cases hx : processSkill env ags force sd id sha st x with
    | error e => rw [hx] at h; simp at h
    | ok st1 =>
      rw [hx] at h
      rcases List.mem_cons.mp hsk with rfl | hsk'
      · by_cases hok : env.skillOk id sha (_normalize_skill_path sk.location) = true
        · exact hok
        · simp only [processSkill] at hx
          rw [if_neg hok] at hx
          simp at hx
      · exact ih st1 st' h sk hsk'

/-- A successful run has verified `SKILL.md` for every skill of every
eligible repository at the resolved identifier. -/
theorem runRepos_skillOk (env : GitEnv) (sd : String)
    (ags : List (String × Option String)) (flt : Option String) (force : Bool) :
    ∀ (l : List RepoEntry) (st st' : SyncSt),
      foldE (processEntry env sd ags flt force) st l = .ok st' →
      ∀ r ∈ l, eligible flt r = true →
        ∀ sk ∈ r.skills,
          env.skillOk (_repo_id r.repo) (gitShaD env r.repo r.rev)
            (_normalize_skill_path sk.location) = true := by
  intro l
  induction l with
  | nil => intro st st' _ r hr; cases hr
  | cons x xs ih =>
    intro st st' h r hr helig sk hsk
    simp only [foldE] at h
    cases hx : processEntry env sd ags flt force st x with
    | error e => rw [hx] at h; simp at h
    | ok st1 =>
      rw [hx] at h
      rcases List.mem_cons.mp hr with rfl | hr'
      · rcases processEntry_cases env sd ags flt force st r with
          ⟨-, helig'⟩ | ⟨msg, -, -, heq⟩ | ⟨sha, -, hgit, heq⟩
        · rw [helig'] at helig; cases helig
        · rw [heq] at hx; simp at hx
        · rw [heq] at hx
          have hsha : gitShaD env r.repo r.rev = sha := by
            unfold gitShaD
            rw [hgit]
          rw [hsha]
          exact foldSkills_skillOk env ags force sd (_repo_id r.repo) sha
            r.skills _ st1 hx sk hsk
      · exact ih st1 st' h r hr' helig sk hsk

/-- What a full run writes into each repository entry before appending it
to the output list: eligible entries get their freshly resolved
identifier, skipped entries pass through unchanged. -/
def updateSha (env : GitEnv) (r : RepoEntry) : RepoEntry :=
  if eligible none r then { r with resolved_sha := some (gitShaD env r.repo r.rev) }
  else r

theorem runRepos_reposOut (env : GitEnv) (sd : String)
    (ags : List (String × Option String)) (force : Bool) :
    ∀ (l : List RepoEntry) (st st' : SyncSt),
      foldE (processEntry env sd ags none force) st l = .ok st' →
      st'.repos_out = st.repos_out ++ l.map (updateSha env) := by
  intro l
  induction l with
  | nil =>
    intro st st' h
    simp only [foldE, Except.ok.injEq] at h
    subst h
    simp
  | cons x xs ih =>
    intro st st' h
    simp only [foldE] at h
    cases hx : processEntry env sd ags none force st x with
    | error e => rw [hx] at h; simp at h
    | ok st1 =>
      rw [hx] at h
      have hstep : st1.repos_out = st.repos_out ++ [updateSha env x] := by
        rcases processEntry_cases env sd ags none force st x with
          ⟨heq, helig⟩ | ⟨msg, -, -, heq⟩ | ⟨sha, helig, hgit, heq⟩
        · rw [heq] at hx
          simp only [Except.ok.injEq] at hx
          rw [← hx]
          simp [updateSha, helig]
        · rw [heq] at hx; simp at hx
        · rw [heq] at hx
          have hf := (skillsPhase_frame env ags force sd (_repo_id x.repo) sha
            x.skills (afterExportSt st x sha)).1 st1 hx
          rw [hf.repos]
          have hsha : gitShaD env x.repo x.rev = sha := by
            unfold gitShaD
            rw [hgit]
          have hupd : updateSha env x = { x with resolved_sha := some sha } := by
            unfold updateSha
            rw [if_pos helig, hsha]
          rw [hupd]
          unfold afterExportSt
          split <;> rfl
      rw [ih st1 st' h, hstep, List.map_cons]
      simp [List.append_assoc]

/-- The symlink target `_link_skill` computes for a skill of a resolved
repository export. -/
def skillTarget (sd id sha : String) (sk : Skill) : List String :=
  posixParts sd ++ [id, sha] ++ posixParts (_normalize_skill_path sk.location)

/-- The link write `_link_skill` performs for one agent name: none when the
agent has no configured non-empty `target_dir`. -/
def agentWrite (ags : List (String × Option String)) (name : String)
    (path : List String) (ag : String) : Option (List String × List String) :=
  match alGet ags ag with
  | some (some td) => if td = "" then none else some (posixParts td ++ [name], path)
  | _ => none

/-- The link writes of one skill, in agent order. -/
def skillWrites (ags : List (String × Option String)) (sd id sha : String)
    (sk : Skill) : List (List String × List String) :=
  sk.agents.filterMap (agentWrite ags sk.name (skillTarget sd id sha sk))

/-- All link writes of a full run, in execution order. -/
def linkWrites (env : GitEnv) (ags : List (String × Option String)) (sd : String)
    (repos : List RepoEntry) : List (List String × List String) :=
  repos.flatMap (fun r =>
    if eligible none r then
      r.skills.flatMap (skillWrites ags sd (_repo_id r.repo) (gitShaD env r.repo r.rev))
    else [])

def applyWrites (ds : List (List String × DestState))
    (W : List (List String × List String)) : List (List String × DestState) :=
  W.foldl (fun ds pt => alSet ds pt.1 (DestState.symlinkTo pt.2)) ds

/-- No two writes of the run map the same link path to different targets
(e.g. skill names unique per agent across the manifest). -/
def ConsistentWrites (W : List (List String × List String)) : Prop :=
  ∀ p t1 t2, (p, t1) ∈ W → (p, t2) ∈ W → t1 = t2

theorem applyWrites_append (ds : List (List String × DestState))
    (a b : List (List String × List String)) :
    applyWrites ds (a ++ b) = applyWrites (applyWrites ds a) b := by
  unfold applyWrites
  rw [List.foldl_append]

theorem applyWrites_frame :
    ∀ (W : List (List String × List String)) (ds : List (List String × DestState))
      (p : List String), p ∉ W.map (·.1) →
      alGet (applyWrites ds W) p = alGet ds p := by
  intro W
  induction W with
  | nil => intro ds p _; rfl
  | cons pt rest ih =>
    intro ds p hp
    simp only [List.map_cons, List.mem_cons, not_or] at hp
    unfold applyWrites
    simp only [List.foldl_cons]
    rw [show (rest.foldl (fun ds pt => alSet ds pt.1 (DestState.symlinkTo pt.2))
        (alSet ds pt.1 (DestState.symlinkTo pt.2))) =
      applyWrites (alSet ds pt.1 (DestState.symlinkTo pt.2)) rest from rfl]
    rw [ih _ p hp.2]
    exact alGet_set_ne _ _ _ _ hp.1

theorem applyWrites_get :
    ∀ (W : List (List String × List String)) (ds : List (List String × DestState))
      (p t : List String), ConsistentWrites W → (p, t) ∈ W →
      alGet (applyWrites ds W) p = some (.symlinkTo t) := by
  intro W
  induction W with
  | nil => intro ds p t _ hm; cases hm
  | cons pt rest ih =>
    intro ds p t hcons hm
    have hrest : ConsistentWrites rest := by
      intro q t1 t2 h1 h2
      exact hcons q t1 t2 (List.mem_cons_of_mem _ h1) (List.mem_cons_of_mem _ h2)
    unfold applyWrites
    simp only [List.foldl_cons]
    rw [show (rest.foldl (fun ds pt => alSet ds pt.1 (DestState.symlinkTo pt.2))
        (alSet ds pt.1 (DestState.symlinkTo pt.2))) =
      applyWrites (alSet ds pt.1 (DestState.symlinkTo pt.2)) rest from rfl]
    by_cases hp : p ∈ rest.map (·.1)
    · obtain ⟨q, hq, hq1⟩ := List.mem_map.mp hp
      have hq' : (p, q.2) ∈ rest := by
        have : q = (p, q.2) := by
          rw [← hq1]
        rw [← this]
        exact hq
      have ht : q.2 = t :=
        hcons p q.2 t (List.mem_cons_of_mem _ hq') hm
      rw [ht] at hq'
      exact ih _ p t hrest hq'
    · rcases List.mem_cons.mp hm with heq | hm'
      · rw [applyWrites_frame rest _ p hp, ← heq]
        exact alGet_set_self _ _ _
      · exact absurd (List.mem_map_of_mem (·.1) hm') hp

theorem linkAgent_dests (ags : List (String × Option String)) (force : Bool)
    (name : String) (path : List String) (st : SyncSt) (ag : String)
    (st' : SyncSt) (h : linkAgent ags force name path st ag = .ok st') :
    st'.world.dests =
      match agentWrite ags name path ag with
      | none => st.world.dests
      | some pt => alSet st.world.dests pt.1 (DestState.symlinkTo pt.2) := by
  unfold linkAgent at h
  unfold agentWrite
  cases hag : alGet ags ag with
  | none =>
    rw [hag] at h
    simp only [Except.ok.injEq] at h
    rw [← h]
  | some o =>
    cases o with
    | none =>
      rw [hag] at h
      simp only [Except.ok.injEq] at h
      rw [← h]
    | some td =>
      rw [hag] at h
      dsimp only at h ⊢
      by_cases htd : td = ""
      · rw [if_pos htd] at h
        simp only [Except.ok.injEq] at h
        rw [← h, if_pos htd]
      · rw [if_neg htd] at h
        rw [if_neg htd]
        cases hes : _ensure_symlink (posixParts td ++ [name])
            ((alGet st.world.dests (posixParts td ++ [name])).getD .absent)
            path true true force with
        | error e => rw [hes] at h; simp at h
        | ok lacts =>
          rw [hes] at h
          simp only [Except.ok.injEq] at h
          rw [← h]

theorem foldAgents_dests (ags : List (String × Option String)) (force : Bool)
    (name : String) (path : List String) :
    ∀ (agl : List String) (st st' : SyncSt),
      foldE (linkAgent ags force name path) st agl = .ok st' →
      st'.world.dests =
        applyWrites st.world.dests (agl.filterMap (agentWrite ags name path)) := by
  intro agl
  induction agl with
  | nil =>
    intro st st' h
    simp only [foldE, Except.ok.injEq] at h
    rw [← h]
    rfl
  | cons ag rest ih =>
    intro st st' h
    simp only [foldE] at h
    cases hx : linkAgent ags force name path st ag with
    | error e => rw [hx] at h; simp at h
    | ok st1 =>
      rw [hx] at h
      have h1 := linkAgent_dests ags force name path st ag st1 hx
      rw [List.filterMap_cons]
      cases hw : agentWrite ags name path ag with
      | none =>
        rw [hw] at h1
        rw [ih st1 st' h, h1]
      | some pt =>
        rw [hw] at h1
        rw [ih st1 st' h, h1]
        rfl

theorem processSkill_dests (env : GitEnv) (ags : List (String × Option String))
    (force : Bool) (sd id sha : String) (st st' : SyncSt) (sk : Skill)
    (h : processSkill env ags force sd id sha st sk = .ok st') :
    st'.world.dests = applyWrites st.world.dests (skillWrites ags sd id sha sk) := by
  simp only [processSkill] at h
  by_cases hok : env.skillOk id sha (_normalize_skill_path sk.location) = true
  · rw [if_pos hok] at h
    exact foldAgents_dests ags force sk.name _ sk.agents st st' h
  · rw [if_neg hok] at h
    simp at h

theorem foldSkills_dests (env : GitEnv) (ags : List (String × Option String))
    (force : Bool) (sd id sha : String) :
    ∀ (skills : List Skill) (st st' : SyncSt),
      foldE (processSkill env ags force sd id sha) st skills = .ok st' →
      st'.world.dests =
        applyWrites st.world.dests (skills.flatMap (skillWrites ags sd id sha)) := by
  intro skills
  induction skills with
  | nil =>
    intro st st' h
    simp only [foldE, Except.ok.injEq] at h
    rw [← h]
    rfl
  | cons sk rest ih =>
    intro st st' h
    simp only [foldE] at h
    cases hx : processSkill env ags force sd id sha st sk with
    | error e => rw [hx] at h; simp at h
    | ok st1 =>
      rw [hx] at h
      rw [List.flatMap_cons, applyWrites_append, ih st1 st' h,
        processSkill_dests env ags force sd id sha st st1 sk hx]

theorem afterExportSt_dests (st : SyncSt) (entry : RepoEntry) (sha : String) :
    (afterExportSt st entry sha).world.dests = st.world.dests := by
  unfold afterExportSt
  split <;> rfl

theorem processEntry_dests (env : GitEnv) (sd : String)
    (ags : List (String × Option String)) (force : Bool)
    (st st' : SyncSt) (entry : RepoEntry)
    (h : processEntry env sd ags none force st entry = .ok st') :
    st'.world.dests = applyWrites st.world.dests
      (if eligible none entry then
        entry.skills.flatMap
          (skillWrites ags sd (_repo_id entry.repo) (gitShaD env entry.repo entry.rev))
      else []) := by
  rcases processEntry_cases env sd ags none force st entry with
    ⟨heq, helig⟩ | ⟨msg, -, -, heq⟩ | ⟨sha, helig, hgit, heq⟩
  · rw [heq] at h
    simp only [Except.ok.injEq] at h
    rw [← h, helig, if_neg (by simp)]
    rfl
  · rw [heq] at h; simp at h
  · rw [heq] at h
    have hsha : gitShaD env entry.repo entry.rev = sha := by
      unfold gitShaD
      rw [hgit]
    rw [helig, if_pos rfl, hsha,
      foldSkills_dests env ags force sd (_repo_id entry.repo) sha entry.skills _ st' h,
      afterExportSt_dests]

theorem runRepos_dests (env : GitEnv) (sd : String)
    (ags : List (String × Option String)) (force : Bool) :
    ∀ (l : List RepoEntry) (st st' : SyncSt),
      foldE (processEntry env sd ags none force) st l = .ok st' →
      st'.world.dests = applyWrites st.world.dests (linkWrites env ags sd l) := by
  intro l
  induction l with
  | nil =>
    intro st st' h
    simp only [foldE, Except.ok.injEq] at h
    rw [← h]
    rfl
  | cons x xs ih =>
    intro st st' h
    simp only [foldE] at h
    cases hx : processEntry env sd ags none force st x with
    | error e => rw [hx] at h; simp at h
    | ok st1 =>
      rw [hx] at h
      have hx' := processEntry_dests env sd ags force st st1 x hx
      unfold linkWrites
      rw [List.flatMap_cons, applyWrites_append]
      rw [show (xs.flatMap (fun r =>
          if eligible none r then
            r.skills.flatMap
              (skillWrites ags sd (_repo_id r.repo) (gitShaD env r.repo r.rev))
          else [])) = linkWrites env ags sd xs from rfl]
      rw [ih st1 st' h, hx']

/-- A successful run has a resolved identifier from the git pipeline for
every eligible repository. -/
theorem runRepos_gitSucceeds (env : GitEnv) (sd : String)
    (ags : List (String × Option String)) (flt : Option String) (force : Bool) :
    ∀ (l : List RepoEntry) (st st' : SyncSt),
      foldE (processEntry env sd ags flt force) st l = .ok st' →
      ∀ r ∈ l, eligible flt r = true →
        env.git r.repo r.rev = .ok (gitShaD env r.repo r.rev) := by
  intro l
  induction l with
  | nil => intro st st' _ r hr; cases hr
  | cons x xs ih =>
    intro st st' h r hr helig
    simp only [foldE] at h
    cases hx : processEntry env sd ags flt force st x with
    | error e => rw [hx] at h; simp at h
    | ok st1 =>
      rw [hx] at h
      rcases List.mem_cons.mp hr with rfl | hr'
      · rcases processEntry_cases env sd ags flt force st r with
          ⟨-, helig'⟩ | ⟨msg, -, -, heq⟩ | ⟨sha, -, hgit, heq⟩
        · rw [helig'] at helig; cases helig
        · rw [heq] at hx; simp at hx
        · have hsha : gitShaD env r.repo r.rev = sha := by
            unfold gitShaD
            rw [hgit]
          rw [hsha]
          exact hgit
      · exact ih st1 st' h r hr' helig

theorem quiet_linkAgent (ags : List (String × Option String)) (force : Bool)
    (name : String) (path : List String) (st : SyncSt) (ag : String)
    (hd : ∀ pt, agentWrite ags name path ag = some pt →
      alGet st.world.dests pt.1 = some (.symlinkTo pt.2)) :
    linkAgent ags force name path st ag = .ok st := by
  obtain ⟨⟨S, D, M⟩, A, C, P, R⟩ := st
  unfold linkAgent
  cases hag : alGet ags ag with
  | none => rfl
  | some o =>
    cases o with
    | none => rfl
    | some td =>
      dsimp only
      by_cases htd : td = ""
      · rw [if_pos htd]
      · rw [if_neg htd]
        have hd' : alGet D (posixParts td ++ [name]) = some (.symlinkTo path) := by
          have := hd (posixParts td ++ [name], path) (by
            unfold agentWrite
            rw [hag]
            dsimp only
            rw [if_neg htd])
          exact this
        rw [hd']
        have hens : _ensure_symlink (posixParts td ++ [name])
            ((some (DestState.symlinkTo path)).getD .absent) path true true force =
            .ok [] := by
          unfold _ensure_symlink
          simp
        rw [hens, alSet_same _ _ _ hd']
        simp

theorem quiet_foldAgents (ags : List (String × Option String)) (force : Bool)
    (name : String) (path : List String) :
    ∀ (agl : List String) (st : SyncSt),
      (∀ ag ∈ agl, ∀ pt, agentWrite ags name path ag = some pt →
        alGet st.world.dests pt.1 = some (.symlinkTo pt.2)) →
      foldE (linkAgent ags force name path) st agl = .ok st := by
  intro agl
  induction agl with
  | nil => intro st _; rfl
  | cons ag rest ih =>
    intro st hd
    simp only [foldE]
    rw [quiet_linkAgent ags force name path st ag
      (fun pt hpt => hd ag (List.mem_cons_self _ _) pt hpt)]
    exact ih st (fun a ha pt hpt => hd a (List.mem_cons_of_mem _ ha) pt hpt)

theorem quiet_processSkill (env : GitEnv) (ags : List (String × Option String))
    (force : Bool) (sd id sha : String) (st : SyncSt) (sk : Skill)
    (hok : env.skillOk id sha (_normalize_skill_path sk.location) = true)
    (hd : ∀ pt ∈ skillWrites ags sd id sha sk,
      alGet st.world.dests pt.1 = some (.symlinkTo pt.2)) :
    processSkill env ags force sd id sha st sk = .ok st := by
  simp only [processSkill]
  rw [if_pos hok]
  exact quiet_foldAgents ags force sk.name (skillTarget sd id sha sk) sk.agents st
    (fun ag hag pt hpt => hd pt (List.mem_filterMap.mpr ⟨ag, hag, hpt⟩))

theorem quiet_foldSkills (env : GitEnv) (ags : List (String × Option String))
    (force : Bool) (sd id sha : String) :
    ∀ (skills : List Skill) (st : SyncSt),
      (∀ sk ∈ skills,
        env.skillOk id sha (_normalize_skill_path sk.location) = true ∧
        ∀ pt ∈ skillWrites ags sd id sha sk,
          alGet st.world.dests pt.1 = some (.symlinkTo pt.2)) →
      foldE (processSkill env ags force sd id sha) st skills = .ok st := by
  intro skills
  induction skills with
  | nil => intro st _; rfl
  | cons sk rest ih =>
    intro st hd
    simp only [foldE]
    rw [quiet_processSkill env ags force sd id sha st sk
      (hd sk (List.mem_cons_self _ _)).1 (hd sk (List.mem_cons_self _ _)).2]
    exact ih st (fun s hs => hd s (List.mem_cons_of_mem _ hs))

/-- Conditions under which a repository entry is a no-op for the second
run: the git pipeline resolves, the identifier directory is already in the
store, every `SKILL.md` check passes, and every link already points at the
skill path. -/
def ReadyEntry (env : GitEnv) (ags : List (String × Option String)) (sd : String)
    (w : World) (r : RepoEntry) : Prop :=
  eligible none r = true →
    env.git r.repo r.rev = .ok (gitShaD env r.repo r.rev) ∧
    entriesHas ((alGet w.store (_repo_id r.repo)).getD [])
      (gitShaD env r.repo r.rev) = true ∧
    ∀ sk ∈ r.skills,
      env.skillOk (_repo_id r.repo) (gitShaD env r.repo r.rev)
        (_normalize_skill_path sk.location) = true ∧
      ∀ pt ∈ skillWrites ags sd (_repo_id r.repo) (gitShaD env r.repo r.rev) sk,
        alGet w.dests pt.1 = some (.symlinkTo pt.2)

theorem quiet_processEntry (env : GitEnv) (sd : String)
    (ags : List (String × Option String)) (force : Bool) (st : SyncSt)
    (r : RepoEntry) (hR : ReadyEntry env ags sd st.world r) :
    ∃ st', processEntry env sd ags none force st r = .ok st' ∧
      st'.world = st.world ∧
      ∃ gs, st'.acts = st.acts ++ gs ∧ ∀ a ∈ gs, ∃ u v, a = Act.gitFetch u v := by
  by_cases helig : eligible none r = true
  · obtain ⟨hgit, hhas, hsk⟩ := hR helig
    obtain ⟨⟨S, D, M⟩, A, C, P, R⟩ := st
    dsimp only at hhas hsk
    have hisS : (alGet S (_repo_id r.repo)).isSome = true := by
      cases hget : alGet S (_repo_id r.repo) with
      | none =>
        rw [hget] at hhas
        simp [entriesHas] at hhas
      | some es => rfl
    have hmk : storeMkdir S (_repo_id r.repo) = S := storeMkdir_id _ _ hisS
    have hsparse : ¬ _collect_sparse_paths r.skills = [] := by
      intro hc
      unfold eligible at helig
      rw [hc] at helig
      simp at helig
    have hexp : exportRepo env (_repo_id r.repo) r.repo r.rev ⟨⟨S, D, M⟩, A, C, P, R⟩ =
        .ok (gitShaD env r.repo r.rev, false,
          ⟨⟨S, D, M⟩, A ++ [Act.gitFetch r.repo r.rev], C, P, R⟩) := by
      unfold exportRepo
      dsimp only
      rw [hmk, hgit]
      dsimp only
      rw [hhas]
      rfl
    refine ⟨⟨⟨S, D, M⟩, A ++ [Act.gitFetch r.repo r.rev], C ++ [],
      alSet P (_repo_id r.repo) (gitShaD env r.repo r.rev),
      R ++ [{ r with resolved_sha := some (gitShaD env r.repo r.rev) }]⟩,
      ?_, rfl, [Act.gitFetch r.repo r.rev], rfl, ?_⟩
    · simp only [processEntry]
      rw [if_neg (by simp [passesFilter]), if_neg hsparse, hexp]
      exact quiet_foldSkills env ags force sd (_repo_id r.repo)
        (gitShaD env r.repo r.rev) r.skills _
        (fun sk hs => ⟨(hsk sk hs).1, (hsk sk hs).2⟩)
    · intro a ha
      rw [List.mem_singleton] at ha
      exact ⟨r.repo, r.rev, ha⟩
  · have hsparse : _collect_sparse_paths r.skills = [] := by
      by_cases hc : _collect_sparse_paths r.skills = []
      · exact hc
      · exfalso
        apply helig
        unfold eligible
        simp [passesFilter, hc]
    refine ⟨{ st with repos_out := st.repos_out ++ [r] }, ?_, rfl, [], by simp, by simp⟩
    simp only [processEntry]
    rw [if_neg (by simp [passesFilter]), if_pos hsparse]

theorem quiet_runRepos (env : GitEnv) (sd : String)
    (ags : List (String × Option String)) (force : Bool) :
    ∀ (l : List RepoEntry) (st : SyncSt),
      (∀ r ∈ l, ReadyEntry env ags sd st.world r) →
      ∃ st', foldE (processEntry env sd ags none force) st l = .ok st' ∧
        st'.world = st.world ∧
        ∃ gs, st'.acts = st.acts ++ gs ∧ ∀ a ∈ gs, ∃ u v, a = Act.gitFetch u v := by
  intro l
  induction l with
  | nil =>
    intro st _
    exact ⟨st, rfl, rfl, [], by simp, by simp⟩
  | cons x xs ih =>
    intro st hR
    obtain ⟨st1, hx, hw1, gs1, ha1, hg1⟩ :=
      quiet_processEntry env sd ags force st x (hR x (List.mem_cons_self _ _))
    obtain ⟨st2, hxs, hw2, gs2, ha2, hg2⟩ := ih st1 (fun r hr => by
      rw [hw1]
      exact hR r (List.mem_cons_of_mem _ hr))
    refine ⟨st2, ?_, by rw [hw2, hw1], gs1 ++ gs2, ?_, ?_⟩
    · simp only [foldE]
      rw [hx]
      exact hxs
    · rw [ha2, ha1, List.append_assoc]
    · intro a ha
      rcases List.mem_append.mp ha with ha | ha
      · exact hg1 a ha
      · exact hg2 a ha

theorem updateSha_shape (env : GitEnv) (r : RepoEntry) :
    (updateSha env r).repo = r.repo ∧ (updateSha env r).rev = r.rev ∧
    (updateSha env r).skills = r.skills := by
  unfold updateSha
  split <;> exact ⟨rfl, rfl, rfl⟩

theorem eligible_updateSha (env : GitEnv) (r : RepoEntry) (flt : Option String) :
    eligible flt (updateSha env r) = eligible flt r := by
  unfold updateSha
  split <;> rfl

theorem updateSha_idem (env : GitEnv) (r : RepoEntry) :
    updateSha env (updateSha env r) = updateSha env r := by
  by_cases h : eligible none r = true
  · unfold updateSha
    rw [if_pos h, if_pos (show eligible none
        { r with resolved_sha := some (gitShaD env r.repo r.rev) } = true from h)]
  · have hr : updateSha env r = r := by
      unfold updateSha
      rw [if_neg h]
    rw [hr, hr]

theorem repoIds_updateSha (env : GitEnv) :
    ∀ (l : List RepoEntry),
      (l.map (updateSha env)).map (fun r => _repo_id r.repo) =
        l.map (fun r => _repo_id r.repo) := by
  intro l
  induction l with
  | nil => rfl
  | cons x xs ih =>
    simp only [List.map_cons]
    rw [(updateSha_shape env x).1, ih]

theorem planned_updateSha (env : GitEnv) :
    ∀ (l : List RepoEntry) (acc : List (String × String)),
      (l.map (updateSha env)).foldl
        (fun acc r => if eligible none r then
          alSet acc (_repo_id r.repo) (gitShaD env r.repo r.rev) else acc) acc =
      l.foldl (fun acc r => if eligible none r then
        alSet acc (_repo_id r.repo) (gitShaD env r.repo r.rev) else acc) acc := by
  intro l
  induction l with
  | nil => intro acc; rfl
  | cons x xs ih =>
    intro acc
    simp only [List.map_cons, List.foldl_cons]
    rw [eligible_updateSha, (updateSha_shape env x).1, (updateSha_shape env x).2.1,
      ih]

theorem plannedProcessed_updateSha (env : GitEnv) (l : List RepoEntry) :
    plannedProcessed env none (l.map (updateSha env)) = plannedProcessed env none l :=
  planned_updateSha env l []

theorem cleanup_acts_shape (processed : List (String × String)) (flt : Option String)
    (store : List (String × List DirEntry)) :
    ∀ a ∈ (_cleanup_store processed flt store).2,
      (∃ i n, a = Act.pruneEntry i n) ∨ ∃ i, a = Act.pruneRepo i := by
  intro a ha
  unfold _cleanup_store at ha
  cases flt with
  | some f =>
    simp only at ha
    exact Or.inl (cleanupProcessed_acts processed store a ha)
  | none =>
    simp only [List.mem_append] at ha
    rcases ha with ha | ha
    · exact Or.inl (cleanupProcessed_acts processed store a ha)
    · right
      unfold sweepStore at ha
      obtain ⟨kv, -, rfl⟩ := List.mem_map.mp ha
      exact ⟨kv.1, rfl⟩

/-- C8 (amended): running sync twice in a row with no manifest change and no
store interference is quiet on the second run in every respect except the
git fetch pipeline: under a collision-free manifest (distinct repo ids,
link-consistent skill placements), the second run succeeds with the same
configuration, performs no export copy (the identifier-keyed store
directory already exists) and no link operation (every link already
resolves to the correct skill path), and leaves the store contents and the
link destinations unchanged.  The git fetch pipeline, however, is re-run
(see the counterexample: fetches are repeated). -/
theorem sync_second_run_quiet (env : GitEnv) (cfg : ConfigData) (w : World)
    (force force2 : Bool) (d1 : ConfigData) (w1 : World) (a1 : List Act)
    (hGit : GitOk env) (hwf : StoreWf w.store)
    (hids : (cfg.repos.map (fun r => _repo_id r.repo)).Nodup)
    (hcons : ConsistentWrites (linkWrites env cfg.agents cfg.store_dir cfg.repos))
    (h1 : sync_config env cfg w force = (.ok d1, w1, a1)) :
    ∃ w2 a2, sync_config env d1 w1 force2 = (.ok d1, w2, a2) ∧
      (∀ id, alGet w2.store id = alGet w1.store id) ∧
      w2.dests = w1.dests ∧
      (∀ i s, Act.exportCopy i s ∉ a2) ∧
      (∀ lp la, Act.linkOp lp la ∉ a2) := by
  obtain ⟨hkeys1, hpairs1, hwf1⟩ := sync_store_shape env cfg w force d1 w1 a1 hGit hwf h1
  unfold sync_config _sync_config at h1
  cases hb1 : _sync_body env cfg none force
      { world := w, acts := [], created_dirs := [], processed := [], repos_out := [] } with
  | error ep => rw [hb1] at h1; obtain ⟨e, st⟩ := ep; simp at h1
  | ok p =>
    obtain ⟨data1, stA⟩ := p
    rw [hb1] at h1
    simp only [Prod.mk.injEq, Except.ok.injEq] at h1
    obtain ⟨hd1, hwA, -⟩ := h1
    unfold _sync_body at hb1
    cases hf1 : foldE (processEntry env cfg.store_dir cfg.agents none force)
        { world := w, acts := [], created_dirs := [], processed := [], repos_out := [] }
        cfg.repos with
    | error ep => rw [hf1] at hb1; simp at hb1
    | ok st1 =>
      rw [hf1] at hb1
      simp only [Except.ok.injEq, Prod.mk.injEq] at hb1
      obtain ⟨hdata1, hstA⟩ := hb1
      have hro1 : st1.repos_out = cfg.repos.map (updateSha env) := by
        have h := runRepos_reposOut env cfg.store_dir cfg.agents force cfg.repos _ st1 hf1
        simpa using h
      have hd1repos : d1.repos = cfg.repos.map (updateSha env) := by
        rw [← hd1, ← hdata1]
        exact hro1
      have hd1sd : d1.store_dir = cfg.store_dir := by
        rw [← hd1, ← hdata1]
      have hd1ags : d1.agents = cfg.agents := by
        rw [← hd1, ← hdata1]
      have hw1dests : w1.dests = st1.world.dests := by
        rw [← hwA, ← hstA]
      have hdests1 : st1.world.dests =
          applyWrites w.dests (linkWrites env cfg.agents cfg.store_dir cfg.repos) :=
        runRepos_dests env cfg.store_dir cfg.agents force cfg.repos _ st1 hf1
      have hdget : ∀ p t, (p, t) ∈ linkWrites env cfg.agents cfg.store_dir cfg.repos →
          alGet w1.dests p = some (.symlinkTo t) := by
        intro p t hm
        rw [hw1dests, hdests1]
        exact applyWrites_get _ w.dests p t hcons hm
      have hskills1 := runRepos_skillOk env cfg.store_dir cfg.agents none force
        cfg.repos _ st1 hf1
      have hgits1 := runRepos_gitSucceeds env cfg.store_dir cfg.agents none force
        cfg.repos _ st1 hf1
      have hstore1 : ∀ r ∈ cfg.repos, eligible none r = true →
          alGet w1.store (_repo_id r.repo) =
            some [⟨gitShaD env r.repo r.rev, true⟩] := fun r hr helig =>
        hpairs1 _ _ (plannedProcessed_get env cfg.repos r hids hr helig)
      have hReady : ∀ r' ∈ d1.repos, ReadyEntry env cfg.agents cfg.store_dir w1 r' := by
        rw [hd1repos]
        intro r' hr'
        obtain ⟨r, hr, rfl⟩ := List.mem_map.mp hr'
        intro helig'
        have helig : eligible none r = true := by
          rw [← eligible_updateSha env r none]
          exact helig'
        obtain ⟨hrepo, hrev, hskl⟩ := updateSha_shape env r
        rw [hrepo, hrev, hskl]
        refine ⟨hgits1 r hr helig, ?_, ?_⟩
        · rw [hstore1 r hr helig]
          simp [entriesHas]
        · intro sk hsk
          refine ⟨hskills1 r hr helig sk hsk, ?_⟩
          intro pt hpt
          have hmem : pt ∈ linkWrites env cfg.agents cfg.store_dir cfg.repos := by
            unfold linkWrites
            refine List.mem_flatMap.mpr ⟨r, hr, ?_⟩
            rw [if_pos helig]
            exact List.mem_flatMap.mpr ⟨sk, hsk, hpt⟩
          exact hdget pt.1 pt.2 hmem
      have hReady' : ∀ r' ∈ d1.repos, ReadyEntry env d1.agents d1.store_dir w1 r' := by
        rw [hd1sd, hd1ags]
        exact hReady
      obtain ⟨st2', hf2, hw2', gs, hacts2, hgs⟩ :=
        quiet_runRepos env d1.store_dir d1.agents force2 d1.repos
          { world := w1, acts := [], created_dirs := [], processed := [], repos_out := [] }
          hReady'
      have hmapidem : (cfg.repos.map (updateSha env)).map (updateSha env) =
          cfg.repos.map (updateSha env) := by
        rw [List.map_map]
        exact List.map_congr_left (fun r _ => updateSha_idem env r)
      have hro2 : st2'.repos_out = d1.repos := by
        have h := runRepos_reposOut env d1.store_dir d1.agents force2 d1.repos _ st2' hf2
        rw [h]
        dsimp only
        rw [List.nil_append, hd1repos]
        exact hmapidem
      have hdata2 : ({ d1 with repos := st2'.repos_out } : ConfigData) = d1 := by
        rw [hro2]
      have hb2 : _sync_body env d1 none force2
          { world := w1, acts := [], created_dirs := [], processed := [], repos_out := [] } =
          .ok ({ d1 with repos := st2'.repos_out },
            { st2' with
              world := { st2'.world with
                store := (_cleanup_store st2'.processed none st2'.world.store).1,
                manifest := dumpData { d1 with repos := st2'.repos_out } },
              acts := st2'.acts ++
                (_cleanup_store st2'.processed none st2'.world.store).2 ++
                [Act.saveManifest (dumpData { d1 with repos := st2'.repos_out })] }) := by
        unfold _sync_body
        rw [hf2]
      have h2eq : sync_config env d1 w1 force2 =
          (.ok d1,
           { st2'.world with
              store := (_cleanup_store st2'.processed none st2'.world.store).1,
              manifest := dumpData { d1 with repos := st2'.repos_out } },
           st2'.acts ++ (_cleanup_store st2'.processed none st2'.world.store).2 ++
              [Act.saveManifest (dumpData { d1 with repos := st2'.repos_out })]) := by
        unfold sync_config _sync_config
        rw [hb2, hdata2]
      obtain ⟨hkeys2, hpairs2, -⟩ :=
        sync_store_shape env d1 w1 force2 d1 _ _ hGit hwf1 h2eq
      have hplan2 : plannedProcessed env none d1.repos =
          plannedProcessed env none cfg.repos := by
        rw [hd1repos]
        exact plannedProcessed_updateSha env cfg.repos
      rw [hplan2] at hkeys2 hpairs2
      refine ⟨_, _, h2eq, ?_, ?_, ?_, ?_⟩
      · intro id
        cases hp : alGet (plannedProcessed env none cfg.repos) id with
        | none =>
          have h2 : (alGet ({ st2'.world with
              store := (_cleanup_store st2'.processed none st2'.world.store).1,
              manifest := dumpData { d1 with repos := st2'.repos_out } }).store id) =
              none := by
            apply Option.not_isSome_iff_eq_none.mp
            rw [hkeys2 id, hp]
            simp
          have h1' : alGet w1.store id = none := by
            apply Option.not_isSome_iff_eq_none.mp
            rw [hkeys1 id, hp]
            simp
          rw [h2, h1']
        | some sha =>
          rw [hpairs2 id sha hp, hpairs1 id sha hp]
      · show st2'.world.dests = w1.dests
        rw [hw2']
      · intro i s hmem
        rw [hacts2] at hmem
        simp only [List.mem_append, List.mem_singleton] at hmem
        rcases hmem with ((hmem | hmem) | hmem) | hmem
        · simp at hmem
        · obtain ⟨u, v, heq⟩ := hgs _ hmem
          cases heq
        · rcases cleanup_acts_shape st2'.processed none st2'.world.store _ hmem with
            ⟨i', n', heq⟩ | ⟨i', heq⟩ <;> cases heq
        · cases hmem
      · intro lp la hmem
        rw [hacts2] at hmem
        simp only [List.mem_append, List.mem_singleton] at hmem
        rcases hmem with ((hmem | hmem) | hmem) | hmem
        · simp at hmem
        · obtain ⟨u, v, heq⟩ := hgs _ hmem
          cases heq
        · rcases cleanup_acts_shape st2'.processed none st2'.world.store _ hmem with
            ⟨i', n', heq⟩ | ⟨i', heq⟩ <;> cases heq
        · cases hmem

def run1C8 : Except String ConfigData × World × List Act :=
  sync_config sampleEnv sampleCfg sampleWorld false

def d1C8 : ConfigData :=
  match run1C8.1 with
  | .ok d => d
  | .error _ => sampleCfg

def run2C8 : Except String ConfigData × World × List Act :=
  sync_config sampleEnv d1C8 run1C8.2.1 false

/-- C8 counterexample to "the second run performs no repeated fetches":
after a successful first run, a second run with the unchanged manifest and
store still invokes the git fetch pipeline for the repository — only the
export copy is skipped, the fetch itself is repeated. -/
theorem sync_repeated_fetch_counterexample :
    run1C8.1 = .ok d1C8 ∧
    Act.gitFetch "u" "v" ∈ run1C8.2.2 ∧
    Act.gitFetch "u" "v" ∈ run2C8.2.2 :=
  ⟨rfl, by decide, by decide⟩

/-- Witness for `sync_second_run_quiet` at a concrete successful run. -/
theorem sync_second_run_quiet_witness :
    GitOk sampleEnv ∧ StoreWf sampleWorld.store ∧
    (sampleCfg.repos.map (fun r => _repo_id r.repo)).Nodup ∧
    ConsistentWrites
      (linkWrites sampleEnv sampleCfg.agents sampleCfg.store_dir sampleCfg.repos) ∧
    ∃ w2 a2, sync_config sampleEnv d1C8 run1C8.2.1 false = (.ok d1C8, w2, a2) ∧
      (∀ id, alGet w2.store id = alGet run1C8.2.1.store id) ∧
      w2.dests = run1C8.2.1.dests ∧
      (∀ i s, Act.exportCopy i s ∉ a2) ∧
      (∀ lp la, Act.linkOp lp la ∉ a2) := by
  have hGit : GitOk sampleEnv := by
    intro u r s hs
    simp only [sampleEnv] at hs
    cases hs
    decide
  have hwf : StoreWf sampleWorld.store := by
    intro kv hkv
    exact absurd hkv (List.not_mem_nil kv)
  have hids : (sampleCfg.repos.map (fun r => _repo_id r.repo)).Nodup := by
    decide
  have hcons : ConsistentWrites
      (linkWrites sampleEnv sampleCfg.agents sampleCfg.store_dir sampleCfg.repos) := by
    intro p t1 t2 hp1 hp2
    rw [show linkWrites sampleEnv sampleCfg.agents sampleCfg.store_dir sampleCfg.repos
      = [] from rfl] at hp1
    cases hp1
  refine ⟨hGit, hwf, hids, hcons, ?_⟩
  exact sync_second_run_quiet sampleEnv sampleCfg sampleWorld false false
    d1C8 run1C8.2.1 run1C8.2.2 hGit hwf hids hcons rfl

end AgentSkills
